import Mathlib

/-!
# Proof-of-capacity core of go-xdn

A shallow embedding of `poc/poc.go`, of the verifiers, the base-target
controller, the rewards and the seal miner of `consensus/xdnoc/dnpoc.go`, of the
plot writer of `cmd/plot/main.go` and of the block pages of `xdn/api_backend.go`,
followed by theorems about them.

Conventions of the embedding:

* a Go `byte` is a `Fin 256`, a `[]byte` is a `List Byte`;
* a Go `uint64` or `int` is a natural number, reduced modulo `2 ^ 64` where the
  source can wrap; a `*big.Int` is an `Int`, and `big.Int.Div` is Euclidean
  division (`Int.ediv`, written `/`);
* a run-time panic (index out of range, division by zero, nil dereference) is
  the value `none` of an `Option`, and `Outcome.panic` for the seal verifier;
* `common.Address`, `common.Hash` and `types.Header` are declared outside the
  files embedded here: an address and a hash are byte strings, of 20 and 32
  bytes in the data model of the specification;
* Shabal-256 is a parameter: any function from messages to 32-byte digests.
-/

namespace GoXdn

/-! ## Bytes and integers -/

/-- A value of Go type `byte`. -/
abbrev Byte := Fin 256

/-- Big-endian value of a byte string: `big.Int.SetBytes`, and the value read by
`binary.BigEndian.Uint64` from eight bytes. -/
def beDecode (bs : List Byte) : Nat :=
  bs.foldl (fun acc b => acc * 256 + b.val) 0

/-- The call `binary.BigEndian.Uint64(b)`: it reads `b[0], ..., b[7]`, and panics by an
index out of range when `len(b) < 8`. -/
def BigEndian_Uint64 (b : List Byte) : Option Nat :=
  if b.length < 8 then none else some (beDecode (b.take 8))

/-- The eight bytes stored by `binary.BigEndian.PutUint64(buf, v)` for a `uint64`. -/
def PutUint64 (v : Nat) : List Byte :=
  [Fin.ofNat (v / 2 ^ 56), Fin.ofNat (v / 2 ^ 48), Fin.ofNat (v / 2 ^ 40),
   Fin.ofNat (v / 2 ^ 32), Fin.ofNat (v / 2 ^ 24), Fin.ofNat (v / 2 ^ 16),
   Fin.ofNat (v / 2 ^ 8), Fin.ofNat v]

/-- A Go slice expression `s[a:b]` on a slice long enough. -/
def slice (s : List Byte) (a b : Nat) : List Byte :=
  (s.drop a).take (b - a)

/-! ## `poc/poc.go`: constants and the small primitives -/

/-- Constant `HASH_SIZE`. -/
def HASH_SIZE : Nat := 32

/-- Constant `CELL_SIZE`. -/
def CELL_SIZE : Nat := 8192

/-- Constant `PLOT_SIZE`. -/
def PLOT_SIZE : Nat := 4096

/-- Function `CalcPlotID`: `tmp := addr.Bytes()[15:]`, then
`binary.BigEndian.Uint64(tmp)`. The address is the byte string `addr.Bytes()`; slicing
from 15 panics on fewer than 15 bytes, and the decoder panics on fewer than 8. -/
def CalcPlotID (addr : List Byte) : Option Nat :=
  if addr.length < 15 then none
  else
    let tmp := addr.drop 15
    BigEndian_Uint64 tmp

/-- Function `GetScoopID`: `ret = int(genHash[30] << 8) | int(genHash[31])`, then
`ret % 4096`. The shift is applied to the `byte` before the conversion to `int`, so it
is reduced modulo `2 ^ 8`. -/
def GetScoopID (genHash : List Byte) : Nat :=
  let shifted : Nat := ((genHash.getD 30 0).val * 2 ^ 8) % 2 ^ 8
  let ret : Nat := shifted ||| (genHash.getD 31 0).val
  ret % 4096

/-- Function `CalcDeadLine`: `new(big.Int).Div(target, baseTarget)`, which panics on a
zero divisor. -/
def CalcDeadLine (target baseTarget : Int) : Option Int :=
  if baseTarget = 0 then none else some (target / baseTarget)

/-- The two lines shared by the verifier and the miner:
`ntarget := new(big.Int).SetBytes((target.Bytes())[24:])` and
`deadline := poc.CalcDeadLine(ntarget, baseTarget)`. -/
def targetDeadLine (target : List Byte) (baseTarget : Int) : Option Int :=
  let ntarget : Int := (beDecode (target.drop 24) : Nat)
  CalcDeadLine ntarget baseTarget

/-! ## Loops -/

/-- The loop `for i := n - 1; i >= 0; i-- { s = body i s }`. -/
def forDown {σ : Type} (body : Nat → σ → σ) : Nat → σ → σ
  | 0, s => s
  | n + 1, s => forDown body n (body n s)

/-- The loop `for i := 0; i < n; i++ { s = body i s }`. -/
def forUp {σ : Type} (body : Nat → σ → σ) : Nat → σ → σ
  | 0, s => s
  | n + 1, s => body n (forUp body n s)

/-! ## The hash primitive -/

/-- Shabal-256 as an unspecified function: the digest of a message, always 32 bytes long. -/
structure Shabal where
  digest : List Byte → List Byte
  digest_length : ∀ m, (digest m).length = 32

/-- The state of a `hash.Hash`: the bytes written since the last reset. -/
structure Hasher where
  buf : List Byte

/-- Function `shabal.NewSha_bal256`. -/
def NewSha_bal256 : Hasher := ⟨[]⟩

/-- Method `Write` of the hasher. -/
def Hasher.Write (h : Hasher) (p : List Byte) : Hasher := ⟨h.buf ++ p⟩

/-- Method `Reset` of the hasher. -/
def Hasher.Reset (_h : Hasher) : Hasher := ⟨[]⟩

/-- The call `hasher.Sum(nil)`: the digest of what has been written; the state is kept. -/
def Hasher.Sum (S : Shabal) (h : Hasher) : List Byte := S.digest h.buf

/-! ## `poc/poc.go`: cells -/

/-- Function `rearrange`. -/
def rearrange (src : List Byte) : List Byte :=
  forUp (fun i res =>
    if i % 2 = 0 then
      res ++ slice src (HASH_SIZE * i) (HASH_SIZE * (i + 1))
    else
      res ++ slice src (HASH_SIZE * (CELL_SIZE - i)) (HASH_SIZE * (CELL_SIZE - i + 1)))
    CELL_SIZE []

/-- The pass shared by `GenCell` and `GenCellForP`:
`for i := CELL_SIZE - 1; i >= 0; i-- { for j := 0; j < HASH_SIZE; j++ {
cellBytes[i * HASH_SIZE + j] = cellBytes[i * HASH_SIZE + j] ^ final[j] } }`. -/
def xorFinal (final : List Byte) (cellBytes : List Byte) : List Byte :=
  forDown (fun i cellBytes =>
    forUp (fun j cellBytes =>
      cellBytes.set (i * HASH_SIZE + j)
        (cellBytes.getD (i * HASH_SIZE + j) 0 ^^^ final.getD j 0))
      HASH_SIZE cellBytes)
    CELL_SIZE cellBytes

/-- The value of `comBytes` in both cell builders: `append(pubBytes, nonceBytes...)`. -/
def comBytesOf (nonce pub : Nat) : List Byte :=
  let nonceBytes := PutUint64 nonce
  let pubBytes := PutUint64 pub
  pubBytes ++ nonceBytes

/-- The body of the first loop of `GenCell` at index `i`; the state is
`(hasher, cellBytes)`. -/
def GenCell.step (S : Shabal) (comBytes : List Byte) (i : Nat)
    (st : Hasher × List Byte) : Hasher × List Byte :=
  let hasher := st.1
  let cellBytes := st.2
  if i = CELL_SIZE - 1 then
    let com := comBytes
    let hasher := hasher.Write com
    let cell := hasher.Sum S
    (hasher, cell)
  else
    let com :=
      if cellBytes.length ≥ PLOT_SIZE then slice cellBytes 0 PLOT_SIZE
      else cellBytes ++ comBytes
    let hasher := hasher.Reset
    let hasher := hasher.Write com
    let cell := hasher.Sum S
    (hasher, cell ++ cellBytes)

/-- The first loop of `GenCell`, `for i := CELL_SIZE - 1; i >= 0; i--`, from a new
hasher and `var cellBytes []byte`. -/
def GenCell.build (S : Shabal) (comBytes : List Byte) : Hasher × List Byte :=
  forDown (GenCell.step S comBytes) CELL_SIZE (NewSha_bal256, [])

/-- Function `GenCell`, the cell builder of the verifier. -/
def GenCell (S : Shabal) (nonce pub : Nat) : List Byte :=
  let comBytes := comBytesOf nonce pub
  let st := GenCell.build S comBytes
  let hasher := st.1
  let cellBytes := st.2
  let com := cellBytes ++ comBytes
  let hasher := hasher.Reset
  let hasher := hasher.Write com
  let final := hasher.Sum S
  let cellBytes := xorFinal final cellBytes
  rearrange cellBytes

/-- The copy `for j := 0; j < HASH_SIZE; j++ { cellBytes[i * HASH_SIZE + j] = cell[j] }`
of `GenCellForP`. -/
def storeCell (cell : List Byte) (i : Nat) (cellBytes : List Byte) : List Byte :=
  forUp (fun j cellBytes => cellBytes.set (i * HASH_SIZE + j) (cell.getD j 0))
    HASH_SIZE cellBytes

/-- The body of the first loop of `GenCellForP` at index `i`; the state is
`(hasher, cellBytes)`. -/
def GenCellForP.step (S : Shabal) (comBytes : List Byte) (i : Nat)
    (st : Hasher × List Byte) : Hasher × List Byte :=
  let hasher := st.1
  let cellBytes := st.2
  if i = CELL_SIZE - 1 then
    let com := comBytes
    let hasher := hasher.Write com
    let cell := hasher.Sum S
    (hasher, storeCell cell i cellBytes)
  else
    let com :=
      if i < CELL_SIZE - 128 then
        slice cellBytes ((i + 1) * HASH_SIZE) ((i + 1) * HASH_SIZE + 128 * HASH_SIZE)
      else
        slice cellBytes ((i + 1) * HASH_SIZE) (CELL_SIZE * HASH_SIZE) ++ comBytes
    let hasher := hasher.Reset
    let hasher := hasher.Write com
    let cell := hasher.Sum S
    (hasher, storeCell cell i cellBytes)

/-- The first loop of `GenCellForP`, `for i := CELL_SIZE - 1; i >= 0; i--`, from a new
hasher and `cellBytes := make([]byte, CELL_SIZE * HASH_SIZE)`. -/
def GenCellForP.build (S : Shabal) (comBytes : List Byte) : Hasher × List Byte :=
  forDown (GenCellForP.step S comBytes) CELL_SIZE
    (NewSha_bal256, List.replicate (CELL_SIZE * HASH_SIZE) 0)

/-- Function `GenCellForP`, the cell builder of the plotter. -/
def GenCellForP (S : Shabal) (nonce pub : Nat) : List Byte :=
  let comBytes := comBytesOf nonce pub
  let st := GenCellForP.build S comBytes
  let hasher := st.1
  let cellBytes := st.2
  let com := cellBytes ++ comBytes
  let hasher := hasher.Reset
  let hasher := hasher.Write com
  let final := hasher.Sum S
  xorFinal final cellBytes

/-- Function `GenHash`; `common.BytesToHash` keeps a 32-byte digest as it is. -/
def GenHash (S : Shabal) (genSig : List Byte) (number : Nat) : List Byte :=
  let sigBytes := genSig
  let numBytes := PutUint64 number
  let comBytes := sigBytes ++ numBytes
  let hasher := NewSha_bal256
  let hasher := hasher.Write comBytes
  hasher.Sum S

/-- Function `GenSignature`. -/
def GenSignature (S : Shabal) (lastGenSig : List Byte) (lastPubID : Nat) : List Byte :=
  let sigBytes := lastGenSig
  let pubBytes := PutUint64 lastPubID
  let comBytes := sigBytes ++ pubBytes
  let hasher := NewSha_bal256
  let hasher := hasher.Write comBytes
  hasher.Sum S

/-- Function `CalcTarget`. -/
def CalcTarget (S : Shabal) (scoop_1 scoop_2 genSig : List Byte) : List Byte :=
  let comBytes := scoop_1 ++ scoop_2
  let comBytes := comBytes ++ genSig
  let hasher := NewSha_bal256
  let hasher := hasher.Write comBytes
  hasher.Sum S

/-! ## Headers and the chain view -/

/-- The fields of `types.Header` read by the proof-of-capacity code. `Number`, `Time`,
`LastTime`, `BaseTarget`, `DeadLine`, `GasLimit` and `GasUsed` are `*big.Int`; `PlotID`
and `Nonce` are 8-byte values read through `Uint64()`; `Extra` is a byte string. -/
structure Header where
  Coinbase : List Byte
  Number : Int
  Time : Int
  LastTime : Int
  PlotID : Nat
  Nonce : Nat
  GenSig : List Byte
  BaseTarget : Int
  DeadLine : Int
  Extra : List Byte := []
  GasLimit : Int := 0
  GasUsed : Int := 0
deriving DecidableEq

/-- The part of `consensus.ChainReader` used here: `GetHeaderByNumber`, which returns
`nil` (here `none`) for an unknown block. -/
abbrev ChainReader := Nat → Option Header

/-! ## `consensus/xdnoc/dnpoc.go`: the base-target controller -/

/-- Variable `initBaseTarget`. -/
def initBaseTarget : Int := 5000000000000000

/-- The summing loop of `calcBaseTarget`,
`for i := number - 1; i > number - 5; i-- { h := chain.GetHeaderByNumber(i); ... }`,
started at `i` with lower bound `bound = number - 5`; the accumulator is
`(aver, timeDiff)`. Reading a field of a missing header is a nil dereference. -/
def calcBaseTarget.loop (chain : ChainReader) (bound : Nat) :
    Nat → Int × Int → Option (Int × Int)
  | 0, acc => some acc
  | i + 1, acc =>
    if i + 1 > bound then
      match chain (i + 1) with
      | none => none
      | some h => calcBaseTarget.loop chain bound i (acc.1 + h.BaseTarget, acc.2 + h.DeadLine)
    else some acc

/-- Method `Dnpoc.calcBaseTarget`. -/
def calcBaseTarget (chain : ChainReader) (number : Nat) : Option Int :=
  if number ≤ 5 then some initBaseTarget
  else
    match calcBaseTarget.loop chain (number - 5) (number - 1) (0, 0) with
    | none => none
    | some (averSum, timeDiffSum) =>
      let aver := averSum / 4
      let timeDiff := timeDiffSum / 4
      let newBaseTarget := aver * timeDiff / 60
      let newBaseTarget := if newBaseTarget < 0 then initBaseTarget else newBaseTarget
      let saver := aver * 9 / 10
      if newBaseTarget < saver then some saver
      else
        let baver := aver * 11 / 10
        if newBaseTarget > baver then some baver else some newBaseTarget

/-! ## `consensus/xdnoc/dnpoc.go`: the seal verifier -/

/-- What a call does: it panics, returns an error, or returns `nil`. -/
inductive Outcome where
  | panic : Outcome
  | err (msg : String) : Outcome
  | ok : Outcome
deriving DecidableEq, Repr

/-- Method `Uint64` of `*big.Int`: the low 64 bits of the absolute value. -/
def bigUint64 (x : Int) : Nat := x.natAbs % 2 ^ 64

/-- The conversion `uint64(now)` of an `int64`. -/
def uint64OfInt64 (x : Int) : Nat := (x % 2 ^ 64).toNat

/-- Method `Dnpoc.VerifySeal`; `now` is the value of `time.Now().Unix()`. -/
def VerifySeal (S : Shabal) (now : Int) (header : Header) : Outcome :=
  let gensig := header.GenSig
  let number := bigUint64 header.Number
  let lastTime := header.LastTime
  let thisTime := header.Time
  let plotID := header.PlotID
  let nonce := header.Nonce
  let baseTarget := header.BaseTarget
  match CalcPlotID header.Coinbase with
  | none => Outcome.panic
  | some addrPlotID =>
    if plotID ≠ addrPlotID then Outcome.err "plotID mismatch"
    else
      let genHash := GenHash S gensig number
      let scoopID := GetScoopID genHash
      let cells := GenCell S nonce plotID
      let scoop_1 := slice cells (64 * scoopID) (64 * scoopID + 32)
      let scoop_2 := slice cells (64 * scoopID + 32) (64 * scoopID + 64)
      let target := CalcTarget S scoop_1 scoop_2 gensig
      match targetDeadLine target baseTarget with
      | none => Outcome.panic
      | some deadline =>
        if deadline ≠ header.DeadLine then Outcome.err "deadline compute error"
        else if ¬ (deadline + lastTime < thisTime) then Outcome.err "deadline not satisfy"
        else if thisTime - 15 > (uint64OfInt64 now : Int) then Outcome.err "time mismatch"
        else Outcome.ok

/-! ## `consensus/xdnoc/dnpoc.go`: the header verifier -/

/-- The constants of package `params` read by `verifyHeader`; the package is not part of
the files embedded here, so they are parameters. -/
structure ChainParams where
  MaximumExtraDataSize : Nat
  GasLimitBoundDivisor : Int
  MinGasLimit : Int

/-- Method `Dnpoc.verifyHeader`. `now` is the value of `time.Now().Unix()` read by
`verifyHeader` and `sealNow` the one read by `VerifySeal`; the chain is handed to
`VerifySeal` only, which does not read it; `checkSeal` is the argument `seal`. The
formatted errors keep their fixed text. -/
def verifyHeader (S : Shabal) (P : ChainParams) (now sealNow : Int) (_chain : ChainReader)
    (header parent : Header) (uncle checkSeal : Bool) : Outcome :=
  if header.Extra.length > P.MaximumExtraDataSize then Outcome.err "extra-data too long"
  else if uncle ∧ header.Time > 2 ^ 256 - 1 then Outcome.err "timestamp too big"
  else if ¬ uncle ∧ header.Time > now then Outcome.err "block in the future"
  else if header.Time ≤ parent.Time then Outcome.err "timestamp equals parent's"
  else if header.GasLimit > 2 ^ 63 - 1 then Outcome.err "invalid gasLimit"
  else if header.GasUsed > header.GasLimit then Outcome.err "invalid gasUsed"
  else
    let diff := parent.GasLimit
    let diff := diff - header.GasLimit
    let diff : Int := diff.natAbs
    if P.GasLimitBoundDivisor = 0 then Outcome.panic
    else
      let limit := parent.GasLimit
      let limit := limit / P.GasLimitBoundDivisor
      if diff ≥ limit ∨ header.GasLimit < P.MinGasLimit then Outcome.err "invalid gas limit"
      else if header.Number - parent.Number ≠ 1 then Outcome.err "invalid block number"
      else if checkSeal then VerifySeal S sealNow header
      else Outcome.ok

/-! ## `consensus/xdnoc/dnpoc.go`: rewards -/

/-- Variable `blockReward`. -/
def blockReward : Int := 1000000000000000000

/-- The balances of a `state.StateDB`, by address. -/
abbrev Balances := List Byte → Int

/-- Method `AddBalance` of the state: the amount is added to the balance of the address. -/
def AddBalance (state : Balances) (addr : List Byte) (amount : Int) : Balances :=
  fun a => if a = addr then state a + amount else state a

/-- The body of the loop `for _, uncle := range uncles` of `PocRewards`; the loop state is
`(state, reward)`, the variable `r` being assigned before each use. -/
def PocRewards.step (header : Header) (st : Balances × Int) (uncle : Header) :
    Balances × Int :=
  let state := st.1
  let reward := st.2
  let r := uncle.Number + 8
  let r := r - header.Number
  let r := r * blockReward
  let r := r / 8
  let state := AddBalance state uncle.Coinbase r
  let r := blockReward / 32
  let reward := reward + r
  (state, reward)

/-- Function `PocRewards`. -/
def PocRewards (state : Balances) (header : Header) (uncles : List Header) : Balances :=
  let reward := blockReward
  let reward := reward * 15
  let reward := reward / 2
  let st := uncles.foldl (PocRewards.step header) (state, reward)
  AddBalance st.1 header.Coinbase st.2

/-! ## `cmd/plot/main.go`: the plot writer -/

/-- The fields of `Param` used by `loop` for one file. -/
structure Param where
  SingSize : Nat
  SingCount : Nat
  StartNonce : Nat
  PlotID : Nat

/-- Type `WaitWrite`. -/
structure WaitWrite where
  Data : List Byte
  Index : Int

/-- Type `ChanWrite`, without the file handle. -/
structure ChanWrite where
  W : List WaitWrite
  Close : Bool

/-- Two's-complement reduction of an integer to an `int64`. -/
def wrapInt64 (x : Int) : Int := (x + 2 ^ 63) % 2 ^ 64 - 2 ^ 63

/-- The loop `for p := 0; p < once; p++ { cells[p] = poc.GenCellForP(currentNonce,
param.PlotID); currentNonce++ }`; the state is `(cells, currentNonce)`. -/
def plotCells (S : Shabal) (plotID once currentNonce : Nat) : List (List Byte) × Nat :=
  forUp (fun p (st : List (List Byte) × Nat) =>
    let cs := GenCellForP S st.2 plotID
    (st.1.set p cs, (st.2 + 1) % 2 ^ 64))
    once (List.replicate once [], currentNonce)

/-- The buffer `data` built for scoop `k` from the cells of one batch. -/
def plotData (cells : List (List Byte)) (once k : Nat) : List Byte :=
  forUp (fun q data =>
    forUp (fun r data =>
      let data := data.set (q * 64 + r) ((cells.getD q []).getD (32 * (2 * k) + r) 0)
      data.set (q * 64 + 32 + r) ((cells.getD q []).getD ((8192 - (2 * k + 1)) * 32 + r) 0))
      32 data)
    once (List.replicate (64 * once) 0)

/-- The value of `index` for scoop `k` in batch `jf`:
`int64(64) * param.SingCount * int64(k) + int64(64) * jf * int64(onceHandle)`. -/
def plotIndex (singCount k jf onceHandle : Nat) : Int :=
  wrapInt64 ((64 : Int) * singCount * k + (64 : Int) * jf * onceHandle)

/-- The loop `for k := 0; k < 4096; k++` filling `waits`, a slice of 4096 entries. -/
def plotWaits (cells : List (List Byte)) (singCount once jf onceHandle : Nat) :
    List WaitWrite :=
  forUp (fun k waits =>
    waits.set k { Data := plotData cells once k, Index := plotIndex singCount k jf onceHandle })
    4096 (List.replicate 4096 { Data := [], Index := 0 })

/-- The loop `for j := int64(0); j < param.SingCount / int64(onceHandle) + 1; j++` of one
file, with `fuel` iterations left: the batches sent on `chw`, in order. The `break` on
`once == 0` ends the loop. -/
def plotBatches (S : Shabal) (param : Param) : Nat → Nat → Nat → List ChanWrite
  | 0, _, _ => []
  | fuel + 1, j, currentNonce =>
    let onceHandle := 400
    let last : Bool := decide (j ≥ param.SingCount / onceHandle)
    let once := if last then param.SingCount % onceHandle else onceHandle
    let closed := last
    if once = 0 then []
    else
      let st := plotCells S param.PlotID once currentNonce
      let waits := plotWaits st.1 param.SingCount once j onceHandle
      { W := waits, Close := closed } :: plotBatches S param fuel (j + 1) st.2

/-- Batches sent for the file whose first nonce is `currentNonce`. -/
def plotFileBatches (S : Shabal) (param : Param) (currentNonce : Nat) : List ChanWrite :=
  plotBatches S param (param.SingCount / 400 + 1) 0 currentNonce

/-- The call `f.WriteAt(data, index)` on the content of a file. A negative offset is an
error, which the caller drops; nothing is written for an empty buffer; a write past the
end extends the file with zero bytes. -/
def WriteAt (file : List Byte) (data : List Byte) (index : Int) : List Byte :=
  if index < 0 ∨ data = [] then file
  else
    let o := index.toNat
    (file ++ List.replicate (o - file.length) 0).take o ++ data ++ file.drop (o + data.length)

/-- The serializer on one batch: `for i := 0; i < len(w.W); i++ {
w.F.WriteAt(w.W[i].Data, w.W[i].Index) }`. -/
def writeBatch (file : List Byte) (w : ChanWrite) : List Byte :=
  forUp (fun i file =>
    WriteAt file (w.W.getD i { Data := [], Index := 0 }).Data
      (w.W.getD i { Data := [], Index := 0 }).Index)
    w.W.length file

/-- Content of the plot file whose first nonce is `currentNonce`, once `createFile` has
filled it with `param.SingSize` zero bytes and the serializer has carried out every
batch sent for it, in the order sent. -/
def plotFile (S : Shabal) (param : Param) (currentNonce : Nat) : List Byte :=
  (plotFileBatches S param currentNonce).foldl writeBatch (List.replicate param.SingSize 0)

/-! ## `cmd/plot/main.go`: the plot geometry -/

/-- The fields `SingSize`, `SingCount` and `Count` of `Param`, all `int64`. -/
structure ParamSizes where
  SingSize : Int
  SingCount : Int
  Count : Int
deriving DecidableEq

/-- The quotient `a / b` of two `int64`: truncated toward zero, and a panic on a zero
divisor. -/
def divInt64 (a b : Int) : Option Int :=
  if b = 0 then none else some (wrapInt64 (Int.tdiv a b))

/-- The three assignments of `parseParam` to the size fields, from the parsed values
`sing` of `--singSize` and `total` of `--size`; `cellSize` is the parsed value of
`"256KB"`, which is 262144. -/
def parseParam (sing total : Int) : Option ParamSizes :=
  let cellSize : Int := 262144
  match divInt64 sing cellSize with
  | none => none
  | some singCount =>
    match divInt64 total sing with
    | none => none
    | some count =>
      some { SingSize := wrapInt64 (singCount * cellSize), SingCount := singCount,
             Count := count }

/-! ## Strings -/

/-- The call `strings.Split(s, sep)` for a separator of one character: the pieces of `s`
between the separators, one piece more than there are separators. -/
def splitOn (sep : Char) : List Char → List (List Char)
  | [] => [[]]
  | c :: cs =>
    if c = sep then [] :: splitOn sep cs
    else
      match splitOn sep cs with
      | [] => [[c]]
      | piece :: pieces => (c :: piece) :: pieces

/-- The value of a string of decimal digits, and `none` for the empty string or for a
string with another character. -/
def parseDigits (s : List Char) : Option Nat :=
  if s = [] then none
  else
    s.foldl (fun acc c =>
      match acc with
      | none => none
      | some v => if c.toNat ≥ 48 ∧ c.toNat ≤ 57 then some (v * 10 + (c.toNat - 48)) else none)
      (some 0)

/-- The call `strconv.ParseUint(s, 10, 64)`; `none` is an error. -/
def ParseUint (s : List Char) : Option Nat :=
  match parseDigits s with
  | none => none
  | some v => if v < 2 ^ 64 then some v else none

/-- The call `strconv.Atoi(s)` on a 64-bit platform; `none` is an error. -/
def Atoi (s : List Char) : Option Int :=
  match s with
  | [] => none
  | c :: cs =>
    if c = '-' then
      match parseDigits cs with
      | none => none
      | some v => if v ≤ 2 ^ 63 then some (-(v : Int)) else none
    else
      match parseDigits (if c = '+' then cs else c :: cs) with
      | none => none
      | some v => if v < 2 ^ 63 then some (v : Int) else none

/-! ## `consensus/xdnoc/dnpoc.go`: the seal miner -/

/-- The authorization record of a plot identifier, returned by `GetNodeByPlotID`. -/
structure Node where
  MinNonce : Nat
  MaxNonce : Nat

/-- An entry of a plot directory: the name of the file, and its content, `none` when
`os.Open` fails. -/
structure PlotEntry where
  name : List Char
  content : Option (List Byte)

/-- What the miner reads from outside: the function `GetNodeByPlotID`, which is declared
in a file of the package that is not embedded here (`none` is its error), the content of
the file `PLOT` (`none` when `ioutil.ReadFile` fails), the directories (`none` when
`ioutil.ReadDir` fails) and the successive values of `time.Now().Unix()`. -/
structure MineEnv where
  nodes : Nat → Option Node
  plot : Option (List Char)
  readDir : List Char → Option (List PlotEntry)
  clock : Nat → Int

/-- Modelled from the spec: the candidate block of the miner, a value of `types.Block`,
which is declared outside the files embedded here. It carries the header, and
`LastTime()` returns the field `LastTime` of that header, the time of the parent. -/
structure Block where
  header : Header

/-- Modelled from the spec: method `LastTime` of `types.Block`. -/
def Block.LastTime (block : Block) : Int := block.header.LastTime

/-- The variables `minDeadLine`, `minPubID` and `minNonce` of `mine`, with the number
`tick` of clock values read so far. -/
structure MinerState where
  minDeadLine : Int
  minPubID : Nat
  minNonce : Nat
  tick : Nat
deriving DecidableEq

/-- The values that `mine` fixes before it scans. -/
structure MineCtx where
  S : Shabal
  env : MineEnv
  header : Header
  lastTime : Int
  gensig : List Byte
  baseTarget : Int
  addrPlotID : Nat
  node : Node
  scoopID : Nat

/-- The header built at both emission points of `mine`: a copy of the candidate header
with `Nonce`, `PlotID`, `GenSig`, `Time`, `BaseTarget` and `DeadLine` assigned. -/
def sealedHeader (c : MineCtx) (st : MinerState) (now : Int) : Header :=
  { c.header with
    Nonce := st.minNonce
    PlotID := st.minPubID
    GenSig := c.gensig
    Time := (uint64OfInt64 now : Int)
    BaseTarget := c.baseTarget
    DeadLine := st.minDeadLine }

/-- The test `new(big.Int).Add(minDeadLine, lastTime).Cmp(new(big.Int).SetUint64(
uint64(now))) < 0` of both emission points. -/
def deadlinePassed (c : MineCtx) (st : MinerState) (now : Int) : Bool :=
  decide (st.minDeadLine + c.lastTime < (uint64OfInt64 now : Int))

/-- How a part of `mine` ends: it goes on with the state `st`, it emits a header (with
the state and the clock value of the emission), it panics, it returns without a header,
or the iterations allowed to the model are used up. -/
inductive Scan where
  | done (st : MinerState) : Scan
  | found (st : MinerState) (now : Int) (header : Header) : Scan
  | panic : Scan
  | stopped : Scan
  | running : Scan
deriving DecidableEq

/-- The variables of the loop over one file: `total`, `index`, `pubID`, `nonce`, `data`. -/
structure FileVars where
  total : Int
  index : Int
  pubID : Nat
  nonce : Nat
  data : List Byte

/-- How one iteration of the loop over one file ends: next iteration, `break`, emission
or panic. -/
inductive FileStep where
  | next (st : MinerState) (v : FileVars) : FileStep
  | leave (st : MinerState) : FileStep
  | found (st : MinerState) (now : Int) (header : Header) : FileStep
  | panic : FileStep

/-- The call `f.ReadAt(data, offset)` into a new buffer of `len` bytes: the bytes of the
file from `offset`, as many as there are, the rest of the buffer staying zero; a negative
offset is an error and nothing is read. -/
def ReadAt (file : List Byte) (len : Nat) (offset : Int) : List Byte :=
  if offset < 0 then List.replicate len 0
  else
    let got := (file.drop offset.toNat).take len
    got ++ List.replicate (len - got.length) 0

/-- The end of an iteration of the loop over one file: `index++` and
`if index == total { break }`. -/
def fileAdvance (st : MinerState) (v : FileVars) : FileStep :=
  let index := wrapInt64 (v.index + 1)
  if index = v.total then FileStep.leave st
  else FileStep.next st { v with index := index }

/-- One iteration of the loop `LABEL_INNER_FOR` over the file `fi`, the `default` branch
of its `select`. -/
def fileStep (c : MineCtx) (fi : PlotEntry) (st : MinerState) (v : FileVars) : FileStep :=
  if v.total = 0 then
    let ss := splitOn '_' fi.name
    if ss.length ≠ 3 then FileStep.leave st
    else
      match ParseUint (ss.getD 0 []) with
      | none => FileStep.leave st
      | some pubID =>
        if pubID ≠ c.addrPlotID then FileStep.leave st
        else
          match ParseUint (ss.getD 1 []) with
          | none => FileStep.leave st
          | some nonce =>
            match Atoi (ss.getD 2 []) with
            | none => FileStep.leave st
            | some total =>
              match fi.content with
              | none =>
                FileStep.next st
                  { total := total, index := 0, pubID := pubID, nonce := nonce, data := v.data }
              | some bytes =>
                let size := wrapInt64 (64 * total)
                if size < 0 then FileStep.panic
                else
                  let offset := wrapInt64 ((c.scoopID : Int) * 64 * total)
                  let data := ReadAt bytes size.toNat offset
                  FileStep.next st
                    { total := total, index := 0, pubID := pubID, nonce := nonce, data := data }
  else
    let current := (v.nonce + uint64OfInt64 v.index) % 2 ^ 64
    if current ≥ c.node.MinNonce ∧ current ≤ c.node.MaxNonce then
      let base := wrapInt64 (64 * v.index)
      if base < 0 ∨ base + 64 > (v.data.length : Int) then FileStep.panic
      else
        let scoops := forUp (fun k (sc : List Byte × List Byte) =>
          (sc.1.set k (v.data.getD (base.toNat + k) 0),
           sc.2.set k (v.data.getD (base.toNat + 32 + k) 0)))
          32 (List.replicate 32 0, List.replicate 32 0)
        let scoop_1 := scoops.1
        let scoop_2 := scoops.2
        let target := CalcTarget c.S scoop_1 scoop_2 c.gensig
        match targetDeadLine target c.baseTarget with
        | none => FileStep.panic
        | some deadline =>
          let st :=
            if deadline < st.minDeadLine then
              { st with minDeadLine := deadline, minPubID := v.pubID, minNonce := current }
            else st
          let now := c.env.clock st.tick
          let st := { st with tick := st.tick + 1 }
          if deadlinePassed c st now then FileStep.found st now (sealedHeader c st now)
          else fileAdvance st v
    else fileAdvance st v

/-- The loop `LABEL_INNER_FOR` over the file `fi`, for at most `fuel` iterations and
without an abort. -/
def scanFile (c : MineCtx) (fi : PlotEntry) : Nat → MinerState → FileVars → Scan
  | 0, _, _ => Scan.running
  | fuel + 1, st, v =>
    match fileStep c fi st v with
    | FileStep.next st v => scanFile c fi fuel st v
    | FileStep.leave st => Scan.done st
    | FileStep.found st now header => Scan.found st now header
    | FileStep.panic => Scan.panic

/-- The loop `for _, fi := range rd` over the files of one directory. -/
def scanFiles (c : MineCtx) (fuel : Nat) : List PlotEntry → MinerState → Scan
  | [], st => Scan.done st
  | fi :: rest, st =>
    match scanFile c fi fuel st
        { total := 0, index := 0, pubID := 0, nonce := 0, data := [] } with
    | Scan.done st => scanFiles c fuel rest st
    | other => other

/-- The directories that the loop `for dx := 0; dx < len(dirs) - 1; dx++` of `mine` goes
through, for `dirs := strings.Split(string(dirBytes), ",")`. -/
def plotDirs (dirBytes : List Char) : List (List Char) :=
  let dirs := splitOn ',' dirBytes
  dirs.take (dirs.length - 1)

/-- The loop over the directories: `ioutil.ReadDir`, then the files. -/
def scanDirs (c : MineCtx) (fuel : Nat) : List (List Char) → MinerState → Scan
  | [], st => Scan.done st
  | dirname :: rest, st =>
    match c.env.readDir dirname with
    | none => Scan.stopped
    | some rd =>
      match scanFiles c fuel rd st with
      | Scan.done st => scanDirs c fuel rest st
      | other => other

/-- The last loop of `mine`, which reads the clock once a second until the deadline has
passed, for at most `fuel` readings and without an abort. -/
def waitLoop (c : MineCtx) : Nat → MinerState → Scan
  | 0, _ => Scan.running
  | fuel + 1, st =>
    let now := c.env.clock st.tick
    if deadlinePassed c st now then Scan.found st now (sealedHeader c st now)
    else waitLoop c fuel { st with tick := st.tick + 1 }

/-- Method `Dnpoc.mine` without an abort: what it sends on `found`, if anything. Every
loop is allowed `fuel` iterations. -/
def mine (S : Shabal) (env : MineEnv) (block : Block) (bt : Int) (fuel : Nat) : Scan :=
  let header := block.header
  let number := bigUint64 header.Number
  let lastTime := block.LastTime
  let gensig := header.GenSig
  let baseTarget := bt
  let st : MinerState := { minDeadLine := 9999999999, minPubID := 0, minNonce := 0, tick := 0 }
  match CalcPlotID header.Coinbase with
  | none => Scan.panic
  | some addrPlotID =>
    match env.nodes addrPlotID with
    | none => Scan.stopped
    | some node =>
      let genHash := GenHash S gensig number
      let scoopID := GetScoopID genHash
      match env.plot with
      | none => Scan.stopped
      | some dirBytes =>
        let c : MineCtx :=
          { S := S, env := env, header := header, lastTime := lastTime, gensig := gensig,
            baseTarget := baseTarget, addrPlotID := addrPlotID, node := node,
            scoopID := scoopID }
        match scanDirs c fuel (plotDirs dirBytes) st with
        | Scan.done st => waitLoop c fuel st
        | other => other

/-! ## The reference construction of a cell, as the specification words it -/

/-- Byte-wise exclusive or of two byte strings. -/
def xorBytes (a b : List Byte) : List Byte := List.zipWith (fun x y => x ^^^ y) a b

/-- The seed of a cell: the 8 big-endian bytes of `plotID`, then those of `nonce`. -/
def refSeed (nonce plotID : Nat) : List Byte := PutUint64 plotID ++ PutUint64 nonce

/-- One step of the reference construction, filling slot `i` of the array `H`. Slot 8191
is the digest of the seed; slot `i < 8191` is the digest of the slots `i + 1` to
`min (i + 129) 8192` (excluded) in ascending order, followed by the seed when fewer than
128 slots are available. -/
def refRawStep (S : Shabal) (seed : List Byte) (i : Nat) (H : List (List Byte)) :
    List (List Byte) :=
  if i = 8191 then H.set i (S.digest seed)
  else
    let window := (H.drop (i + 1)).take (min (i + 129) 8192 - (i + 1))
    let message := if window.length < 128 then window.flatten ++ seed else window.flatten
    H.set i (S.digest message)

/-- The slots before the exclusive-or pass: an array of 8192 slots filled for `i` from
8191 down to 0. -/
def refRawSlots (S : Shabal) (seed : List Byte) : List (List Byte) :=
  forDown (refRawStep S seed) 8192 (List.replicate 8192 [])

/-- The slots of the plot-time cell: every raw slot combined by exclusive or with the
digest of all raw slots followed by the seed. -/
def refSlots (S : Shabal) (nonce plotID : Nat) : List (List Byte) :=
  let seed := refSeed nonce plotID
  let raw := refRawSlots S seed
  let final := S.digest (raw.flatten ++ seed)
  raw.map (fun h => xorBytes h final)

/-- The plot-time cell: the concatenation of its 8192 slots. -/
def refCell (S : Shabal) (nonce plotID : Nat) : List Byte :=
  (refSlots S nonce plotID).flatten

/-- Slot `i` of a buffer made of 32-byte slots. -/
def slotOf (cell : List Byte) (i : Nat) : List Byte := slice cell (32 * i) (32 * i + 32)

/-! ## Definitions used in the statements and in the proofs -/

/-- The address of scenario S1. -/
def addrS1 : List Byte := List.replicate 12 0 ++ [1, 2, 3, 4, 5, 6, 7, 8]

/-- The target of scenario S3: 24 zero bytes, then the eight bytes of 100. -/
def targetS3 : List Byte := List.replicate 31 0 ++ [0x64]

/-- The clamp of the specification: `candidate = max(candidate, lo)`, then
`candidate = min(candidate, hi)`. -/
def clampInto (lo hi x : Int) : Int := min (max x lo) hi

/-- A header with the given base target and deadline, the other fields empty. -/
def headerOf (baseTarget deadLine : Int) : Header :=
  { Coinbase := [], Number := 0, Time := 0, LastTime := 0, PlotID := 0, Nonce := 0,
    GenSig := [], BaseTarget := baseTarget, DeadLine := deadLine }

/-- A chain view in which every block has the given base target and deadline. -/
def constChain (baseTarget deadLine : Int) : ChainReader :=
  fun _ => some (headerOf baseTarget deadLine)

/-- Every slot of the list has 32 bytes. -/
def Uniform (T : List (List Byte)) : Prop := ∀ t ∈ T, t.length = 32

/-- The message hashed for slot `i`, given the list `T` of the slots after it. -/
def slotMessage (seed : List Byte) (i : Nat) (T : List (List Byte)) : List Byte :=
  if i = 8191 then seed
  else if i < 8064 then (T.take 128).flatten
  else T.flatten ++ seed

/-- The state reached by the reference construction once the slots `n` to 8191 are set. -/
def RawTail (n : Nat) (H : List (List Byte)) (T : List (List Byte)) : Prop :=
  n ≤ 8192 ∧ Uniform T ∧ T.length = 8192 - n ∧ H = List.replicate n [] ++ T

/-- The slot of the plot-time cell that `rearrange` emits at position `i`. -/
def sourceSlot (i : Nat) : Nat := if i % 2 = 0 then i else 8192 - i

/-- The write `w` touches the byte at offset `p` of the file. -/
def WaitWrite.covers (w : WaitWrite) (p : Nat) : Prop :=
  0 ≤ w.Index ∧ w.Index.toNat ≤ p ∧ p < w.Index.toNat + w.Data.length

/-- The write `w` stays inside a file of `size` bytes. -/
def WaitWrite.inside (w : WaitWrite) (size : Nat) : Prop :=
  0 ≤ w.Index ∧ w.Index.toNat + w.Data.length ≤ size

/-- The serializer on a list of writes, one after the other. -/
def applyWrites (file : List Byte) (ws : List WaitWrite) : List Byte :=
  ws.foldl (fun file w => WriteAt file w.Data w.Index) file

/-- The cells of the nonces `base, base + 1, ..., base + once - 1`. -/
def cellsAt (S : Shabal) (plotID base once : Nat) : List (List Byte) :=
  (List.range once).map (fun q => GenCellForP S (base + q) plotID)

/-- The batch of index `j` with `once` nonces, for the file whose first nonce is `base`. -/
def batchAt (S : Shabal) (param : Param) (base j once : Nat) : ChanWrite :=
  { W := plotWaits (cellsAt S param.PlotID (base + 400 * j) once) param.SingCount once j 400,
    Close := decide (j ≥ param.SingCount / 400) }

/-- The batches of a file of `singCount` nonces: index `j` and number of nonces `once`. -/
def validBatch (singCount j once : Nat) : Prop :=
  (j < singCount / 400 ∧ once = 400) ∨
  (j = singCount / 400 ∧ once = singCount % 400 ∧ once ≠ 0)

/-- The parameters of a file of `singCount` nonces, as `parseParam` sets them. -/
def paramOf (singCount startNonce plotID : Nat) : Param :=
  { SingSize := singCount * 262144, SingCount := singCount, StartNonce := startNonce,
    PlotID := plotID }

/-- The target recomputed by the verifier from `GenSig`, `Number`, `PlotID` and `Nonce`:
the hash of the two halves of the scoop of the block, followed by `GenSig`. -/
def sealTarget (S : Shabal) (header : Header) : List Byte :=
  let genHash := GenHash S header.GenSig (bigUint64 header.Number)
  let scoopID := GetScoopID genHash
  let cells := GenCell S header.Nonce header.PlotID
  let scoop_1 := slice cells (64 * scoopID) (64 * scoopID + 32)
  let scoop_2 := slice cells (64 * scoopID + 32) (64 * scoopID + 64)
  CalcTarget S scoop_1 scoop_2 header.GenSig

/-- The deadline recomputed by the verifier; `none` when the division panics. -/
def sealDeadLine (S : Shabal) (header : Header) : Option Int :=
  targetDeadLine (sealTarget S header) header.BaseTarget

/-- A digest function for examples: 32 copies of the length of the message modulo 256. -/
def lengthShabal : Shabal :=
  { digest := fun m => List.replicate 32 (Fin.ofNat m.length)
    digest_length := fun _ => List.length_replicate _ _ }

/-- A header with the address of scenario S1 as `Coinbase`, the plot identifier the
specification derives from it, and `Time = LastTime + DeadLine + 1`. -/
def headerS6 : Header :=
  { Coinbase := addrS1, Number := 7, Time := 111, LastTime := 100,
    PlotID := 72623859790382856, Nonce := 3, GenSig := List.replicate 32 0,
    BaseTarget := 5, DeadLine := 10 }

/-- Every slot of the list `T`, the last `T.length` slots of the reference array, is the
digest of the message built from the slots after it. -/
def RawRecurrence (S : Shabal) (seed : List Byte) (T : List (List Byte)) : Prop :=
  ∀ idx, idx < T.length →
    T.getD idx [] = S.digest (slotMessage seed (8192 - T.length + idx) (T.drop (idx + 1)))

/-- The content of a `PLOT` file in which each directory of `ds` is followed by a comma. -/
def dirsWithCommas (ds : List (List Char)) : List Char :=
  (ds.map (fun d => d ++ [','])).flatten

/-- The content of a `PLOT` file in which the directories of `ds` are separated by commas,
without a trailing comma. -/
def dirsBetweenCommas : List (List Char) → List Char
  | [] => []
  | [d] => d
  | d :: ds => d ++ ',' :: dirsBetweenCommas ds

/-- A byte string of 23 bytes whose bytes 15 to 22 encode the plot identifier 9. -/
def coinbase23 : List Byte := List.replicate 15 0 ++ [0, 0, 0, 0, 0, 0, 0, 9]

/-- A header with a 20-byte `Coinbase` and `BaseTarget = 0`. -/
def headerZeroTarget : Header :=
  { Coinbase := List.replicate 20 0, Number := 1, Time := 101, LastTime := 0, PlotID := 0,
    Nonce := 0, GenSig := List.replicate 32 0, BaseTarget := 0, DeadLine := 0 }

/-- The candidate block of the examples: block 1 on a parent of time 100. -/
def blockA : Block :=
  { header :=
      { Coinbase := coinbase23, Number := 1, Time := 0, LastTime := 100, PlotID := 0,
        Nonce := 0, GenSig := List.replicate 32 0, BaseTarget := 0, DeadLine := 0 } }

/-- A miner environment with an empty `PLOT` file and a clock that reads 20000000000. -/
def envIdle : MineEnv :=
  { nodes := fun _ => some { MinNonce := 0, MaxNonce := 100 }
    plot := some []
    readDir := fun _ => some []
    clock := fun _ => 20000000000 }

/-- A miner environment with one directory `d` that holds the plot file `9_5_2` of 128
zero bytes, and a clock that reads 1000. -/
def envPlot : MineEnv :=
  { nodes := fun _ => some { MinNonce := 0, MaxNonce := 100 }
    plot := some ['d', ',']
    readDir := fun _ =>
      some [{ name := ['9', '_', '5', '_', '2'], content := some (List.replicate 128 0) }]
    clock := fun _ => 1000 }

/-- The header that the miner emits from the plot file `9_5_2`. -/
def sealedPlot : Header :=
  { Coinbase := coinbase23, Number := 1, Time := 1000, LastTime := 100, PlotID := 9,
    Nonce := 5, GenSig := List.replicate 32 0, BaseTarget := 1000000000000000000,
    DeadLine := 6 }

/-- The header that the miner emits from the wait loop when it has found no plot file. -/
def sealedIdle : Header :=
  { Coinbase := coinbase23, Number := 1, Time := 20000000000, LastTime := 100, PlotID := 0,
    Nonce := 0, GenSig := List.replicate 32 0, BaseTarget := 1000000000000000000,
    DeadLine := 9999999999 }

/-- The values that `mine` fixes before it scans, for the plot identifier `addrPlotID` of
the candidate's `Coinbase` and its authorization record `node`. -/
def mineCtx (S : Shabal) (env : MineEnv) (block : Block) (bt : Int) (addrPlotID : Nat)
    (node : Node) : MineCtx :=
  MineCtx.mk S env block.header block.LastTime block.header.GenSig bt addrPlotID node
    (GetScoopID (GenHash S block.header.GenSig (bigUint64 block.header.Number)))

/-- The variables `minDeadLine`, `minPubID` and `minNonce` of `mine` as it declares them. -/
def mineStart : MinerState :=
  { minDeadLine := 9999999999, minPubID := 0, minNonce := 0, tick := 0 }

/-- A miner environment with one directory `d` that holds a plot file of the given name
and content, and a clock that reads 1000. -/
def envFile (name : List Char) (content : Option (List Byte)) : MineEnv :=
  { nodes := fun _ => some { MinNonce := 0, MaxNonce := 100 }
    plot := some ['d', ',']
    readDir := fun _ => some [{ name := name, content := content }]
    clock := fun _ => 1000 }

/-- The state of the miner is the initial one, or the deadline is below the initial one. -/
def Sentinel (st : MinerState) : Prop :=
  (st.minDeadLine = 9999999999 ∧ st.minPubID = 0 ∧ st.minNonce = 0) ∨
  st.minDeadLine < 9999999999

/-! ## `xdn/api_backend.go`: the pages of blocks -/

/-- Modelled from the spec: a block of the chain as `GetPocBlocks` reads it through the
methods `Coinbase`, `Hash`, `Number`, `Time` and `Transactions` of `types.Block`, which is
declared outside the files embedded here. -/
structure ChainBlock where
  Coinbase : List Byte
  Hash : List Byte
  Number : Int
  Time : Int
  Transactions : List (List Byte)
deriving DecidableEq

/-- Type `types.BlockSummary`, with the fields of the composite literal in `GetPocBlocks`. -/
structure BlockSummary where
  Coinbase : List Byte
  Root : List Byte
  Number : Int
  Time : Int
  TxCount : Int
deriving DecidableEq

/-- The summary that `GetPocBlocks` appends for the block `bl`. -/
def summaryOf (bl : ChainBlock) : BlockSummary :=
  { Coinbase := bl.Coinbase, Root := bl.Hash, Number := bl.Number, Time := bl.Time,
    TxCount := bl.Transactions.length }

/-- The loop of `GetPocBlocks` on the `uint64` counter `i`, for at most `fuel` tests of
its condition (`none` when they are used up); `pc` is `uint64(blockPage) * blockCnt`. The
state is the slice `rs` with the number of iterations done so far. -/
def GetPocBlocks.loop (GetBlockByNumber : Nat → Option ChainBlock) (head pc : Nat) :
    Nat → Nat → List BlockSummary × Nat → Option (List BlockSummary × Nat)
  | 0, _, _ => none
  | fuel + 1, i, st =>
    if (i + pc) % 2 ^ 64 > head ∧ i ≥ 0 then
      let rs :=
        match GetBlockByNumber i with
        | some bl => st.1 ++ [summaryOf bl]
        | none => st.1
      GetPocBlocks.loop GetBlockByNumber head pc fuel ((i + (2 ^ 64 - 1)) % 2 ^ 64)
        (rs, st.2 + 1)
    else some st

/-- Method `DnpApiBackend.GetPocBlocks`: the summaries returned, with the number of
iterations of its loop. `ch` is the header of the current block, `GetBlockByNumber` the
method of the block chain (`nil` is `none`), `blockCnt` a `uint64`. -/
def GetPocBlocks (GetBlockByNumber : Nat → Option ChainBlock) (ch : Header) (blockPage : Int)
    (blockCnt : Nat) (fuel : Nat) : Option (List BlockSummary × Nat) :=
  let head := bigUint64 ch.Number
  let start := (head + (2 ^ 64 - (uint64OfInt64 (blockPage - 1) * blockCnt) % 2 ^ 64)) % 2 ^ 64
  GetPocBlocks.loop GetBlockByNumber head ((uint64OfInt64 blockPage * blockCnt) % 2 ^ 64) fuel
    start ([], 0)

/-- The summaries of the existing blocks among the `count` numbers `head - skip`,
`head - skip - 1`, ... that are not negative, newest first, as the specification words the
result of a page. -/
def windowSummaries (GetBlockByNumber : Nat → Option ChainBlock) (head skip count : Nat) :
    List BlockSummary :=
  (List.range count).filterMap (fun t =>
    if skip + t ≤ head then (GetBlockByNumber (head - (skip + t))).map summaryOf else none)

/-! ## Further definitions used in the statements and in the proofs -/

/-- A chain of the six blocks 0 to 5. -/
def chainSix : Nat → Option ChainBlock := fun i =>
  if i ≤ 5 then
    some { Coinbase := [], Hash := [], Number := i, Time := 100 + i, Transactions := [] }
  else none

/-- A header with number 5. -/
def headFive : Header :=
  { Coinbase := [], Number := 5, Time := 105, LastTime := 104, PlotID := 0, Nonce := 0,
    GenSig := [], BaseTarget := 0, DeadLine := 0 }

/-! ## `consensus/xdnoc/dnpoc.go`: the batched header verifier -/

/-- The variables of the goroutine of `VerifyHeaders` that hands out the indices and
releases the results: `in` (here `sent`), `out`, `checked`, the results sent on
`errorsOut` so far, in the order sent, and whether the goroutine has returned. -/
structure Releaser where
  sent : Nat
  out : Nat
  checked : List Bool
  results : List Outcome
  returned : Bool

/-- The case of the `select` of that goroutine which is taken in one iteration, absent an
abort: an index is handed to a worker on `inputs`, or the index of a finished header is
received from `done`. -/
inductive VerifyEvent where
  | send : VerifyEvent
  | done (index : Nat) : VerifyEvent

/-- The loop `for checked[index] = true; checked[out]; out++ { errorsOut <- errors[out];
if out == len(headers)-1 { return } }` after its initial statement, for at most `fuel`
tests of its condition (`none` when they are used up). `errors[i]` is the result that the
worker stored for `headers[i]` before it sent `i` on `done`. -/
def VerifyHeaders.release (errors : List Outcome) : Nat → Releaser → Option Releaser
  | 0, _ => none
  | fuel + 1, r =>
    if r.checked.getD r.out false then
      let r := { r with results := r.results ++ [errors.getD r.out Outcome.ok] }
      if r.out = errors.length - 1 then some { r with returned := true }
      else VerifyHeaders.release errors fuel { r with out := r.out + 1 }
    else some r

/-- One iteration of the `for { select { ... } }` of that goroutine; once it has returned
nothing changes. The case `inputs <- in` can be taken only while `inputs` is not `nil`,
that is while `in < len(headers)`. -/
def VerifyHeaders.step (errors : List Outcome) (r : Releaser) (e : VerifyEvent) :
    Option Releaser :=
  if r.returned then some r
  else
    match e with
    | VerifyEvent.send =>
      if r.sent < errors.length then some { r with sent := r.sent + 1 } else some r
    | VerifyEvent.done index =>
      VerifyHeaders.release errors (errors.length + 1)
        { r with checked := r.checked.set index true }

/-- The goroutine of `VerifyHeaders` for a non-empty batch, along the sequence `events` of
the cases its `select` takes: the state it reaches. -/
def VerifyHeaders.run (errors : List Outcome) (events : List VerifyEvent) : Option Releaser :=
  events.foldlM (VerifyHeaders.step errors)
    { sent := 0, out := 0, checked := List.replicate errors.length false, results := [],
      returned := false }

/-! ## Definitions for the release of results and for the scan of a plot file -/

/-- The indices received from `done` along a sequence of events, in order. -/
def doneIndices (events : List VerifyEvent) : List Nat :=
  events.filterMap (fun e =>
    match e with
    | VerifyEvent.done index => some index
    | VerifyEvent.send => none)

/-- The number of entries `true` at the head of a list. -/
def leadingTrue : List Bool → Nat
  | true :: rest => leadingTrue rest + 1
  | _ => 0

/-- The state of the releasing goroutine is consistent with the indices `seen` received
so far: the results sent are the first `out` entries of `errors`, `out` is the first index
not yet checked, and every index received is checked. -/
def ReleaserInv (errors : List Outcome) (seen : List Nat) (r : Releaser) : Prop :=
  r.checked.length = errors.length ∧
  (r.returned = true → r.results = errors) ∧
  (r.returned = false →
    r.out = leadingTrue r.checked ∧ r.out < errors.length ∧
    r.results = errors.take r.out ∧
    ∀ j, j ∈ seen → j < errors.length → r.checked.getD j false = true)

/-- The name of the plot file `fi` reads as plot identifier `pid`, first nonce `s` and
count `total`, through the calls of the first iteration of the loop over the file. -/
def PlotEntry.parses (fi : PlotEntry) (pid s : Nat) (total : Int) : Prop :=
  (splitOn '_' fi.name).length = 3 ∧
  ParseUint ((splitOn '_' fi.name).getD 0 []) = some pid ∧
  ParseUint ((splitOn '_' fi.name).getD 1 []) = some s ∧
  Atoi ((splitOn '_' fi.name).getD 2 []) = some total

/-- The slab that the miner reads from a plot file of `T` nonces with content `bytes`:
`64 * T` bytes from the offset `scoopID * 64 * T`. -/
def slabOf (c : MineCtx) (bytes : List Byte) (T : Nat) : List Byte :=
  ReadAt bytes (64 * T) ((c.scoopID : Int) * 64 * (T : Int))

/-- The deadline of the entry `j` of a slab: the value of the last eight bytes of
`CalcTarget(scoop_1, scoop_2, gensig)`, for the two halves of the entry, divided by the
base target. -/
def slabDeadLine (c : MineCtx) (data : List Byte) (j : Nat) : Int :=
  ((beDecode ((CalcTarget c.S (slice data (64 * j) (64 * j + 32))
      (slice data (64 * j + 32) (64 * j + 64)) c.gensig).drop 24) : Nat) : Int) / c.baseTarget

/-- The effect of the entry `j` of the slab of the file `pid_s_T` on the variables of the
miner: nothing for a nonce `s + j` outside the window of the authorization; inside it, the
minimum is replaced when the deadline of the entry is below it, and the clock is read. -/
def trackStep (c : MineCtx) (pid s : Nat) (data : List Byte) (st : MinerState) (j : Nat) :
    MinerState :=
  if c.node.MinNonce ≤ (s + j) % 2 ^ 64 ∧ (s + j) % 2 ^ 64 ≤ c.node.MaxNonce then
    if slabDeadLine c data j < st.minDeadLine then
      { minDeadLine := slabDeadLine c data j, minPubID := pid, minNonce := (s + j) % 2 ^ 64,
        tick := st.tick + 1 }
    else { st with tick := st.tick + 1 }
  else st

/-- The variables of the miner after the entries `lo, ..., lo + k - 1` of a slab. -/
def trackRange (c : MineCtx) (pid s : Nat) (data : List Byte) (st : MinerState) (lo k : Nat) :
    MinerState :=
  (List.range' lo k).foldl (trackStep c pid s data) st

/-- The minimum kept in `st'` is the one of `st` and of the deadlines of the authorized
entries `lo, ..., hi - 1` of the slab: it is a lower bound of them all; when it is the one
of `st`, plot identifier and nonce are those of `st`; when it is below, it is the deadline
of an authorized entry `i`, the first with that deadline, and plot identifier and nonce
are `pid` and `s + i`. -/
def TrackedMin (c : MineCtx) (pid s : Nat) (data : List Byte) (lo hi : Nat)
    (st st' : MinerState) : Prop :=
  st'.minDeadLine ≤ st.minDeadLine ∧
  (∀ i, lo ≤ i → i < hi →
    c.node.MinNonce ≤ (s + i) % 2 ^ 64 ∧ (s + i) % 2 ^ 64 ≤ c.node.MaxNonce →
    st'.minDeadLine ≤ slabDeadLine c data i) ∧
  (st'.minDeadLine = st.minDeadLine →
    st'.minPubID = st.minPubID ∧ st'.minNonce = st.minNonce) ∧
  (st'.minDeadLine < st.minDeadLine →
    ∃ i, lo ≤ i ∧ i < hi ∧
      (c.node.MinNonce ≤ (s + i) % 2 ^ 64 ∧ (s + i) % 2 ^ 64 ≤ c.node.MaxNonce) ∧
      slabDeadLine c data i = st'.minDeadLine ∧ st'.minPubID = pid ∧
      st'.minNonce = (s + i) % 2 ^ 64 ∧
      ∀ i', lo ≤ i' → i' < i →
        c.node.MinNonce ≤ (s + i') % 2 ^ 64 ∧ (s + i') % 2 ^ 64 ≤ c.node.MaxNonce →
        st'.minDeadLine < slabDeadLine c data i')

/-- A candidate block whose parent has time 5000. -/
def blockLate : Block :=
  { header :=
      { Coinbase := coinbase23, Number := 1, Time := 0, LastTime := 5000, PlotID := 0,
        Nonce := 0, GenSig := List.replicate 32 0, BaseTarget := 0, DeadLine := 0 } }

/-- The plot file `9_5_2` with 128 zero bytes. -/
def fileZeros : PlotEntry :=
  { name := ['9', '_', '5', '_', '2'], content := some (List.replicate 128 0) }

/-- The context of the miner for the block `blockLate`, the plot file `fileZeros` and the
base target `10 ^ 18`. -/
def ctxLate : MineCtx :=
  mineCtx lengthShabal (envFile fileZeros.name fileZeros.content) blockLate
    1000000000000000000 9 { MinNonce := 0, MaxNonce := 100 }

/-- The plot file `9_5_2` as the plotter writes it, for the digest function of the
examples. -/
def filePlotted : PlotEntry :=
  { name := ['9', '_', '5', '_', '2'],
    content := some (plotFile lengthShabal (paramOf 2 0 9) 5) }

/-- The context of the miner for the block `blockA`, the plot file `filePlotted` and the
base target `10 ^ 18`. -/
def ctxPlotted : MineCtx :=
  mineCtx lengthShabal (envFile filePlotted.name filePlotted.content) blockA
    1000000000000000000 9 { MinNonce := 0, MaxNonce := 100 }

/-! ## Lemmas -/

/-! ### Plot identifier, scoop and deadline -/

theorem CalcPlotID_of_length_lt (addr : List Byte) (h : addr.length < 23) :
    CalcPlotID addr = none := by
  unfold CalcPlotID BigEndian_Uint64
  by_cases h15 : addr.length < 15
  · simp [h15]
  · simp only [h15, if_false, List.length_drop]
    rw [if_pos (by omega)]

theorem CalcPlotID_of_length_ge (addr : List Byte) (h : 23 ≤ addr.length) :
    CalcPlotID addr = some (beDecode (slice addr 15 23)) := by
  unfold CalcPlotID BigEndian_Uint64 slice
  have h15 : ¬ addr.length < 15 := by omega
  simp only [h15, if_false, List.length_drop]
  rw [if_neg (by omega)]

theorem GetScoopID_eq (genHash : List Byte) :
    GetScoopID genHash = (genHash.getD 31 0).val := by
  unfold GetScoopID
  have h : ((genHash.getD 30 0).val * 2 ^ 8) % 2 ^ 8 = 0 := by simp
  simp only [h, Nat.zero_or]
  have := (genHash.getD 31 0).isLt
  omega

theorem foldl_beDecode_lt (bs : List Byte) :
    ∀ acc : Nat, bs.foldl (fun acc b => acc * 256 + b.val) acc + 1 ≤ (acc + 1) * 256 ^ bs.length := by
  induction bs with
  | nil => intro acc; simp
  | cons b tl ih =>
    intro acc
    simp only [List.foldl_cons, List.length_cons]
    have h1 := ih (acc * 256 + b.val)
    have h2 : acc * 256 + b.val + 1 ≤ (acc + 1) * 256 := by have := b.isLt; omega
    calc _ ≤ (acc * 256 + b.val + 1) * 256 ^ tl.length := h1
      _ ≤ ((acc + 1) * 256) * 256 ^ tl.length := Nat.mul_le_mul_right _ h2
      _ = (acc + 1) * 256 ^ (tl.length + 1) := by ring

theorem beDecode_lt (bs : List Byte) : beDecode bs < 256 ^ bs.length := by
  have := foldl_beDecode_lt bs 0
  unfold beDecode
  omega

theorem targetDeadLine_floor (target : List Byte) (baseTarget : Int)
    (hlen : target.length = 32) (hb : 0 < baseTarget) :
    ∃ d : Int, targetDeadLine target baseTarget = some d ∧
      d = ⌊((beDecode (slice target 24 32) : ℚ)) / (baseTarget : ℚ)⌋ ∧
      beDecode (slice target 24 32) < 2 ^ 64 ∧
      d * baseTarget ≤ (beDecode (slice target 24 32) : Int) ∧
      (beDecode (slice target 24 32) : Int) < (d + 1) * baseTarget := by
  have hs : slice target 24 32 = target.drop 24 := by
    unfold slice
    rw [List.take_of_length_le]
    simp [hlen]
  have hlt : beDecode (slice target 24 32) < 2 ^ 64 := by
    have := beDecode_lt (slice target 24 32)
    rw [hs] at this ⊢
    simpa [hlen] using this
  refine ⟨(beDecode (slice target 24 32) : Int) / baseTarget, ?_, ?_, hlt, ?_, ?_⟩
  · unfold targetDeadLine CalcDeadLine
    simp [hs, hb.ne']
  · symm
    rw [Int.floor_eq_iff]
    have hbq : (0 : ℚ) < (baseTarget : ℚ) := by exact_mod_cast hb
    constructor
    · rw [le_div_iff₀ hbq]
      have := Int.ediv_mul_le (beDecode (slice target 24 32) : Int) hb.ne'
      exact_mod_cast this
    · rw [div_lt_iff₀ hbq]
      have := Int.lt_ediv_add_one_mul_self (beDecode (slice target 24 32) : Int) hb
      exact_mod_cast this
  · exact Int.ediv_mul_le _ hb.ne'
  · exact Int.lt_ediv_add_one_mul_self _ hb

theorem targetDeadLine_S3 : targetS3.length = 32 ∧ slice targetS3 24 32 = [0, 0, 0, 0, 0, 0, 0, 0x64] ∧
    targetDeadLine targetS3 5 = some 20 := by
  decide

/-! ### The summing loop of the base-target controller -/

theorem calcBaseTarget_loop_four (chain : ChainReader) (number : Nat) (hn : 5 < number)
    (h1 h2 h3 h4 : Header)
    (e1 : chain (number - 1) = some h1) (e2 : chain (number - 2) = some h2)
    (e3 : chain (number - 3) = some h3) (e4 : chain (number - 4) = some h4) :
    calcBaseTarget.loop chain (number - 5) (number - 1) (0, 0) =
      some (h1.BaseTarget + h2.BaseTarget + h3.BaseTarget + h4.BaseTarget,
            h1.DeadLine + h2.DeadLine + h3.DeadLine + h4.DeadLine) := by
  obtain ⟨m, rfl⟩ : ∃ m, number = m + 6 := ⟨number - 6, by omega⟩
  have a1 : m + 6 - 1 = m + 5 := by omega
  have a2 : m + 6 - 2 = m + 4 := by omega
  have a3 : m + 6 - 3 = m + 3 := by omega
  have a4 : m + 6 - 4 = m + 2 := by omega
  have a5 : m + 6 - 5 = m + 1 := by omega
  rw [a1] at e1 ⊢; rw [a2] at e2; rw [a3] at e3; rw [a4] at e4; rw [a5]
  have g1 : m + 4 + 1 > m + 1 := by omega
  have g2 : m + 3 + 1 > m + 1 := by omega
  have g3 : m + 2 + 1 > m + 1 := by omega
  have g4 : m + 1 + 1 > m + 1 := by omega
  have g5 : ¬ (m + 1 > m + 1) := by omega
  cases m with
  | zero =>
    simp [calcBaseTarget.loop, e1, e2, e3, e4]
  | succ k =>
    simp [calcBaseTarget.loop, e1, e2, e3, e4]

theorem calcBaseTarget_of_history (chain : ChainReader) (number : Nat) (hn : 5 < number)
    (h1 h2 h3 h4 : Header)
    (e1 : chain (number - 1) = some h1) (e2 : chain (number - 2) = some h2)
    (e3 : chain (number - 3) = some h3) (e4 : chain (number - 4) = some h4) :
    calcBaseTarget chain number =
      (let aver := (h1.BaseTarget + h2.BaseTarget + h3.BaseTarget + h4.BaseTarget) / 4
       let timeDiff := (h1.DeadLine + h2.DeadLine + h3.DeadLine + h4.DeadLine) / 4
       let newBaseTarget := aver * timeDiff / 60
       let newBaseTarget := if newBaseTarget < 0 then initBaseTarget else newBaseTarget
       let saver := aver * 9 / 10
       if newBaseTarget < saver then some saver
       else
         let baver := aver * 11 / 10
         if newBaseTarget > baver then some baver else some newBaseTarget) := by
  unfold calcBaseTarget
  rw [if_neg (by omega), calcBaseTarget_loop_four chain number hn h1 h2 h3 h4 e1 e2 e3 e4]

/-! ### Byte buffers read position by position -/

theorem ext_getD {l₁ l₂ : List Byte} (hlen : l₁.length = l₂.length)
    (h : ∀ p, p < l₁.length → l₁.getD p 0 = l₂.getD p 0) : l₁ = l₂ := by
  apply List.ext_getElem hlen
  intro n h₁ h₂
  have := h n h₁
  rwa [List.getD_eq_getElem _ _ h₁, List.getD_eq_getElem _ _ h₂] at this

theorem getD_set (l : List Byte) (i p : Nat) (a : Byte) :
    (l.set i a).getD p 0 = if i = p ∧ p < l.length then a else l.getD p 0 := by
  simp only [List.getD_eq_getElem?_getD, List.getElem?_set]
  by_cases h : i = p
  · subst h
    by_cases h2 : i < l.length
    · simp [h2]
    · simp [h2, List.getElem?_eq_none (not_lt.mp h2)]
  · simp [h]

/-- A loop that updates the entries `base, base + 1, ...` one after the other. -/
theorem forUp_set_spec (base : Nat) (v : Nat → Byte → Byte) (cb : List Byte) (m : Nat) :
    (forUp (fun j cb => cb.set (base + j) (v j (cb.getD (base + j) 0))) m cb).length = cb.length ∧
    ∀ p, (forUp (fun j cb => cb.set (base + j) (v j (cb.getD (base + j) 0))) m cb).getD p 0 =
      if base ≤ p ∧ p < base + m ∧ p < cb.length then v (p - base) (cb.getD p 0)
      else cb.getD p 0 := by
  induction m with
  | zero =>
    refine ⟨rfl, fun p => ?_⟩
    simp only [forUp]
    rw [if_neg (by omega)]
  | succ m ih =>
    obtain ⟨ihl, ihp⟩ := ih
    refine ⟨by simp only [forUp, List.length_set, ihl], fun p => ?_⟩
    simp only [forUp]
    rw [getD_set, ihl, ihp, ihp]
    by_cases hp : base + m = p
    · subst hp
      by_cases hl : base + m < cb.length
      · rw [if_pos ⟨rfl, hl⟩, if_neg (by omega), if_pos (by omega)]
        simp
      · rw [if_neg (by omega), if_neg (by omega), if_neg (by omega)]
    · rw [if_neg (by omega)]
      by_cases hq : base ≤ p ∧ p < base + m ∧ p < cb.length
      · rw [if_pos hq, if_pos (by omega)]
      · rw [if_neg hq, if_neg (by omega)]

theorem getD_take (l : List Byte) (n p : Nat) :
    (l.take n).getD p 0 = if p < n then l.getD p 0 else 0 := by
  simp only [List.getD_eq_getElem?_getD, List.getElem?_take]
  split_ifs <;> simp

theorem getD_drop (l : List Byte) (n p : Nat) :
    (l.drop n).getD p 0 = l.getD (n + p) 0 := by
  simp only [List.getD_eq_getElem?_getD, List.getElem?_drop]

theorem getD_append_ite (l₁ l₂ : List Byte) (p : Nat) :
    (l₁ ++ l₂).getD p 0 = if p < l₁.length then l₁.getD p 0 else l₂.getD (p - l₁.length) 0 := by
  by_cases h : p < l₁.length
  · rw [if_pos h, List.getD_append _ _ _ _ h]
  · rw [if_neg h, List.getD_append_right _ _ _ _ (not_lt.mp h)]

theorem getD_of_le (l : List Byte) (p : Nat) (h : l.length ≤ p) : l.getD p 0 = 0 := by
  simp [List.getD_eq_getElem?_getD, List.getElem?_eq_none h]

theorem getD_slice (l : List Byte) (a b p : Nat) :
    (slice l a b).getD p 0 = if p < b - a then l.getD (a + p) 0 else 0 := by
  unfold slice
  rw [getD_take, getD_drop]

theorem length_slice (l : List Byte) (a b : Nat) (h : b ≤ l.length) :
    (slice l a b).length = b - a := by
  unfold slice
  simp only [List.length_take, List.length_drop]
  omega

theorem storeCell_eq (cell : List Byte) (i : Nat) (cb : List Byte)
    (hcell : cell.length = 32) (hcb : 32 * i + 32 ≤ cb.length) :
    storeCell cell i cb = cb.take (32 * i) ++ cell ++ cb.drop (32 * i + 32) := by
  unfold storeCell HASH_SIZE
  have hspec := forUp_set_spec (i * 32) (fun j _ => cell.getD j 0) cb 32
  beta_reduce at hspec
  obtain ⟨hl, hp⟩ := hspec
  refine ext_getD ?_ ?_
  · rw [hl]
    simp only [List.length_append, List.length_take, List.length_drop, hcell]
    omega
  · intro p _
    rw [hp, getD_append_ite, getD_append_ite, getD_take, getD_drop]
    simp only [List.length_append, List.length_take, hcell]
    have e1 : min (32 * i) cb.length = 32 * i := by omega
    rw [e1]
    by_cases h1 : p < 32 * i
    · rw [if_neg (by omega), if_pos (by omega), if_pos h1, if_pos h1]
    · by_cases h2 : p < 32 * i + 32
      · rw [if_pos (by omega), if_pos (by omega), if_neg h1]
        have e : p - i * 32 = p - 32 * i := by omega
        rw [e]
      · rw [if_neg (by omega), if_neg (by omega)]
        have e : 32 * i + 32 + (p - (32 * i + 32)) = p := by omega
        rw [e]

theorem getD_xorBytes (a b : List Byte) (p : Nat) (h : p < a.length) (h2 : p < b.length) :
    (xorBytes a b).getD p 0 = a.getD p 0 ^^^ b.getD p 0 := by
  unfold xorBytes
  rw [List.getD_eq_getElem _ _ (by simp; omega), List.getD_eq_getElem _ _ h,
    List.getD_eq_getElem _ _ h2]
  simp

theorem length_xorBytes (a b : List Byte) : (xorBytes a b).length = min a.length b.length := by
  simp [xorBytes]

/-! ### Buffers made of 32-byte slots -/

theorem Uniform.cons {t : List Byte} {T : List (List Byte)} (ht : t.length = 32)
    (hT : Uniform T) : Uniform (t :: T) := by
  intro x hx
  rcases List.mem_cons.mp hx with h | h
  · rw [h]; exact ht
  · exact hT x h

theorem Uniform.tail {t : List Byte} {T : List (List Byte)} (h : Uniform (t :: T)) :
    Uniform T := fun x hx => h x (List.mem_cons_of_mem _ hx)

theorem Uniform.head {t : List Byte} {T : List (List Byte)} (h : Uniform (t :: T)) :
    t.length = 32 := h t (List.mem_cons_self _ _)

theorem length_flatten_uniform (T : List (List Byte)) (h : Uniform T) :
    T.flatten.length = 32 * T.length := by
  induction T with
  | nil => rfl
  | cons t T ih =>
    rw [List.flatten_cons, List.length_append, ih h.tail, h.head, List.length_cons]
    omega

theorem take_flatten_uniform (T : List (List Byte)) (h : Uniform T) (k : Nat) :
    T.flatten.take (32 * k) = (T.take k).flatten := by
  induction T generalizing k with
  | nil => simp
  | cons t T ih =>
    cases k with
    | zero => simp
    | succ k =>
      rw [List.take_succ_cons, List.flatten_cons, List.flatten_cons,
        List.take_append_eq_append_take, h.head, ← ih h.tail k]
      rw [List.take_of_length_le (by rw [h.head]; omega)]
      have e : 32 * (k + 1) - 32 = 32 * k := by omega
      rw [e]

theorem drop_flatten_uniform (T : List (List Byte)) (h : Uniform T) (k : Nat) :
    T.flatten.drop (32 * k) = (T.drop k).flatten := by
  induction T generalizing k with
  | nil => simp
  | cons t T ih =>
    cases k with
    | zero => simp
    | succ k =>
      rw [List.drop_succ_cons, List.flatten_cons,
        List.drop_append_eq_append_drop, h.head, ← ih h.tail k]
      rw [List.drop_of_length_le (by rw [h.head]; omega)]
      have e : 32 * (k + 1) - 32 = 32 * k := by omega
      rw [e, List.nil_append]

theorem slotOf_flatten_uniform (T : List (List Byte)) (h : Uniform T) (i : Nat)
    (hi : i < T.length) : slotOf T.flatten i = T.getD i [] := by
  unfold slotOf slice
  have e : 32 * i + 32 - 32 * i = 32 * 1 := by omega
  rw [e, drop_flatten_uniform T h i]
  have hd : Uniform (T.drop i) := fun x hx => h x (List.mem_of_mem_drop hx)
  rw [take_flatten_uniform _ hd 1]
  rw [List.getD_eq_getElem _ _ hi]
  rw [List.drop_eq_getElem_cons hi]
  simp only [List.take_succ_cons, List.take_zero, List.flatten_cons, List.flatten_nil,
    List.append_nil]

theorem forDown_sim {σ τ : Type} (R : Nat → σ → τ → Prop) (f : Nat → σ → σ) (g : Nat → τ → τ)
    (hstep : ∀ i s t, R (i + 1) s t → R i (f i s) (g i t)) :
    ∀ n s t, R n s t → R 0 (forDown f n s) (forDown g n t) := by
  intro n
  induction n with
  | zero => intro s t h; exact h
  | succ n ih => intro s t h; exact ih _ _ (hstep n s t h)

theorem forUp_append_eq (g : Nat → List Byte) (n : Nat) :
    forUp (fun i res => res ++ g i) n [] = ((List.range n).map g).flatten := by
  induction n with
  | zero => rfl
  | succ n ih =>
    simp only [forUp]
    rw [ih, List.range_succ, List.map_append, List.flatten_append]
    simp

/-! ### The two cell builders against the reference construction -/

theorem set_replicate_append (i : Nat) (T : List (List Byte)) (d : List Byte) :
    (List.replicate (i + 1) ([] : List Byte) ++ T).set i d = List.replicate i [] ++ d :: T := by
  rw [List.replicate_succ', List.append_assoc, List.set_append_right _ _ (by simp)]
  simp

theorem refRawStep_eq (S : Shabal) (seed : List Byte) (i : Nat) (T : List (List Byte))
    (hi : i < 8192) (hT : T.length = 8191 - i) :
    refRawStep S seed i (List.replicate (i + 1) [] ++ T) =
      List.replicate i [] ++ S.digest (slotMessage seed i T) :: T := by
  unfold refRawStep slotMessage
  by_cases h1 : i = 8191
  · rw [if_pos h1, if_pos h1, set_replicate_append]
  · rw [if_neg h1, if_neg h1]
    simp only
    rw [List.drop_left' (by simp), set_replicate_append]
    by_cases h2 : i < 8064
    · have e : min (i + 129) 8192 - (i + 1) = 128 := by omega
      rw [if_pos h2, e, if_neg (by rw [List.length_take]; omega)]
    · have e : min (i + 129) 8192 - (i + 1) = 8191 - i := by omega
      rw [if_neg h2, e, List.take_of_length_le (by omega), if_pos (by omega)]

theorem GenCellForP_step_sim (S : Shabal) (comBytes : List Byte) (i : Nat)
    (st : Hasher × List Byte) (H : List (List Byte))
    (h : (i + 1 = 8192 → st.1.buf = []) ∧ ∃ T, RawTail (i + 1) H T ∧
      st.2 = List.replicate (32 * (i + 1)) 0 ++ T.flatten) :
    (i = 8192 → (GenCellForP.step S comBytes i st).1.buf = []) ∧
    ∃ T, RawTail i (refRawStep S comBytes i H) T ∧
      (GenCellForP.step S comBytes i st).2 = List.replicate (32 * i) 0 ++ T.flatten := by
  obtain ⟨hbuf, T, ⟨hn, hU, hlen, hH⟩, hcb⟩ := h
  have hi : i < 8192 := by omega
  have hTl : T.length = 8191 - i := by omega
  have hfl : T.flatten.length = 32 * (8191 - i) := by rw [length_flatten_uniform T hU, hTl]
  refine ⟨fun h => by omega, S.digest (slotMessage comBytes i T) :: T,
    ⟨by omega, Uniform.cons (S.digest_length _) hU, by simp [hTl]; omega, ?_⟩, ?_⟩
  · rw [hH, refRawStep_eq S comBytes i T hi hTl]
  · have hstore : ∀ cell : List Byte, cell.length = 32 →
        storeCell cell i st.2 = List.replicate (32 * i) 0 ++ (cell :: T).flatten := by
      intro cell hc
      rw [storeCell_eq cell i st.2 hc
        (by rw [hcb, List.length_append, List.length_replicate]; omega), hcb]
      rw [List.take_append_of_le_length (by simp)]
      rw [List.drop_append_of_le_length (by simp; omega)]
      rw [List.take_replicate, List.drop_replicate]
      have e1 : min (32 * i) (32 * (i + 1)) = 32 * i := by omega
      have e2 : 32 * (i + 1) - (32 * i + 32) = 0 := by omega
      rw [e1, e2]
      simp
    unfold GenCellForP.step slotMessage CELL_SIZE HASH_SIZE
    by_cases h1 : i = 8191
    · have hst : st.1.buf = [] := hbuf (by omega)
      rw [if_pos (by omega), if_pos h1]
      simp only [Hasher.Sum, Hasher.Write, hst, List.nil_append]
      exact hstore _ (S.digest_length _)
    · rw [if_neg (by omega), if_neg h1]
      simp only [Hasher.Sum, Hasher.Write, Hasher.Reset, List.nil_append]
      by_cases h2 : i < 8064
      · rw [if_pos (by omega), if_pos h2]
        have hs : slice st.2 ((i + 1) * 32) ((i + 1) * 32 + 128 * 32) = (T.take 128).flatten := by
          unfold slice
          rw [hcb, List.drop_left' (by simp; omega)]
          have e : (i + 1) * 32 + 128 * 32 - (i + 1) * 32 = 32 * 128 := by omega
          rw [e, take_flatten_uniform T hU]
        rw [hs]
        exact hstore _ (S.digest_length _)
      · rw [if_neg (by omega), if_neg h2]
        have hs : slice st.2 ((i + 1) * 32) (8192 * 32) = T.flatten := by
          unfold slice
          rw [hcb, List.drop_left' (by simp; omega)]
          rw [List.take_of_length_le (by rw [hfl]; omega)]
        rw [hs]
        exact hstore _ (S.digest_length _)

theorem GenCell_step_sim (S : Shabal) (comBytes : List Byte) (i : Nat)
    (st : Hasher × List Byte) (H : List (List Byte))
    (h : (i + 1 = 8192 → st.1.buf = []) ∧ ∃ T, RawTail (i + 1) H T ∧
      st.2 = T.flatten) :
    (i = 8192 → (GenCell.step S comBytes i st).1.buf = []) ∧
    ∃ T, RawTail i (refRawStep S comBytes i H) T ∧
      (GenCell.step S comBytes i st).2 = T.flatten := by
  obtain ⟨hbuf, T, ⟨hn, hU, hlen, hH⟩, hcb⟩ := h
  have hi : i < 8192 := by omega
  have hTl : T.length = 8191 - i := by omega
  have hfl : T.flatten.length = 32 * (8191 - i) := by rw [length_flatten_uniform T hU, hTl]
  refine ⟨fun h => by omega, S.digest (slotMessage comBytes i T) :: T,
    ⟨by omega, Uniform.cons (S.digest_length _) hU, by simp [hTl]; omega, ?_⟩, ?_⟩
  · rw [hH, refRawStep_eq S comBytes i T hi hTl]
  · unfold GenCell.step slotMessage CELL_SIZE PLOT_SIZE
    by_cases h1 : i = 8191
    · have hst : st.1.buf = [] := hbuf (by omega)
      have hT0 : T = [] := List.length_eq_zero.mp (by omega)
      rw [if_pos (by omega), if_pos h1]
      simp only [Hasher.Sum, Hasher.Write, hst, List.nil_append, hT0, List.flatten_cons,
        List.flatten_nil, List.append_nil]
    · rw [if_neg (by omega), if_neg h1]
      simp only [Hasher.Sum, Hasher.Write, Hasher.Reset, List.nil_append, List.flatten_cons]
      by_cases h2 : i < 8064
      · rw [if_pos (by rw [hcb, hfl]; omega), if_pos h2]
        have hs : slice st.2 0 4096 = (T.take 128).flatten := by
          unfold slice
          rw [hcb, List.drop_zero]
          have e : 4096 - 0 = 32 * 128 := by omega
          rw [e, take_flatten_uniform T hU]
        rw [hs, hcb]
      · rw [if_neg (by rw [hcb, hfl]; omega), if_neg h2, hcb]

theorem refRawSlots_uniform (S : Shabal) (seed : List Byte) :
    Uniform (refRawSlots S seed) ∧ (refRawSlots S seed).length = 8192 := by
  have h := forDown_sim
    (fun n (_ : Unit) (H : List (List Byte)) => ∃ T, RawTail n H T)
    (fun _ u => u) (refRawStep S seed)
    (fun i _ H hR => by
      obtain ⟨T, hn, hU, hlen, hH⟩ := hR
      refine ⟨S.digest (slotMessage seed i T) :: T, by omega,
        Uniform.cons (S.digest_length _) hU, by simp [hlen]; omega, ?_⟩
      rw [hH, refRawStep_eq S seed i T (by omega) (by omega)])
    8192 () (List.replicate 8192 [])
    ⟨[], le_refl _, fun t ht => absurd ht (List.not_mem_nil t), rfl, (List.append_nil _).symm⟩
  obtain ⟨T, _, hU, hlen, hH⟩ := h
  have e : refRawSlots S seed = T := by
    unfold refRawSlots
    rw [hH, List.replicate_zero, List.nil_append]
  rw [e]
  exact ⟨hU, by omega⟩

theorem GenCellForP_build_eq (S : Shabal) (comBytes : List Byte) :
    (GenCellForP.build S comBytes).2 = (refRawSlots S comBytes).flatten := by
  have h := forDown_sim
    (fun n (st : Hasher × List Byte) (H : List (List Byte)) =>
      (n = 8192 → st.1.buf = []) ∧ ∃ T, RawTail n H T ∧
        st.2 = List.replicate (32 * n) 0 ++ T.flatten)
    (GenCellForP.step S comBytes) (refRawStep S comBytes)
    (fun i st H hR => GenCellForP_step_sim S comBytes i st H hR)
    8192 (NewSha_bal256, List.replicate (CELL_SIZE * HASH_SIZE) 0) (List.replicate 8192 [])
    ⟨fun _ => rfl, [],
      ⟨le_refl _, fun t ht => absurd ht (List.not_mem_nil t), rfl, (List.append_nil _).symm⟩,
      by rw [List.flatten_nil, List.append_nil, Nat.mul_comm]; rfl⟩
  obtain ⟨_, T, ⟨_, _, _, hH⟩, hcb⟩ := h
  have e : refRawSlots S comBytes = T := by
    unfold refRawSlots
    rw [hH, List.replicate_zero, List.nil_append]
  rw [e]
  unfold GenCellForP.build
  show (forDown (GenCellForP.step S comBytes) 8192
    (NewSha_bal256, List.replicate (CELL_SIZE * HASH_SIZE) 0)).2 = _
  rw [hcb, Nat.mul_zero, List.replicate_zero, List.nil_append]

theorem GenCell_build_eq (S : Shabal) (comBytes : List Byte) :
    (GenCell.build S comBytes).2 = (refRawSlots S comBytes).flatten := by
  have h := forDown_sim
    (fun n (st : Hasher × List Byte) (H : List (List Byte)) =>
      (n = 8192 → st.1.buf = []) ∧ ∃ T, RawTail n H T ∧ st.2 = T.flatten)
    (GenCell.step S comBytes) (refRawStep S comBytes)
    (fun i st H hR => GenCell_step_sim S comBytes i st H hR)
    8192 (NewSha_bal256, []) (List.replicate 8192 [])
    ⟨fun _ => rfl, [],
      ⟨le_refl _, fun t ht => absurd ht (List.not_mem_nil t), rfl, (List.append_nil _).symm⟩,
      rfl⟩
  obtain ⟨_, T, ⟨_, _, _, hH⟩, hcb⟩ := h
  have e : refRawSlots S comBytes = T := by
    unfold refRawSlots
    rw [hH, List.replicate_zero, List.nil_append]
  rw [e]
  unfold GenCell.build
  show (forDown (GenCell.step S comBytes) 8192 (NewSha_bal256, [])).2 = _
  rw [hcb]

theorem xorSlot_eq (final : List Byte) (i : Nat) (cb : List Byte)
    (hf : final.length = 32) (hcb : 32 * i + 32 ≤ cb.length) :
    forUp (fun j cellBytes =>
      cellBytes.set (i * HASH_SIZE + j)
        (cellBytes.getD (i * HASH_SIZE + j) 0 ^^^ final.getD j 0)) HASH_SIZE cb =
      cb.take (32 * i) ++ xorBytes (slice cb (32 * i) (32 * i + 32)) final ++
        cb.drop (32 * i + 32) := by
  unfold HASH_SIZE
  have hspec := forUp_set_spec (i * 32) (fun j old => old ^^^ final.getD j 0) cb 32
  beta_reduce at hspec
  obtain ⟨hl, hp⟩ := hspec
  have hsl : (slice cb (32 * i) (32 * i + 32)).length = 32 := by
    rw [length_slice _ _ _ hcb]; omega
  refine ext_getD ?_ ?_
  · rw [hl]
    simp only [List.length_append, List.length_take, List.length_drop, length_xorBytes, hsl, hf]
    omega
  · intro p _
    rw [hp, getD_append_ite, getD_append_ite, getD_take, getD_drop]
    simp only [List.length_append, List.length_take, length_xorBytes, hsl, hf, min_self]
    have e1 : min (32 * i) cb.length = 32 * i := by omega
    rw [e1]
    by_cases h1 : p < 32 * i
    · rw [if_neg (by omega), if_pos (by omega), if_pos h1, if_pos h1]
    · by_cases h2 : p < 32 * i + 32
      · rw [if_pos (by omega), if_pos (by omega), if_neg h1]
        rw [getD_xorBytes _ _ _ (by omega) (by omega), getD_slice, if_pos (by omega)]
        have e : p - i * 32 = p - 32 * i := by omega
        have e2 : 32 * i + (p - 32 * i) = p := by omega
        rw [e, e2]
      · rw [if_neg (by omega), if_neg (by omega)]
        have e : 32 * i + 32 + (p - (32 * i + 32)) = p := by omega
        rw [e]

theorem xorFinal_aux (final : List Byte) (hf : final.length = 32) :
    ∀ (n : Nat) (T : List (List Byte)) (B : List Byte), T.length = n → Uniform T →
      forDown (fun i cellBytes =>
        forUp (fun j cellBytes =>
          cellBytes.set (i * HASH_SIZE + j)
            (cellBytes.getD (i * HASH_SIZE + j) 0 ^^^ final.getD j 0))
          HASH_SIZE cellBytes) n (T.flatten ++ B) =
        (T.map (fun h => xorBytes h final)).flatten ++ B := by
  intro n
  induction n with
  | zero =>
    intro T B hT _
    rw [List.length_eq_zero.mp hT]
    rfl
  | succ n ih =>
    intro T B hT hU
    rcases List.eq_nil_or_concat T with h0 | ⟨T1, t, hT1⟩
    · rw [h0] at hT; simp at hT
    · subst hT1
      rw [List.concat_eq_append] at hT hU ⊢
      have hT1len : T1.length = n := by simpa using hT
      have hU1 : Uniform T1 := fun x hx => hU x (by simp [hx])
      have ht : t.length = 32 := hU t (by simp)
      have hfl : T1.flatten.length = 32 * n := by rw [length_flatten_uniform T1 hU1, hT1len]
      simp only [forDown]
      rw [xorSlot_eq final n _ hf (by simp [hfl, ht])]
      have e1 : (T1 ++ [t]).flatten ++ B = T1.flatten ++ (t ++ B) := by simp
      rw [e1, List.take_left' hfl]
      have e2 : slice (T1.flatten ++ (t ++ B)) (32 * n) (32 * n + 32) = t := by
        unfold slice
        rw [List.drop_left' hfl]
        have e : 32 * n + 32 - 32 * n = 32 := by omega
        rw [e, List.take_left' ht]
      have e3 : (T1.flatten ++ (t ++ B)).drop (32 * n + 32) = B := by
        rw [← List.append_assoc]
        exact List.drop_left' (by simp [hfl, ht])
      rw [e2, e3, List.append_assoc, ih T1 (xorBytes t final ++ B) hT1len hU1]
      simp

theorem xorFinal_flatten (final : List Byte) (hf : final.length = 32) (T : List (List Byte))
    (hT : T.length = 8192) (hU : Uniform T) :
    xorFinal final T.flatten = (T.map (fun h => xorBytes h final)).flatten := by
  have h := xorFinal_aux final hf 8192 T [] hT hU
  rw [List.append_nil, List.append_nil] at h
  unfold xorFinal
  rw [show CELL_SIZE = 8192 from rfl]
  exact h

theorem comBytesOf_eq (nonce plotID : Nat) : comBytesOf nonce plotID = refSeed nonce plotID := rfl

theorem Hasher_reset_write_sum (S : Shabal) (h : Hasher) (x : List Byte) :
    Hasher.Sum S (Hasher.Write (Hasher.Reset h) x) = S.digest x := rfl

theorem GenCellForP_unfold (S : Shabal) (nonce plotID : Nat) :
    GenCellForP S nonce plotID =
      xorFinal (S.digest ((GenCellForP.build S (comBytesOf nonce plotID)).2 ++
        comBytesOf nonce plotID)) (GenCellForP.build S (comBytesOf nonce plotID)).2 := by
  have h : GenCellForP S nonce plotID =
      xorFinal (Hasher.Sum S (Hasher.Write
        (Hasher.Reset (GenCellForP.build S (comBytesOf nonce plotID)).1)
        ((GenCellForP.build S (comBytesOf nonce plotID)).2 ++ comBytesOf nonce plotID)))
        (GenCellForP.build S (comBytesOf nonce plotID)).2 := rfl
  rw [h, Hasher_reset_write_sum]

theorem GenCell_unfold (S : Shabal) (nonce plotID : Nat) :
    GenCell S nonce plotID =
      rearrange (xorFinal (S.digest ((GenCell.build S (comBytesOf nonce plotID)).2 ++
        comBytesOf nonce plotID)) (GenCell.build S (comBytesOf nonce plotID)).2) := by
  have h : GenCell S nonce plotID =
      rearrange (xorFinal (Hasher.Sum S (Hasher.Write
        (Hasher.Reset (GenCell.build S (comBytesOf nonce plotID)).1)
        ((GenCell.build S (comBytesOf nonce plotID)).2 ++ comBytesOf nonce plotID)))
        (GenCell.build S (comBytesOf nonce plotID)).2) := rfl
  rw [h, Hasher_reset_write_sum]

theorem refCell_unfold (S : Shabal) (nonce plotID : Nat) :
    refCell S nonce plotID =
      ((refRawSlots S (refSeed nonce plotID)).map (fun h => xorBytes h
        (S.digest ((refRawSlots S (refSeed nonce plotID)).flatten ++
          refSeed nonce plotID)))).flatten := rfl

theorem GenCellForP_eq_refCell (S : Shabal) (nonce plotID : Nat) :
    GenCellForP S nonce plotID = refCell S nonce plotID := by
  obtain ⟨hU, hlen⟩ := refRawSlots_uniform S (refSeed nonce plotID)
  rw [GenCellForP_unfold, refCell_unfold, comBytesOf_eq, GenCellForP_build_eq,
    xorFinal_flatten _ (S.digest_length _) _ hlen hU]

theorem refSlots_uniform (S : Shabal) (nonce plotID : Nat) :
    Uniform (refSlots S nonce plotID) ∧ (refSlots S nonce plotID).length = 8192 := by
  obtain ⟨hU, hlen⟩ := refRawSlots_uniform S (refSeed nonce plotID)
  have e : refSlots S nonce plotID = (refRawSlots S (refSeed nonce plotID)).map
      (fun h => xorBytes h (S.digest ((refRawSlots S (refSeed nonce plotID)).flatten ++
          refSeed nonce plotID))) := rfl
  rw [e]
  refine ⟨?_, by rw [List.length_map, hlen]⟩
  intro t ht
  simp only [List.mem_map] at ht
  obtain ⟨h, hh, rfl⟩ := ht
  rw [length_xorBytes, hU h hh, S.digest_length]
  rfl

theorem GenCell_eq_rearrange (S : Shabal) (nonce plotID : Nat) :
    GenCell S nonce plotID = rearrange (GenCellForP S nonce plotID) := by
  rw [GenCell_unfold, GenCellForP_unfold, GenCellForP_build_eq, GenCell_build_eq]

/-! ### The re-ordering of the verifier -/

theorem forUp_congr {σ : Type} (f g : Nat → σ → σ) (h : ∀ i s, f i s = g i s) (n : Nat) (s : σ) :
    forUp f n s = forUp g n s := by
  induction n with
  | zero => rfl
  | succ n ih => simp only [forUp]; rw [ih, h]

theorem rearrange_eq (src : List Byte) :
    rearrange src = ((List.range 8192).map (fun i => slotOf src (sourceSlot i))).flatten := by
  unfold rearrange
  rw [show CELL_SIZE = 8192 from rfl, ← forUp_append_eq]
  apply forUp_congr
  intro i res
  unfold slotOf sourceSlot HASH_SIZE
  have e1 : 32 * (i + 1) = 32 * i + 32 := by omega
  have e2 : 32 * (8192 - i + 1) = 32 * (8192 - i) + 32 := by omega
  rw [e1, e2]
  split_ifs <;> rfl

theorem length_slotOf (cell : List Byte) (i : Nat) (h : 32 * i + 32 ≤ cell.length) :
    (slotOf cell i).length = 32 := by
  unfold slotOf
  rw [length_slice _ _ _ h]; omega

theorem sourceSlot_lt (i : Nat) (hi : i < 8192) : sourceSlot i < 8192 := by
  unfold sourceSlot
  split_ifs with h
  · exact hi
  · omega

theorem slotOf_rearrange (src : List Byte) (hlen : src.length = 262144) (i : Nat)
    (hi : i < 8192) :
    (rearrange src).length = 262144 ∧
    slotOf (rearrange src) i = slotOf src (sourceSlot i) := by
  have hU : Uniform ((List.range 8192).map (fun i => slotOf src (sourceSlot i))) := by
    intro t ht
    simp only [List.mem_map, List.mem_range] at ht
    obtain ⟨k, hk, rfl⟩ := ht
    have := sourceSlot_lt k hk
    exact length_slotOf _ _ (by omega)
  have hL : ((List.range 8192).map (fun i => slotOf src (sourceSlot i))).length = 8192 := by
    rw [List.length_map, List.length_range]
  rw [rearrange_eq]
  refine ⟨by rw [length_flatten_uniform _ hU, hL], ?_⟩
  rw [slotOf_flatten_uniform _ hU i (by rw [hL]; exact hi)]
  rw [List.getD_eq_getElem _ _ (by rw [hL]; exact hi), List.getElem_map, List.getElem_range]

theorem length_GenCellForP (S : Shabal) (nonce plotID : Nat) :
    (GenCellForP S nonce plotID).length = 262144 := by
  obtain ⟨hU, hlen⟩ := refSlots_uniform S nonce plotID
  rw [GenCellForP_eq_refCell]
  unfold refCell
  rw [length_flatten_uniform _ hU, hlen]

/-! ### Writes applied to a file -/

theorem getD_replicate_zero (n p : Nat) : (List.replicate n (0 : Byte)).getD p 0 = 0 := by
  by_cases h : p < n
  · rw [List.getD_eq_getElem _ _ (by simpa using h)]; simp
  · exact getD_of_le _ _ (by simpa using h)

theorem getD_WriteAt (file data : List Byte) (index : Int) (p : Nat) :
    (WriteAt file data index).getD p 0 =
      if 0 ≤ index ∧ index.toNat ≤ p ∧ p < index.toNat + data.length
      then data.getD (p - index.toNat) 0 else file.getD p 0 := by
  unfold WriteAt
  by_cases h : index < 0 ∨ data = []
  · rw [if_pos h, if_neg]
    rintro ⟨h1, h2, h3⟩
    rcases h with h | h
    · omega
    · rw [h] at h3; simp at h3; omega
  · rw [if_neg h]
    push_neg at h
    obtain ⟨h1, h2⟩ := h
    simp only
    have hA : ((file ++ List.replicate (index.toNat - file.length) 0).take index.toNat).length
        = index.toNat := by
      rw [List.length_take, List.length_append, List.length_replicate]; omega
    by_cases c1 : p < index.toNat
    · rw [if_neg (by omega), List.append_assoc, List.getD_append _ _ _ _ (by rw [hA]; exact c1),
        getD_take, if_pos c1, getD_append_ite, getD_replicate_zero]
      by_cases c2 : p < file.length
      · rw [if_pos c2]
      · rw [if_neg c2, getD_of_le _ _ (by omega)]
    · by_cases c2 : p < index.toNat + data.length
      · rw [if_pos ⟨h1, by omega, c2⟩, List.append_assoc,
          List.getD_append_right _ _ _ _ (by rw [hA]; omega), hA,
          List.getD_append _ _ _ _ (by omega)]
      · rw [if_neg (by omega),
          List.getD_append_right _ _ _ _ (by rw [List.length_append, hA]; omega),
          List.length_append, hA, getD_drop]
        have e2 : index.toNat + data.length + (p - (index.toNat + data.length)) = p := by omega
        rw [e2]

theorem length_WriteAt (file data : List Byte) (index : Int)
    (h : 0 ≤ index ∧ index.toNat + data.length ≤ file.length) :
    (WriteAt file data index).length = file.length := by
  unfold WriteAt
  split_ifs with c
  · rfl
  · simp only [List.length_append, List.length_take, List.length_replicate, List.length_drop]
    omega

theorem forUp_getD_eq_foldl {α σ : Type} (d : α) (f : σ → α → σ) (l : List α) (s : σ) :
    forUp (fun i s => f s (l.getD i d)) l.length s = l.foldl f s := by
  induction l using List.reverseRecOn generalizing s with
  | nil => rfl
  | append_singleton l a ih =>
    rw [List.length_append, List.length_singleton, List.foldl_append]
    simp only [forUp, List.foldl_cons, List.foldl_nil]
    rw [List.getD_append_right _ _ _ _ (le_refl _), Nat.sub_self]
    simp only [List.getD_cons_zero]
    congr 1
    rw [← ih]
    clear ih
    generalize hn : l.length = n
    have : ∀ m, m ≤ n → forUp (fun i s => f s ((l ++ [a]).getD i d)) m s =
        forUp (fun i s => f s (l.getD i d)) m s := by
      intro m hm
      induction m with
      | zero => rfl
      | succ m ihm =>
        simp only [forUp]
        rw [ihm (by omega), List.getD_append _ _ _ _ (by omega)]
    exact this n (le_refl _)

theorem writeBatch_eq (file : List Byte) (w : ChanWrite) :
    writeBatch file w = applyWrites file w.W := by
  unfold writeBatch applyWrites
  exact forUp_getD_eq_foldl _ (fun file (ww : WaitWrite) => WriteAt file ww.Data ww.Index) w.W file

theorem foldl_writeBatch_eq (bs : List ChanWrite) (file : List Byte) :
    bs.foldl writeBatch file = applyWrites file (bs.flatMap (fun b => b.W)) := by
  induction bs generalizing file with
  | nil => rfl
  | cons b bs ih =>
    rw [List.foldl_cons, ih, writeBatch_eq, List.flatMap_cons]
    unfold applyWrites
    rw [List.foldl_append]

theorem length_applyWrites (ws : List WaitWrite) (file : List Byte)
    (h : ∀ w ∈ ws, w.inside file.length) : (applyWrites file ws).length = file.length := by
  induction ws generalizing file with
  | nil => rfl
  | cons w ws ih =>
    unfold applyWrites
    rw [List.foldl_cons]
    have hw := h w (List.mem_cons_self _ _)
    have hl := length_WriteAt file w.Data w.Index hw
    have := ih (WriteAt file w.Data w.Index)
      (fun x hx => by rw [hl]; exact h x (List.mem_cons_of_mem _ hx))
    unfold applyWrites at this
    rw [this, hl]

theorem getD_applyWrites (ws : List WaitWrite) (p : Nat) (v : Byte) :
    ∀ file : List Byte,
    (∀ w ∈ ws, w.covers p → w.Data.getD (p - w.Index.toNat) 0 = v) →
    ((∃ w ∈ ws, w.covers p) ∨ file.getD p 0 = v) →
    (applyWrites file ws).getD p 0 = v := by
  induction ws with
  | nil =>
    intro file _ h
    rcases h with ⟨w, hw, _⟩ | h
    · simp at hw
    · exact h
  | cons w ws ih =>
    intro file hcons hex
    unfold applyWrites
    rw [List.foldl_cons]
    apply ih (WriteAt file w.Data w.Index) (fun x hx => hcons x (List.mem_cons_of_mem _ hx))
    by_cases hc : ∃ x ∈ ws, x.covers p
    · exact Or.inl hc
    · right
      rw [getD_WriteAt]
      by_cases hw : w.covers p
      · rw [if_pos (show 0 ≤ w.Index ∧ w.Index.toNat ≤ p ∧ p < w.Index.toNat + w.Data.length
          from hw)]
        exact hcons w (List.mem_cons_self _ _) hw
      · rw [if_neg (show ¬ (0 ≤ w.Index ∧ w.Index.toNat ≤ p ∧
          p < w.Index.toNat + w.Data.length) from hw)]
        rcases hex with ⟨x, hx, hxc⟩ | h
        · rcases List.mem_cons.mp hx with rfl | hx
          · exact absurd hxc hw
          · exact absurd ⟨x, hx, hxc⟩ hc
        · exact h

/-! ### The batches of one plot file -/

theorem PutUint64_mod (v : Nat) : PutUint64 (v % 2 ^ 64) = PutUint64 v := by
  unfold PutUint64
  have h : ∀ a b : Nat, a % 256 = b % 256 → (Fin.ofNat a : Byte) = Fin.ofNat b := by
    intro a b hab
    apply Fin.ext
    simpa [Fin.ofNat] using hab
  rw [h (v % 2 ^ 64 / 2 ^ 56) (v / 2 ^ 56) (by omega), h (v % 2 ^ 64 / 2 ^ 48) (v / 2 ^ 48) (by omega),
    h (v % 2 ^ 64 / 2 ^ 40) (v / 2 ^ 40) (by omega), h (v % 2 ^ 64 / 2 ^ 32) (v / 2 ^ 32) (by omega),
    h (v % 2 ^ 64 / 2 ^ 24) (v / 2 ^ 24) (by omega), h (v % 2 ^ 64 / 2 ^ 16) (v / 2 ^ 16) (by omega),
    h (v % 2 ^ 64 / 2 ^ 8) (v / 2 ^ 8) (by omega), h (v % 2 ^ 64) v (by omega)]

theorem PutUint64_congr (a b : Nat) (h : a % 2 ^ 64 = b % 2 ^ 64) : PutUint64 a = PutUint64 b := by
  rw [← PutUint64_mod a, ← PutUint64_mod b, h]

theorem GenCellForP_congr (S : Shabal) (a b plotID : Nat) (h : a % 2 ^ 64 = b % 2 ^ 64) :
    GenCellForP S a plotID = GenCellForP S b plotID := by
  have e : comBytesOf a plotID = comBytesOf b plotID := by
    unfold comBytesOf
    simp only
    rw [PutUint64_congr a b h]
  rw [GenCellForP_unfold, GenCellForP_unfold, e]

theorem GenCell_congr (S : Shabal) (a b plotID : Nat) (h : a % 2 ^ 64 = b % 2 ^ 64) :
    GenCell S a plotID = GenCell S b plotID := by
  rw [GenCell_eq_rearrange, GenCell_eq_rearrange, GenCellForP_congr S a b plotID h]

theorem set_map_append_replicate {α : Type} (l : List α) (n : Nat) (d a : α) :
    (l ++ List.replicate (n + 1) d).set l.length a = (l ++ [a]) ++ List.replicate n d := by
  rw [List.set_append_right _ _ (le_refl _), Nat.sub_self, List.replicate_succ]
  simp

theorem plotCells_aux (S : Shabal) (plotID once cn base : Nat)
    (hc : cn % 2 ^ 64 = base % 2 ^ 64) :
    ∀ m, m ≤ once →
      ∃ c, c % 2 ^ 64 = (base + m) % 2 ^ 64 ∧
      forUp (fun p (st : List (List Byte) × Nat) =>
        let cs := GenCellForP S st.2 plotID
        (st.1.set p cs, (st.2 + 1) % 2 ^ 64)) m (List.replicate once [], cn) =
      (cellsAt S plotID base m ++ List.replicate (once - m) [], c) := by
  intro m
  induction m with
  | zero =>
    intro _
    exact ⟨cn, hc, by simp [forUp, cellsAt]⟩
  | succ m ih =>
    intro hm
    obtain ⟨c, hcm, hst⟩ := ih (by omega)
    refine ⟨(c + 1) % 2 ^ 64, by omega, ?_⟩
    simp only [forUp]
    rw [hst]
    simp only
    have e : once - m = (once - (m + 1)) + 1 := by omega
    have hl : (cellsAt S plotID base m).length = m := by simp [cellsAt]
    have hset := set_map_append_replicate (cellsAt S plotID base m) (once - (m + 1)) []
      (GenCellForP S c plotID)
    rw [hl, ← e] at hset
    rw [hset, GenCellForP_congr S c (base + m) plotID hcm]
    have e2 : cellsAt S plotID base (m + 1) =
        cellsAt S plotID base m ++ [GenCellForP S (base + m) plotID] := by
      simp [cellsAt, List.range_succ]
    rw [e2]

theorem plotCells_eq (S : Shabal) (plotID once cn base : Nat)
    (hc : cn % 2 ^ 64 = base % 2 ^ 64) :
    (plotCells S plotID once cn).1 = cellsAt S plotID base once ∧
    (plotCells S plotID once cn).2 % 2 ^ 64 = (base + once) % 2 ^ 64 := by
  obtain ⟨c, hcm, hst⟩ := plotCells_aux S plotID once cn base hc once (le_refl _)
  unfold plotCells
  rw [hst, Nat.sub_self]
  exact ⟨by simp, hcm⟩

theorem forUp_set_index {α : Type} (d : α) (g : Nat → α) (n : Nat) :
    ∀ m, m ≤ n → forUp (fun k (l : List α) => l.set k (g k)) m (List.replicate n d) =
      (List.range m).map g ++ List.replicate (n - m) d := by
  intro m
  induction m with
  | zero => intro _; simp [forUp]
  | succ m ih =>
    intro hm
    simp only [forUp]
    rw [ih (by omega)]
    have e : n - m = (n - (m + 1)) + 1 := by omega
    have hl : ((List.range m).map g).length = m := by simp
    have hset := set_map_append_replicate ((List.range m).map g) (n - (m + 1)) d (g m)
    rw [hl, ← e] at hset
    rw [hset, List.range_succ, List.map_append]
    simp

theorem plotWaits_eq (cells : List (List Byte)) (singCount once jf onceHandle : Nat) :
    plotWaits cells singCount once jf onceHandle =
      (List.range 4096).map (fun k =>
        ({ Data := plotData cells once k, Index := plotIndex singCount k jf onceHandle } :
          WaitWrite)) := by
  unfold plotWaits
  have h := forUp_set_index ({ Data := [], Index := 0 } : WaitWrite)
    (fun k => ({ Data := plotData cells once k, Index := plotIndex singCount k jf onceHandle } :
          WaitWrite)) 4096 4096 (le_refl _)
  rw [Nat.sub_self, List.replicate_zero, List.append_nil] at h
  exact h

theorem forUp_set_pair_spec (q : Nat) (a b : Nat → Byte) (data : List Byte) :
    ∀ m, m ≤ 32 →
    (forUp (fun r (data : List Byte) =>
        (data.set (q * 64 + r) (a r)).set (q * 64 + 32 + r) (b r)) m data).length = data.length ∧
    ∀ p, (forUp (fun r (data : List Byte) =>
        (data.set (q * 64 + r) (a r)).set (q * 64 + 32 + r) (b r)) m data).getD p 0 =
      if p < data.length ∧ q * 64 ≤ p ∧ p < q * 64 + m then a (p - q * 64)
      else if p < data.length ∧ q * 64 + 32 ≤ p ∧ p < q * 64 + 32 + m then b (p - (q * 64 + 32))
      else data.getD p 0 := by
  intro m
  induction m with
  | zero =>
    intro _
    refine ⟨rfl, fun p => ?_⟩
    simp only [forUp]
    rw [if_neg (by omega), if_neg (by omega)]
  | succ m ih =>
    intro hm
    obtain ⟨ihl, ihp⟩ := ih (by omega)
    refine ⟨by simp only [forUp, List.length_set, ihl], fun p => ?_⟩
    simp only [forUp]
    rw [getD_set, getD_set, List.length_set, ihl, ihp]
    split_ifs <;>
      first
      | (exfalso; omega)
      | exact congrArg a (by omega)
      | exact congrArg b (by omega)
      | rfl

theorem forUp_succ {σ : Type} (body : Nat → σ → σ) (n : Nat) (s : σ) :
    forUp body (n + 1) s = body n (forUp body n s) := rfl

theorem forUp_rows_spec (a b : Nat → Nat → Byte) (data : List Byte) :
    ∀ n, 64 * n ≤ data.length →
    (forUp (fun q (data : List Byte) =>
      forUp (fun r (data : List Byte) =>
        (data.set (q * 64 + r) (a q r)).set (q * 64 + 32 + r) (b q r)) 32 data) n data).length
      = data.length ∧
    ∀ p, (forUp (fun q (data : List Byte) =>
      forUp (fun r (data : List Byte) =>
        (data.set (q * 64 + r) (a q r)).set (q * 64 + 32 + r) (b q r)) 32 data) n data).getD p 0 =
      if p < 64 * n then (if p % 64 < 32 then a (p / 64) (p % 64) else b (p / 64) (p % 64 - 32))
      else data.getD p 0 := by
  intro n
  induction n with
  | zero =>
    intro _
    refine ⟨rfl, fun p => ?_⟩
    simp only [forUp]
    rw [if_neg (by omega)]
  | succ n ih =>
    intro hn
    obtain ⟨ihl, ihp⟩ := ih (by omega)
    have hs := forUp_set_pair_spec n (a n) (b n)
      (forUp (fun q (data : List Byte) =>
      forUp (fun r (data : List Byte) =>
        (data.set (q * 64 + r) (a q r)).set (q * 64 + 32 + r) (b q r)) 32 data) n data) 32
      (le_refl _)
    obtain ⟨hsl, hsp⟩ := hs
    refine ⟨by rw [forUp_succ, hsl, ihl], fun p => ?_⟩
    rw [forUp_succ, hsp, ihl, ihp]
    split_ifs <;>
      first
      | (exfalso; omega)
      | exact congrArg₂ a (by omega) (by omega)
      | exact congrArg₂ b (by omega) (by omega)
      | rfl

theorem plotData_spec (cells : List (List Byte)) (once k : Nat) :
    (plotData cells once k).length = 64 * once ∧
    ∀ p, p < 64 * once → (plotData cells once k).getD p 0 =
      if p % 64 < 32 then (cells.getD (p / 64) []).getD (32 * (2 * k) + p % 64) 0
      else (cells.getD (p / 64) []).getD ((8192 - (2 * k + 1)) * 32 + (p % 64 - 32)) 0 := by
  have h := forUp_rows_spec
    (fun q r => (cells.getD q []).getD (32 * (2 * k) + r) 0)
    (fun q r => (cells.getD q []).getD ((8192 - (2 * k + 1)) * 32 + r) 0)
    (List.replicate (64 * once) 0) once (by simp)
  beta_reduce at h
  obtain ⟨hl, hp⟩ := h
  unfold plotData
  refine ⟨by rw [hl, List.length_replicate], fun p hp1 => ?_⟩
  rw [hp, if_pos hp1]

theorem batchAt_W (S : Shabal) (param : Param) (base j once : Nat) :
    (batchAt S param base j once).W =
      (List.range 4096).map (fun k =>
        ({ Data := plotData (cellsAt S param.PlotID (base + 400 * j) once) once k,
           Index := plotIndex param.SingCount k j 400 } : WaitWrite)) := by
  have h : (batchAt S param base j once).W =
      plotWaits (cellsAt S param.PlotID (base + 400 * j) once) param.SingCount once j 400 := by
    unfold batchAt
    dsimp only
  rw [h, plotWaits_eq]

theorem batchAt_eq (S : Shabal) (param : Param) (base j once : Nat) (cells : List (List Byte))
    (b : Bool) (hc : cells = cellsAt S param.PlotID (base + 400 * j) once)
    (hb : b = decide (j ≥ param.SingCount / 400)) :
    ({ W := plotWaits cells param.SingCount once j 400, Close := b } : ChanWrite) =
      batchAt S param base j once := by
  rw [hc, hb]; unfold batchAt; dsimp only

theorem plotBatches_eq (S : Shabal) (param : Param) (base : Nat) :
    ∀ d j cn, j + d = param.SingCount / 400 → cn % 2 ^ 64 = (base + 400 * j) % 2 ^ 64 →
      plotBatches S param (d + 1) j cn =
        (List.range' j d).map (fun j => batchAt S param base j 400) ++
          (if param.SingCount % 400 = 0 then []
           else [batchAt S param base (param.SingCount / 400) (param.SingCount % 400)]) := by
  intro d
  induction d with
  | zero =>
    intro j cn hj hcn
    have hj' : j = param.SingCount / 400 := by omega
    have hlast : decide (j ≥ param.SingCount / 400) = true := by simp [hj']
    rw [plotBatches]
    simp only [hlast, if_true]
    by_cases h0 : param.SingCount % 400 = 0
    · simp [h0]
    · rw [if_neg h0, if_neg h0]
      simp only [List.range'_zero, List.map_nil, List.nil_append, plotBatches]
      rw [batchAt_eq S param base j (param.SingCount % 400) _ true
        (plotCells_eq S param.PlotID (param.SingCount % 400) cn (base + 400 * j) hcn).1
        hlast.symm, hj']
  | succ d ih =>
    intro j cn hj hcn
    have hlast : decide (j ≥ param.SingCount / 400) = false := by
      simp only [decide_eq_false_iff_not]; omega
    rw [plotBatches]
    simp only [hlast, Bool.false_eq_true, if_false]
    rw [if_neg (by decide)]
    obtain ⟨hc1, hc2⟩ := plotCells_eq S param.PlotID 400 cn (base + 400 * j) hcn
    have e : (base + 400 * j + 400) % 2 ^ 64 = (base + 400 * (j + 1)) % 2 ^ 64 := by
      rw [Nat.mul_add, Nat.mul_one, Nat.add_assoc]
    rw [ih (j + 1) _ (by omega) (by rw [hc2, e]),
      batchAt_eq S param base j 400 _ false hc1 hlast.symm]
    simp only [List.range'_succ, List.map_cons, List.cons_append]

theorem plotFileBatches_eq (S : Shabal) (param : Param) (base : Nat) :
    plotFileBatches S param base =
      (List.range (param.SingCount / 400)).map (fun j => batchAt S param base j 400) ++
        (if param.SingCount % 400 = 0 then []
         else [batchAt S param base (param.SingCount / 400) (param.SingCount % 400)]) := by
  unfold plotFileBatches
  rw [plotBatches_eq S param base (param.SingCount / 400) 0 base (by omega) (by simp),
    List.range_eq_range']

theorem mem_plotFile_writes (S : Shabal) (param : Param) (base : Nat) (w : WaitWrite) :
    w ∈ (plotFileBatches S param base).flatMap (fun b => b.W) ↔
      ∃ j once k, validBatch param.SingCount j once ∧ k < 4096 ∧
        w = { Data := plotData (cellsAt S param.PlotID (base + 400 * j) once) once k,
              Index := plotIndex param.SingCount k j 400 } := by
  rw [plotFileBatches_eq]
  simp only [List.mem_flatMap, List.mem_append, List.mem_map, List.mem_range]
  constructor
  · rintro ⟨b, hb, hw⟩
    rcases hb with ⟨j, hj, rfl⟩ | hb
    · rw [batchAt_W, List.mem_map] at hw
      obtain ⟨k, hk, rfl⟩ := hw
      rw [List.mem_range] at hk
      exact ⟨j, 400, k, Or.inl ⟨hj, rfl⟩, hk, rfl⟩
    · by_cases h0 : param.SingCount % 400 = 0
      · rw [if_pos h0] at hb; simp at hb
      · rw [if_neg h0] at hb
        simp only [List.mem_singleton] at hb
        subst hb
        rw [batchAt_W, List.mem_map] at hw
        obtain ⟨k, hk, rfl⟩ := hw
        rw [List.mem_range] at hk
        exact ⟨_, _, k, Or.inr ⟨rfl, rfl, h0⟩, hk, rfl⟩
  · rintro ⟨j, once, k, hv, hk, rfl⟩
    rcases hv with ⟨hj, rfl⟩ | ⟨rfl, rfl, h0⟩
    · refine ⟨batchAt S param base j 400, Or.inl ⟨j, hj, rfl⟩, ?_⟩
      rw [batchAt_W, List.mem_map]
      exact ⟨k, List.mem_range.mpr hk, rfl⟩
    · refine ⟨batchAt S param base (param.SingCount / 400) (param.SingCount % 400),
        Or.inr (by rw [if_neg h0]; simp), ?_⟩
      rw [batchAt_W, List.mem_map]
      exact ⟨k, List.mem_range.mpr hk, rfl⟩

/-! ### Offsets and content of the writes -/

theorem wrapInt64_id (x : Int) (h0 : 0 ≤ x) (h1 : x < 2 ^ 63) : wrapInt64 x = x := by
  unfold wrapInt64
  omega

theorem validBatch_bounds {c j once : Nat} (h : validBatch c j once) :
    400 * j + once ≤ c ∧ 1 ≤ once ∧ once ≤ 400 := by
  rcases h with ⟨h1, h2⟩ | ⟨h1, h2, h3⟩
  · omega
  · omega

theorem plotIndex_eq (c k j : Nat) (hc : c < 2 ^ 45) (hk : k < 4096) (hj : 400 * j ≤ c) :
    plotIndex c k j 400 = ((64 * (c * k) + 25600 * j : Nat) : Int) := by
  unfold plotIndex
  have hck : c * k ≤ c * 4095 := Nat.mul_le_mul_left c (by omega)
  have e : (64 : Int) * (c : Int) * (k : Int) + (64 : Int) * (j : Int) * ((400 : Nat) : Int)
      = ((64 * (c * k) + 25600 * j : Nat) : Int) := by
    push_cast; ring
  rw [e]
  apply wrapInt64_id
  · exact Int.natCast_nonneg _
  · have : 64 * (c * k) + 25600 * j < 2 ^ 63 := by omega
    exact_mod_cast this

theorem getD_cellsAt (S : Shabal) (plotID base once q : Nat) (hq : q < once) :
    (cellsAt S plotID base once).getD q [] = GenCellForP S (base + q) plotID := by
  unfold cellsAt
  rw [List.getD_eq_getElem _ _ (by simpa using hq), List.getElem_map, List.getElem_range]

theorem getD_slotOf (cell : List Byte) (i r : Nat) (hr : r < 32) :
    (slotOf cell i).getD r 0 = cell.getD (32 * i + r) 0 := by
  unfold slotOf
  rw [getD_slice, if_pos (by omega)]

theorem getD_GenCell (S : Shabal) (nonce plotID i r : Nat) (hi : i < 8192) (hr : r < 32) :
    (GenCell S nonce plotID).getD (32 * i + r) 0 =
      (GenCellForP S nonce plotID).getD (32 * sourceSlot i + r) 0 := by
  rw [← getD_slotOf _ i r hr, ← getD_slotOf _ (sourceSlot i) r hr, GenCell_eq_rearrange,
    (slotOf_rearrange _ (length_GenCellForP S nonce plotID) i hi).2]

/-- The byte that the batch holding nonce index `m` stores for scoop `k` at position `t`
of that nonce is byte `64 * k + t` of the verifier's cell. -/
theorem plotData_value (S : Shabal) (plotID s k m t j once : Nat)
    (hk : k < 4096) (ht : t < 64) (hj1 : 400 * j ≤ m) (hj2 : m < 400 * j + once) :
    (plotData (cellsAt S plotID (s + 400 * j) once) once k).getD (64 * (m - 400 * j) + t) 0 =
      (GenCell S (s + m) plotID).getD (64 * k + t) 0 := by
  have hq : m - 400 * j < once := by omega
  rw [(plotData_spec _ once k).2 _ (by omega)]
  have e1 : (64 * (m - 400 * j) + t) / 64 = m - 400 * j := by omega
  have e2 : (64 * (m - 400 * j) + t) % 64 = t := by omega
  rw [e1, e2, getD_cellsAt S plotID _ once _ hq]
  have e3 : s + 400 * j + (m - 400 * j) = s + m := by omega
  rw [e3]
  by_cases h32 : t < 32
  · rw [if_pos h32]
    have e4 : 64 * k + t = 32 * (2 * k) + t := by omega
    rw [e4, getD_GenCell S _ _ (2 * k) t (by omega) h32]
    have e5 : sourceSlot (2 * k) = 2 * k := by
      unfold sourceSlot; rw [if_pos (by omega)]
    rw [e5]
  · rw [if_neg h32]
    have e4 : 64 * k + t = 32 * (2 * k + 1) + (t - 32) := by omega
    rw [e4, getD_GenCell S _ _ (2 * k + 1) (t - 32) (by omega) (by omega)]
    have e5 : sourceSlot (2 * k + 1) = 8192 - (2 * k + 1) := by
      unfold sourceSlot; rw [if_neg (by omega)]
    rw [e5, Nat.mul_comm 32 (8192 - (2 * k + 1))]

theorem paramOf_SingCount (c start plotID : Nat) : (paramOf c start plotID).SingCount = c := rfl

theorem paramOf_PlotID (c start plotID : Nat) : (paramOf c start plotID).PlotID = plotID := rfl

theorem paramOf_SingSize (c start plotID : Nat) :
    (paramOf c start plotID).SingSize = c * 262144 := rfl

theorem write_covers_iff (c k m t k' j' once' : Nat) (hc : c < 2 ^ 45)
    (hk : k < 4096) (hm : m < c) (ht : t < 64) (hk' : k' < 4096)
    (hv : validBatch c j' once')
    (d : List Byte) (w : WaitWrite) (hw : w = { Data := d, Index := plotIndex c k' j' 400 })
    (hd : d.length = 64 * once') :
    w.covers (64 * (c * k) + 64 * m + t) ↔ (k' = k ∧ 400 * j' ≤ m ∧ m < 400 * j' + once') := by
  obtain ⟨hb1, hb2, hb3⟩ := validBatch_bounds hv
  subst hw
  unfold WaitWrite.covers
  simp only
  rw [plotIndex_eq c k' j' hc hk' (by omega), Int.toNat_ofNat, hd]
  constructor
  · rintro ⟨_, h2, h3⟩
    have hkk : k' = k := by
      rcases Nat.lt_trichotomy k' k with h | h | h
      · have := Nat.mul_le_mul_left c (show k' + 1 ≤ k from h)
        rw [Nat.mul_add, Nat.mul_one] at this
        omega
      · exact h
      · have := Nat.mul_le_mul_left c (show k + 1 ≤ k' from h)
        rw [Nat.mul_add, Nat.mul_one] at this
        omega
    subst hkk
    omega
  · rintro ⟨rfl, h2, h3⟩
    exact ⟨Int.natCast_nonneg _, by omega, by omega⟩

theorem write_inside (c k' j' once' : Nat) (hc : c < 2 ^ 45) (hk' : k' < 4096)
    (hv : validBatch c j' once') (d : List Byte) (hd : d.length = 64 * once') :
    ({ Data := d, Index := plotIndex c k' j' 400 } : WaitWrite).inside (c * 262144) := by
  obtain ⟨hb1, hb2, hb3⟩ := validBatch_bounds hv
  unfold WaitWrite.inside
  simp only
  rw [plotIndex_eq c k' j' hc hk' (by omega), Int.toNat_ofNat, hd]
  refine ⟨Int.natCast_nonneg _, ?_⟩
  have := Nat.mul_le_mul_left c (show k' ≤ 4095 by omega)
  omega

theorem length_plotFile (S : Shabal) (plotID s c start : Nat) (hc : c < 2 ^ 45) :
    (plotFile S (paramOf c start plotID) s).length = c * 262144 := by
  unfold plotFile
  rw [foldl_writeBatch_eq, length_applyWrites]
  · rw [List.length_replicate, paramOf_SingSize]
  · intro w hw
    rw [mem_plotFile_writes, paramOf_SingCount, paramOf_PlotID] at hw
    obtain ⟨j, once, k, hv, hk, rfl⟩ := hw
    rw [List.length_replicate, paramOf_SingSize]
    exact write_inside c k j once hc hk hv _ (plotData_spec _ once k).1

theorem plotFile_writes_value (S : Shabal) (plotID s c start k m t : Nat)
    (hc : c < 2 ^ 45) (hk : k < 4096) (hm : m < c) (ht : t < 64) (w : WaitWrite)
    (hw : w ∈ (plotFileBatches S (paramOf c start plotID) s).flatMap (fun b => b.W))
    (hcov : w.covers (64 * (c * k) + 64 * m + t)) :
    w.Data.getD (64 * (c * k) + 64 * m + t - w.Index.toNat) 0 =
      (GenCell S (s + m) plotID).getD (64 * k + t) 0 := by
  rw [mem_plotFile_writes, paramOf_SingCount, paramOf_PlotID] at hw
  obtain ⟨j, once, k', hv, hk', hw⟩ := hw
  have hcov' := (write_covers_iff c k m t k' j once hc hk hm ht hk' hv _ w hw
    (plotData_spec _ once k').1).mp hcov
  obtain ⟨rfl, h1, h2⟩ := hcov'
  obtain ⟨hb1, hb2, hb3⟩ := validBatch_bounds hv
  subst hw
  simp only
  rw [plotIndex_eq c k' j hc hk' (by omega), Int.toNat_ofNat]
  have e : 64 * (c * k') + 64 * m + t - (64 * (c * k') + 25600 * j) =
      64 * (m - 400 * j) + t := by omega
  rw [e]
  exact plotData_value S plotID s k' m t j once hk' ht h1 h2

theorem plotFile_writes_cover (S : Shabal) (plotID s c start k m t : Nat)
    (hc : c < 2 ^ 45) (hk : k < 4096) (hm : m < c) (ht : t < 64) :
    ∃ w ∈ (plotFileBatches S (paramOf c start plotID) s).flatMap (fun b => b.W),
      w.covers (64 * (c * k) + 64 * m + t) := by
  obtain ⟨once, hv, hlt⟩ : ∃ once, validBatch c (m / 400) once ∧ m < 400 * (m / 400) + once := by
    by_cases h : m / 400 < c / 400
    · exact ⟨400, Or.inl ⟨h, rfl⟩, by omega⟩
    · exact ⟨c % 400, Or.inr ⟨by omega, rfl, by omega⟩, by omega⟩
  refine ⟨{ Data := plotData (cellsAt S plotID (s + 400 * (m / 400)) once) once k,
            Index := plotIndex c k (m / 400) 400 }, ?_, ?_⟩
  · rw [mem_plotFile_writes, paramOf_SingCount, paramOf_PlotID]
    exact ⟨m / 400, once, k, hv, hk, rfl⟩
  · rw [write_covers_iff c k m t k (m / 400) once hc hk hm ht hk hv _ _ rfl
      (plotData_spec _ once k).1]
    exact ⟨rfl, by omega, hlt⟩

theorem getD_plotFile (S : Shabal) (plotID s c start k m t : Nat)
    (hc : c < 2 ^ 45) (hk : k < 4096) (hm : m < c) (ht : t < 64) :
    (plotFile S (paramOf c start plotID) s).getD (64 * (c * k) + 64 * m + t) 0 =
      (GenCell S (s + m) plotID).getD (64 * k + t) 0 := by
  unfold plotFile
  rw [foldl_writeBatch_eq]
  apply getD_applyWrites
  · intro w hw hcov
    exact plotFile_writes_value S plotID s c start k m t hc hk hm ht w hw hcov
  · left
    exact plotFile_writes_cover S plotID s c start k m t hc hk hm ht

/-! ### The seal verifier -/

theorem VerifySeal_unfold (S : Shabal) (now : Int) (header : Header) :
    VerifySeal S now header =
      match CalcPlotID header.Coinbase with
      | none => Outcome.panic
      | some addrPlotID =>
        if header.PlotID ≠ addrPlotID then Outcome.err "plotID mismatch"
        else
          match sealDeadLine S header with
          | none => Outcome.panic
          | some deadline =>
            if deadline ≠ header.DeadLine then Outcome.err "deadline compute error"
            else if ¬ (deadline + header.LastTime < header.Time) then
              Outcome.err "deadline not satisfy"
            else if header.Time - 15 > (uint64OfInt64 now : Int) then
              Outcome.err "time mismatch"
            else Outcome.ok := by
  unfold VerifySeal sealDeadLine sealTarget
  rfl

theorem VerifySeal_short_coinbase (S : Shabal) (now : Int) (header : Header)
    (h : header.Coinbase.length < 23) : VerifySeal S now header = Outcome.panic := by
  have hc : CalcPlotID header.Coinbase = none := by
    unfold CalcPlotID BigEndian_Uint64
    by_cases h15 : header.Coinbase.length < 15
    · rw [if_pos h15]
    · rw [if_neg h15]
      simp only [List.length_drop]
      rw [if_pos (by omega)]
  rw [VerifySeal_unfold, hc]

theorem uint64OfInt64_nonneg (now : Int) (h0 : 0 ≤ now) (h1 : now < 2 ^ 63) :
    (uint64OfInt64 now : Int) = now := by
  unfold uint64OfInt64
  omega

theorem VerifySeal_decision (S : Shabal) (now : Int) (header : Header) (addrPlotID : Nat)
    (hp : CalcPlotID header.Coinbase = some addrPlotID) (hb : 0 < header.BaseTarget)
    (h0 : 0 ≤ now) (h1 : now < 2 ^ 63) :
    ∃ deadline : Int, sealDeadLine S header = some deadline ∧
      VerifySeal S now header =
        (if header.PlotID ≠ addrPlotID then Outcome.err "plotID mismatch"
         else if deadline ≠ header.DeadLine then Outcome.err "deadline compute error"
         else if ¬ (header.DeadLine + header.LastTime < header.Time) then
           Outcome.err "deadline not satisfy"
         else if ¬ (header.Time - 15 ≤ now) then Outcome.err "time mismatch"
         else Outcome.ok) ∧
      (VerifySeal S now header = Outcome.ok ↔
        (header.PlotID = addrPlotID ∧ deadline = header.DeadLine ∧
          header.DeadLine + header.LastTime < header.Time ∧ header.Time - 15 ≤ now)) := by
  have hd : sealDeadLine S header =
      some (((beDecode ((sealTarget S header).drop 24) : Nat) : Int) / header.BaseTarget) := by
    unfold sealDeadLine targetDeadLine CalcDeadLine
    simp only
    rw [if_neg hb.ne']
  have key : VerifySeal S now header =
        (if header.PlotID ≠ addrPlotID then Outcome.err "plotID mismatch"
         else if ((beDecode ((sealTarget S header).drop 24) : Nat) : Int) / header.BaseTarget
            ≠ header.DeadLine then Outcome.err "deadline compute error"
         else if ¬ (header.DeadLine + header.LastTime < header.Time) then
           Outcome.err "deadline not satisfy"
         else if ¬ (header.Time - 15 ≤ now) then Outcome.err "time mismatch"
         else Outcome.ok) := by
    rw [VerifySeal_unfold, hp, hd]
    simp only
    rw [uint64OfInt64_nonneg now h0 h1]
    by_cases c1 : header.PlotID ≠ addrPlotID
    · rw [if_pos c1, if_pos c1]
    · rw [if_neg c1, if_neg c1]
      by_cases c2 : ((beDecode ((sealTarget S header).drop 24) : Nat) : Int) / header.BaseTarget
            ≠ header.DeadLine
      · rw [if_pos c2, if_pos c2]
      · rw [if_neg c2, if_neg c2]
        have e : ((beDecode ((sealTarget S header).drop 24) : Nat) : Int) / header.BaseTarget
            = header.DeadLine := not_not.mp c2
        rw [e]
        by_cases c3 : header.DeadLine + header.LastTime < header.Time
        · rw [if_neg (not_not.mpr c3), if_neg (not_not.mpr c3)]
          by_cases c4 : header.Time - 15 ≤ now
          · rw [if_neg (by omega), if_neg (not_not.mpr c4)]
          · rw [if_pos (by omega), if_pos c4]
        · rw [if_pos c3, if_pos c3]
  refine ⟨_, hd, key, ?_⟩
  rw [key]
  constructor
  · intro h
    split_ifs at h with c1 c2 c3 c4
    exact ⟨not_not.mp c1, not_not.mp c2, c3, c4⟩
  · rintro ⟨c1, c2, c3, c4⟩
    rw [if_neg (not_not.mpr c1), if_neg (not_not.mpr c2), if_neg (not_not.mpr c3),
      if_neg (not_not.mpr c4)]

/-! ### The reference slots, index by index -/

theorem rawRecurrence_cons (S : Shabal) (seed : List Byte) (T : List (List Byte))
    (hT : T.length < 8192) (h : RawRecurrence S seed T) :
    RawRecurrence S seed (S.digest (slotMessage seed (8191 - T.length) T) :: T) := by
  intro idx hidx
  cases idx with
  | zero =>
    simp only [List.getD_cons_zero, List.length_cons, List.drop_succ_cons, List.drop_zero]
    have e : 8192 - (T.length + 1) + 0 = 8191 - T.length := by omega
    rw [e]
  | succ k =>
    have hk : k < T.length := by simpa using hidx
    simp only [List.getD_cons_succ, List.length_cons, List.drop_succ_cons]
    have e : 8192 - (T.length + 1) + (k + 1) = 8192 - T.length + k := by omega
    rw [e]
    exact h k hk

theorem refRawSlots_recurrence (S : Shabal) (seed : List Byte) :
    RawRecurrence S seed (refRawSlots S seed) := by
  have h := forDown_sim
    (fun n (_ : Unit) (H : List (List Byte)) => ∃ T, RawTail n H T ∧ RawRecurrence S seed T)
    (fun _ u => u) (refRawStep S seed)
    (fun i _ H hR => by
      obtain ⟨T, ⟨hn, hU, hlen, hH⟩, hrec⟩ := hR
      have hi : 8191 - T.length = i := by omega
      refine ⟨S.digest (slotMessage seed i T) :: T, ⟨by omega,
        Uniform.cons (S.digest_length _) hU, by simp [hlen]; omega, ?_⟩, ?_⟩
      · rw [hH, refRawStep_eq S seed i T (by omega) (by omega)]
      · have := rawRecurrence_cons S seed T (by omega) hrec
        rw [hi] at this
        exact this)
    8192 () (List.replicate 8192 [])
    ⟨[], ⟨le_refl _, fun t ht => absurd ht (List.not_mem_nil t), rfl,
      (List.append_nil _).symm⟩, fun idx hidx => absurd hidx (Nat.not_lt_zero _)⟩
  obtain ⟨T, ⟨_, _, _, hH⟩, hrec⟩ := h
  have e : refRawSlots S seed = T := by
    unfold refRawSlots
    rw [hH, List.replicate_zero, List.nil_append]
  rw [e]
  exact hrec

theorem refRawSlots_getD (S : Shabal) (seed : List Byte) (i : Nat) (hi : i < 8192) :
    (refRawSlots S seed).getD i [] =
      S.digest ((((refRawSlots S seed).drop (i + 1)).take 128).flatten ++
        (if 8064 ≤ i then seed else [])) := by
  obtain ⟨_, hlen⟩ := refRawSlots_uniform S seed
  have h := refRawSlots_recurrence S seed i (by rw [hlen]; exact hi)
  rw [hlen] at h
  have e : 8192 - 8192 + i = i := by omega
  rw [e] at h
  rw [h]
  unfold slotMessage
  have hdl : ((refRawSlots S seed).drop (i + 1)).length = 8191 - i := by
    rw [List.length_drop, hlen]; omega
  by_cases h1 : i = 8191
  · rw [if_pos h1, if_pos (by omega)]
    have : (refRawSlots S seed).drop (i + 1) = [] := List.length_eq_zero.mp (by omega)
    rw [this]
    rfl
  · rw [if_neg h1]
    by_cases h2 : i < 8064
    · rw [if_pos h2, if_neg (by omega), List.append_nil]
    · rw [if_neg h2, if_pos (by omega), List.take_of_length_le (by omega)]

theorem map_getD_range (l : List (List Byte)) (f : List Byte → List Byte) :
    (List.range l.length).map (fun i => f (l.getD i [])) = l.map f := by
  apply List.ext_getElem
  · rw [List.length_map, List.length_range, List.length_map]
  · intro n h1 h2
    rw [List.length_map, List.length_range] at h1
    rw [List.getElem_map, List.getElem_map, List.getElem_range, List.getD_eq_getElem _ _ h1]

theorem refCell_eq_range (S : Shabal) (nonce plotID : Nat) :
    refCell S nonce plotID =
      ((List.range 8192).map (fun i =>
        xorBytes ((refRawSlots S (refSeed nonce plotID)).getD i [])
          (S.digest ((refRawSlots S (refSeed nonce plotID)).flatten ++
            refSeed nonce plotID)))).flatten := by
  obtain ⟨_, hlen⟩ := refRawSlots_uniform S (refSeed nonce plotID)
  have h := map_getD_range (refRawSlots S (refSeed nonce plotID))
    (fun h => xorBytes h (S.digest ((refRawSlots S (refSeed nonce plotID)).flatten ++
            refSeed nonce plotID)))
  rw [hlen] at h
  rw [refCell_unfold, ← h]

theorem length_GenCell (S : Shabal) (nonce plotID : Nat) :
    (GenCell S nonce plotID).length = 262144 := by
  rw [GenCell_eq_rearrange]
  exact (slotOf_rearrange _ (length_GenCellForP S nonce plotID) 0 (by omega)).1

/-! ### Plot geometry, rewards and the directory list -/

theorem parseParam_of_pos (sing total : Int) (hs : 0 < sing) (hs2 : sing < 2 ^ 63)
    (ht : -(2 ^ 63) ≤ total) (ht2 : total < 2 ^ 63) :
    parseParam sing total =
      some { SingSize := (sing / 262144) * 262144, SingCount := sing / 262144,
             Count := Int.tdiv total sing } := by
  unfold parseParam divInt64
  simp only
  rw [if_neg (by omega), if_neg (by omega)]
  have e1 : Int.tdiv sing 262144 = sing / 262144 := Int.tdiv_eq_ediv (by omega) (by decide)
  rw [e1]
  have b1 : 0 ≤ sing / 262144 := by omega
  have b2 : sing / 262144 < 2 ^ 63 := by omega
  have w1 : wrapInt64 (sing / 262144) = sing / 262144 := wrapInt64_id _ b1 b2
  have w2 : wrapInt64 (sing / 262144 * 262144) = sing / 262144 * 262144 :=
    wrapInt64_id _ (by omega) (by omega)
  have w3 : wrapInt64 (Int.tdiv total sing) = Int.tdiv total sing := by
    rcases Int.le_total 0 total with h | h
    · have e : Int.tdiv total sing = total / sing := Int.tdiv_eq_ediv h (by omega)
      have q0 : 0 ≤ total / sing := Int.ediv_nonneg h (by omega)
      have q1 : total / sing ≤ total := Int.ediv_le_self _ h
      rw [e]
      exact wrapInt64_id _ q0 (by omega)
    · have e : Int.tdiv total sing = -((-total) / sing) := by
        have := Int.neg_tdiv total sing
        rw [Int.tdiv_eq_ediv (by omega : (0 : Int) ≤ -total) (by omega)] at this
        omega
      have q0 : 0 ≤ (-total) / sing := Int.ediv_nonneg (by omega) (by omega)
      have q1 : (-total) / sing ≤ -total := Int.ediv_le_self _ (by omega)
      rw [e]
      unfold wrapInt64
      omega
  simp only [w1, w2, w3]


theorem foldl_PocRewards_step (header : Header) (uncles : List Header) (s : Balances) (r : Int) :
    uncles.foldl (PocRewards.step header) (s, r) =
      (fun a => s a + ((uncles.filter (fun u => decide (u.Coinbase = a))).map
          (fun u => (u.Number + 8 - header.Number) * 1000000000000000000 / 8)).sum,
       r + (uncles.length : Int) * (1000000000000000000 / 32)) := by
  induction uncles generalizing s r with
  | nil => simp
  | cons u us ih =>
    rw [List.foldl_cons]
    have hstep : PocRewards.step header (s, r) u =
        (AddBalance s u.Coinbase ((u.Number + 8 - header.Number) * 1000000000000000000 / 8),
         r + 1000000000000000000 / 32) := rfl
    rw [hstep, ih]
    refine Prod.ext ?_ ?_
    · funext a
      simp only [AddBalance, List.filter_cons]
      by_cases h : u.Coinbase = a
      · simp only [h, decide_True, if_true, List.map_cons, List.sum_cons]
        omega
      · have h2 : ¬ a = u.Coinbase := fun e => h e.symm
        simp only [h, h2, decide_False, if_false, Bool.false_eq_true]
    · simp only [List.length_cons, Nat.cast_add, Nat.cast_one]
      omega

theorem splitOn_ne_nil (sep : Char) (s : List Char) : splitOn sep s ≠ [] := by
  cases s with
  | nil => simp [splitOn]
  | cons c cs =>
    unfold splitOn
    split
    · simp
    · split <;> simp

theorem splitOn_append (sep : Char) (d rest : List Char) (h : sep ∉ d) :
    splitOn sep (d ++ sep :: rest) = d :: splitOn sep rest := by
  induction d with
  | nil => simp [splitOn]
  | cons c cs ih =>
    have hc : c ≠ sep := fun e => h (by simp [e])
    have hcs : sep ∉ cs := fun e => h (by simp [e])
    rw [List.cons_append, splitOn, if_neg hc, ih hcs]

theorem splitOn_of_not_mem (sep : Char) (d : List Char) (h : sep ∉ d) :
    splitOn sep d = [d] := by
  induction d with
  | nil => rfl
  | cons c cs ih =>
    have hc : c ≠ sep := fun e => h (by simp [e])
    have hcs : sep ∉ cs := fun e => h (by simp [e])
    rw [splitOn, if_neg hc, ih hcs]

theorem splitOn_dirsWithCommas (ds : List (List Char)) (h : ∀ d ∈ ds, ',' ∉ d) :
    splitOn ',' (dirsWithCommas ds) = ds ++ [[]] := by
  induction ds with
  | nil => rfl
  | cons d ds ih =>
    have hd : ',' ∉ d := h d (by simp)
    have hds : ∀ e ∈ ds, ',' ∉ e := fun e he => h e (by simp [he])
    have e : dirsWithCommas (d :: ds) = d ++ ',' :: dirsWithCommas ds := by
      simp [dirsWithCommas]
    rw [e, splitOn_append _ _ _ hd, ih hds]
    rfl

theorem splitOn_dirsBetweenCommas (ds : List (List Char)) (h : ∀ d ∈ ds, ',' ∉ d)
    (hne : ds ≠ []) : splitOn ',' (dirsBetweenCommas ds) = ds := by
  induction ds with
  | nil => exact absurd rfl hne
  | cons d ds ih =>
    have hd : ',' ∉ d := h d (by simp)
    have hds : ∀ e ∈ ds, ',' ∉ e := fun e he => h e (by simp [he])
    cases ds with
    | nil => exact splitOn_of_not_mem _ _ hd
    | cons d2 ds2 =>
      have e : dirsBetweenCommas (d :: d2 :: ds2) = d ++ ',' :: dirsBetweenCommas (d2 :: ds2) := rfl
      rw [e, splitOn_append _ _ _ hd, ih hds (by simp)]

/-! ### Acceptance by the verifier -/

theorem VerifySeal_ok_iff (S : Shabal) (now : Int) (h : Header) :
    VerifySeal S now h = Outcome.ok ↔
      CalcPlotID h.Coinbase = some h.PlotID ∧ sealDeadLine S h = some h.DeadLine ∧
      h.DeadLine + h.LastTime < h.Time ∧ h.Time - 15 ≤ (uint64OfInt64 now : Int) := by
  rw [VerifySeal_unfold]
  cases hc : CalcPlotID h.Coinbase with
  | none => simp
  | some id =>
    simp only
    by_cases c1 : h.PlotID ≠ id
    · rw [if_pos c1]
      constructor
      · intro e
        cases e
      · rintro ⟨e, _⟩
        exact absurd (Option.some.inj e).symm c1
    · rw [if_neg c1]
      have e1 : h.PlotID = id := not_not.mp c1
      cases hd : sealDeadLine S h with
      | none => simp
      | some d =>
        simp only
        by_cases c2 : d ≠ h.DeadLine
        · rw [if_pos c2]
          constructor
          · intro e
            cases e
          · rintro ⟨_, e, _⟩
            exact absurd (Option.some.inj e) c2
        · rw [if_neg c2]
          have e2 : d = h.DeadLine := not_not.mp c2
          subst e2
          by_cases c3 : h.DeadLine + h.LastTime < h.Time
          · rw [if_neg (not_not.mpr c3)]
            by_cases c4 : h.Time - 15 > (uint64OfInt64 now : Int)
            · rw [if_pos c4]
              constructor
              · intro e
                cases e
              · rintro ⟨_, _, _, e⟩
                omega
            · rw [if_neg c4]
              exact ⟨fun _ => ⟨by rw [e1], rfl, c3, by omega⟩, fun _ => rfl⟩
          · rw [if_pos c3]
            constructor
            · intro e
              cases e
            · rintro ⟨_, _, e, _⟩
              exact absurd e c3

theorem verifyHeader_ok_iff (S : Shabal) (P : ChainParams) (now sealNow : Int)
    (chain : ChainReader) (header parent : Header) (uncle checkSeal : Bool) :
    verifyHeader S P now sealNow chain header parent uncle checkSeal = Outcome.ok ↔
      header.Extra.length ≤ P.MaximumExtraDataSize ∧
      (uncle = true → header.Time ≤ 2 ^ 256 - 1) ∧
      (uncle = false → header.Time ≤ now) ∧
      parent.Time < header.Time ∧
      header.GasLimit ≤ 2 ^ 63 - 1 ∧
      header.GasUsed ≤ header.GasLimit ∧
      P.GasLimitBoundDivisor ≠ 0 ∧
      ((parent.GasLimit - header.GasLimit).natAbs : Int)
        < parent.GasLimit / P.GasLimitBoundDivisor ∧
      P.MinGasLimit ≤ header.GasLimit ∧
      header.Number - parent.Number = 1 ∧
      (checkSeal = true → VerifySeal S sealNow header = Outcome.ok) := by
  unfold verifyHeader
  simp only
  by_cases c1 : header.Extra.length > P.MaximumExtraDataSize
  · rw [if_pos c1]
    exact ⟨(fun e => by cases e), fun ⟨h1, _⟩ => absurd h1 (by omega)⟩
  rw [if_neg c1]
  by_cases c2 : (uncle = true ∧ header.Time > 2 ^ 256 - 1)
  · rw [if_pos c2]
    exact ⟨(fun e => by cases e), fun ⟨_, h2, _⟩ => absurd (h2 c2.1) (not_le.mpr c2.2)⟩
  rw [if_neg c2]
  by_cases c3 : (¬ uncle = true ∧ header.Time > now)
  · rw [if_pos c3]
    refine ⟨(fun e => by cases e), fun ⟨_, _, h3, _⟩ => ?_⟩
    have hu : uncle = false := by
      cases uncle
      · rfl
      · exact absurd rfl c3.1
    exact absurd (h3 hu) (not_le.mpr c3.2)
  rw [if_neg c3]
  by_cases c4 : header.Time ≤ parent.Time
  · rw [if_pos c4]
    exact ⟨(fun e => by cases e), fun ⟨_, _, _, h4, _⟩ => absurd h4 (not_lt.mpr c4)⟩
  rw [if_neg c4]
  by_cases c5 : header.GasLimit > 2 ^ 63 - 1
  · rw [if_pos c5]
    exact ⟨(fun e => by cases e), fun ⟨_, _, _, _, h5, _⟩ => absurd h5 (not_le.mpr c5)⟩
  rw [if_neg c5]
  by_cases c6 : header.GasUsed > header.GasLimit
  · rw [if_pos c6]
    exact ⟨(fun e => by cases e), fun ⟨_, _, _, _, _, h6, _⟩ => absurd h6 (not_le.mpr c6)⟩
  rw [if_neg c6]
  by_cases c7 : P.GasLimitBoundDivisor = 0
  · rw [if_pos c7]
    exact ⟨(fun e => by cases e), fun ⟨_, _, _, _, _, _, h7, _⟩ => absurd c7 h7⟩
  rw [if_neg c7]
  by_cases c8 : (((parent.GasLimit - header.GasLimit).natAbs : Int)
      ≥ parent.GasLimit / P.GasLimitBoundDivisor ∨ header.GasLimit < P.MinGasLimit)
  · rw [if_pos c8]
    refine ⟨(fun e => by cases e), fun ⟨_, _, _, _, _, _, _, h8, h9, _⟩ => ?_⟩
    rcases c8 with c | c
    · exact absurd h8 (not_lt.mpr c)
    · exact absurd h9 (not_le.mpr c)
  rw [if_neg c8]
  by_cases c9 : header.Number - parent.Number ≠ 1
  · rw [if_pos c9]
    exact ⟨(fun e => by cases e), fun ⟨_, _, _, _, _, _, _, _, _, h10, _⟩ => absurd h10 c9⟩
  rw [if_neg c9]
  have b2 : uncle = true → header.Time ≤ 2 ^ 256 - 1 := fun hu =>
    not_lt.mp (fun hgt => c2 ⟨hu, hgt⟩)
  have b3 : uncle = false → header.Time ≤ now := fun hu =>
    not_lt.mp (fun hgt => c3 ⟨by rw [hu]; exact Bool.false_ne_true, hgt⟩)
  have b8 : ((parent.GasLimit - header.GasLimit).natAbs : Int)
      < parent.GasLimit / P.GasLimitBoundDivisor := not_le.mp (fun hge => c8 (Or.inl hge))
  have b9 : P.MinGasLimit ≤ header.GasLimit := not_lt.mp (fun hlt => c8 (Or.inr hlt))
  have base := And.intro (not_lt.mp c1) (And.intro b2 (And.intro b3 (And.intro (not_le.mp c4)
    (And.intro (not_lt.mp c5) (And.intro (not_lt.mp c6) (And.intro c7 (And.intro b8
    (And.intro b9 (not_not.mp c9)))))))))
  cases checkSeal with
  | false =>
    rw [if_neg Bool.false_ne_true]
    exact ⟨fun _ => ⟨base.1, base.2.1, base.2.2.1, base.2.2.2.1, base.2.2.2.2.1,
      base.2.2.2.2.2.1, base.2.2.2.2.2.2.1, base.2.2.2.2.2.2.2.1, base.2.2.2.2.2.2.2.2.1,
      base.2.2.2.2.2.2.2.2.2, fun e => absurd e Bool.false_ne_true⟩, fun _ => rfl⟩
  | true =>
    rw [if_pos rfl]
    exact ⟨fun e => ⟨base.1, base.2.1, base.2.2.1, base.2.2.2.1, base.2.2.2.2.1,
      base.2.2.2.2.2.1, base.2.2.2.2.2.2.1, base.2.2.2.2.2.2.2.1, base.2.2.2.2.2.2.2.2.1,
      base.2.2.2.2.2.2.2.2.2, fun _ => e⟩, fun h => h.2.2.2.2.2.2.2.2.2.2 rfl⟩

theorem verifyHeader_seal_short_coinbase (S : Shabal) (P : ChainParams) (now sealNow : Int)
    (chain : ChainReader) (header parent : Header) (uncle : Bool)
    (h : header.Coinbase.length < 23) :
    verifyHeader S P now sealNow chain header parent uncle true ≠ Outcome.ok := by
  intro hok
  have hv := (verifyHeader_ok_iff S P now sealNow chain header parent uncle true).1 hok
  have hs := hv.2.2.2.2.2.2.2.2.2.2 rfl
  rw [VerifySeal_short_coinbase S sealNow header h] at hs
  cases hs

theorem sealDeadLine_eq (S : Shabal) (h : Header) (hb : h.BaseTarget ≠ 0) :
    sealDeadLine S h = some (((beDecode ((sealTarget S h).drop 24) : Nat) : Int) / h.BaseTarget) := by
  unfold sealDeadLine targetDeadLine CalcDeadLine
  simp only
  rw [if_neg hb]

theorem sealDeadLine_zero (S : Shabal) (h : Header) (hb : h.BaseTarget = 0) :
    sealDeadLine S h = none := by
  unfold sealDeadLine targetDeadLine CalcDeadLine
  simp only
  rw [if_pos hb]

theorem CalcPlotID_coinbase23 : CalcPlotID coinbase23 = some 9 := by decide

theorem VerifySeal_zero_target (S : Shabal) (now : Int) (h : Header)
    (hp : CalcPlotID h.Coinbase = some h.PlotID) (hb : h.BaseTarget = 0) :
    VerifySeal S now h = Outcome.panic := by
  rw [VerifySeal_unfold, hp, sealDeadLine_zero S h hb]
  simp

/-! ### The emissions of the miner -/

theorem fileAdvance_ne_found (st : MinerState) (v : FileVars) (st' : MinerState) (now : Int)
    (hdr : Header) : fileAdvance st v ≠ FileStep.found st' now hdr := by
  unfold fileAdvance
  simp only
  split <;> exact fun e => by cases e

theorem fileStep_found (c : MineCtx) (fi : PlotEntry) (st : MinerState) (v : FileVars)
    (st' : MinerState) (now : Int) (hdr : Header)
    (h : fileStep c fi st v = FileStep.found st' now hdr) :
    deadlinePassed c st' now = true ∧ hdr = sealedHeader c st' now := by
  unfold fileStep at h
  simp only at h
  repeat' split at h
  all_goals first
    | (cases h; done)
    | exact absurd h (fileAdvance_ne_found _ _ _ _ _)
    | (injection h with h1 h2 h3
       subst h1 h2 h3
       exact ⟨by assumption, rfl⟩)

theorem scanFile_found (c : MineCtx) (fi : PlotEntry) :
    ∀ (fuel : Nat) (st : MinerState) (v : FileVars) (st' : MinerState) (now : Int)
      (hdr : Header), scanFile c fi fuel st v = Scan.found st' now hdr →
      deadlinePassed c st' now = true ∧ hdr = sealedHeader c st' now := by
  intro fuel
  induction fuel with
  | zero =>
    intro st v st' now hdr h
    cases h
  | succ fuel ih =>
    intro st v st' now hdr h
    unfold scanFile at h
    cases hfs : fileStep c fi st v with
    | next st1 v1 =>
      rw [hfs] at h
      exact ih st1 v1 st' now hdr h
    | leave st1 =>
      rw [hfs] at h
      cases h
    | found st1 now1 hdr1 =>
      rw [hfs] at h
      injection h with h1 h2 h3
      subst h1 h2 h3
      exact fileStep_found c fi st v _ _ _ hfs
    | panic =>
      rw [hfs] at h
      cases h

theorem scanFiles_found (c : MineCtx) (fuel : Nat) :
    ∀ (fis : List PlotEntry) (st : MinerState) (st' : MinerState) (now : Int) (hdr : Header),
      scanFiles c fuel fis st = Scan.found st' now hdr →
      deadlinePassed c st' now = true ∧ hdr = sealedHeader c st' now := by
  intro fis
  induction fis with
  | nil =>
    intro st st' now hdr h
    cases h
  | cons fi rest ih =>
    intro st st' now hdr h
    unfold scanFiles at h
    cases hsf : scanFile c fi fuel st
        { total := 0, index := 0, pubID := 0, nonce := 0, data := [] } with
    | done st1 =>
      rw [hsf] at h
      exact ih st1 st' now hdr h
    | found st1 now1 hdr1 =>
      rw [hsf] at h
      injection h with h1 h2 h3
      subst h1 h2 h3
      exact scanFile_found c fi fuel st _ _ _ _ hsf
    | panic =>
      rw [hsf] at h
      cases h
    | stopped =>
      rw [hsf] at h
      cases h
    | running =>
      rw [hsf] at h
      cases h

theorem scanDirs_found (c : MineCtx) (fuel : Nat) :
    ∀ (ds : List (List Char)) (st : MinerState) (st' : MinerState) (now : Int) (hdr : Header),
      scanDirs c fuel ds st = Scan.found st' now hdr →
      deadlinePassed c st' now = true ∧ hdr = sealedHeader c st' now := by
  intro ds
  induction ds with
  | nil =>
    intro st st' now hdr h
    cases h
  | cons d rest ih =>
    intro st st' now hdr h
    unfold scanDirs at h
    cases hrd : c.env.readDir d with
    | none =>
      rw [hrd] at h
      cases h
    | some rd =>
      rw [hrd] at h
      simp only at h
      cases hsf : scanFiles c fuel rd st with
      | done st1 =>
        rw [hsf] at h
        exact ih st1 st' now hdr h
      | found st1 now1 hdr1 =>
        rw [hsf] at h
        injection h with h1 h2 h3
        subst h1 h2 h3
        exact scanFiles_found c fuel rd st _ _ _ hsf
      | panic =>
        rw [hsf] at h
        cases h
      | stopped =>
        rw [hsf] at h
        cases h
      | running =>
        rw [hsf] at h
        cases h

theorem waitLoop_found (c : MineCtx) :
    ∀ (fuel : Nat) (st : MinerState) (st' : MinerState) (now : Int) (hdr : Header),
      waitLoop c fuel st = Scan.found st' now hdr →
      deadlinePassed c st' now = true ∧ hdr = sealedHeader c st' now := by
  intro fuel
  induction fuel with
  | zero =>
    intro st st' now hdr h
    cases h
  | succ fuel ih =>
    intro st st' now hdr h
    unfold waitLoop at h
    simp only at h
    split at h
    · injection h with h1 h2 h3
      subst h1 h2 h3
      exact ⟨by assumption, rfl⟩
    · exact ih _ _ _ _ h

theorem mine_found (S : Shabal) (env : MineEnv) (block : Block) (bt : Int) (fuel : Nat)
    (st : MinerState) (now : Int) (hdr : Header)
    (h : mine S env block bt fuel = Scan.found st now hdr) :
    st.minDeadLine + block.LastTime < (uint64OfInt64 now : Int) ∧
    hdr = { block.header with
            Nonce := st.minNonce
            PlotID := st.minPubID
            GenSig := block.header.GenSig
            Time := (uint64OfInt64 now : Int)
            BaseTarget := bt
            DeadLine := st.minDeadLine } := by
  unfold mine at h
  simp only at h
  cases hc : CalcPlotID block.header.Coinbase with
  | none =>
    rw [hc] at h
    cases h
  | some addrPlotID =>
    rw [hc] at h
    simp only at h
    cases hn : env.nodes addrPlotID with
    | none =>
      rw [hn] at h
      cases h
    | some node =>
      rw [hn] at h
      simp only at h
      cases hp : env.plot with
      | none =>
        rw [hp] at h
        cases h
      | some dirBytes =>
        rw [hp] at h
        simp only at h
        generalize hcdef : (MineCtx.mk S env block.header block.LastTime block.header.GenSig bt
          addrPlotID node
          (GetScoopID (GenHash S block.header.GenSig (bigUint64 block.header.Number)))) = c at h
        have key : deadlinePassed c st now = true ∧ hdr = sealedHeader c st now := by
          cases hsd : scanDirs c fuel (plotDirs dirBytes)
              { minDeadLine := 9999999999, minPubID := 0, minNonce := 0, tick := 0 } with
          | done st1 =>
            rw [hsd] at h
            exact waitLoop_found c fuel st1 st now hdr h
          | found st1 now1 hdr1 =>
            rw [hsd] at h
            injection h with h1 h2 h3
            subst h1 h2 h3
            exact scanDirs_found c fuel _ _ _ _ _ hsd
          | panic =>
            rw [hsd] at h
            cases h
          | stopped =>
            rw [hsd] at h
            cases h
          | running =>
            rw [hsd] at h
            cases h
        subst hcdef
        refine ⟨?_, key.2⟩
        have k1 := key.1
        unfold deadlinePassed at k1
        exact of_decide_eq_true k1

theorem mine_envIdle : mine lengthShabal envIdle blockA 1000000000000000000 1 =
    Scan.found { minDeadLine := 9999999999, minPubID := 0, minNonce := 0, tick := 0 }
      20000000000 sealedIdle := by decide

set_option maxRecDepth 100000 in
theorem mine_envPlot : mine lengthShabal envPlot blockA 1000000000000000000 5 =
    Scan.found { minDeadLine := 6, minPubID := 9, minNonce := 5, tick := 1 } 1000 sealedPlot := by
  decide

/-! ### The miner: initial state, sentinel and termination -/

theorem map_Close_plotFileBatches (S : Shabal) (c start plotID base : Nat) :
    (plotFileBatches S (paramOf c start plotID) base).map (fun b => b.Close) =
      List.replicate (c / 400) false ++ (if c % 400 = 0 then [] else [true]) := by
  rw [plotFileBatches_eq, List.map_append, List.map_map]
  have h1 : (List.range ((paramOf c start plotID).SingCount / 400)).map
      ((fun b => b.Close) ∘ fun j => batchAt S (paramOf c start plotID) base j 400)
      = List.replicate (c / 400) false := by
    rw [paramOf_SingCount]
    apply List.ext_getElem
    · simp
    · intro n h1 h2
      simp only [List.length_map, List.length_range] at h1
      simp only [List.getElem_map, List.getElem_range, List.getElem_replicate,
        Function.comp, batchAt, paramOf_SingCount]
      exact decide_eq_false (by omega)
  rw [h1, paramOf_SingCount]
  by_cases h : c % 400 = 0
  · rw [if_pos h, if_pos h]
    rfl
  · rw [if_neg h, if_neg h]
    simp [batchAt, paramOf_SingCount]

theorem mine_eq (S : Shabal) (env : MineEnv) (block : Block) (bt : Int) (fuel : Nat)
    (addrPlotID : Nat) (node : Node) (dirBytes : List Char)
    (hc : CalcPlotID block.header.Coinbase = some addrPlotID)
    (hn : env.nodes addrPlotID = some node) (hp : env.plot = some dirBytes) :
    mine S env block bt fuel =
      match scanDirs (mineCtx S env block bt addrPlotID node) fuel (plotDirs dirBytes)
          mineStart with
      | Scan.done st => waitLoop (mineCtx S env block bt addrPlotID node) fuel st
      | other => other := by
  unfold mine
  simp only
  rw [hc]
  simp only
  rw [hn]
  simp only
  rw [hp]
  rfl

theorem fileAdvance_state (st : MinerState) (v : FileVars) :
    (∀ st' v', fileAdvance st v = FileStep.next st' v' → st' = st) ∧
    (∀ st', fileAdvance st v = FileStep.leave st' → st' = st) ∧
    fileAdvance st v ≠ FileStep.panic := by
  unfold fileAdvance
  simp only
  split
  · refine ⟨(fun st' v' h => by cases h), fun st' h => ?_, (fun h => by cases h)⟩
    injection h with h
    exact h.symm
  · refine ⟨fun st' v' h => ?_, (fun st' h => by cases h), (fun h => by cases h)⟩
    injection h with h1 h2
    exact h1.symm

theorem fileStep_sentinel (c : MineCtx) (fi : PlotEntry) (st : MinerState) (v : FileVars)
    (hs : Sentinel st) :
    (∀ st' v', fileStep c fi st v = FileStep.next st' v' → Sentinel st') ∧
    (∀ st', fileStep c fi st v = FileStep.leave st' → Sentinel st') ∧
    (∀ st' now hdr, fileStep c fi st v = FileStep.found st' now hdr → Sentinel st') := by
  unfold fileStep
  simp only
  refine ⟨?_, ?_, ?_⟩
  · intro st' v' h
    repeat' split at h
    all_goals first
      | (cases h; done)
      | (injection h with h1 h2
         subst h1
         exact hs)
      | (have hadv := (fileAdvance_state _ _).1 _ _ h
         subst hadv
         first
          | exact hs
          | (rcases hs with hs | hs
             · right
               show _ < _
               simp only
               omega
             · right
               show _ < _
               simp only
               omega))
  · intro st' h
    repeat' split at h
    all_goals first
      | (cases h; done)
      | (injection h with h1
         subst h1
         exact hs)
      | (have hadv := (fileAdvance_state _ _).2.1 _ h
         subst hadv
         first
          | exact hs
          | (rcases hs with hs | hs
             · right
               show _ < _
               simp only
               omega
             · right
               show _ < _
               simp only
               omega))
  · intro st' now hdr h
    repeat' split at h
    all_goals first
      | (cases h; done)
      | exact absurd h (fileAdvance_ne_found _ _ _ _ _)
      | (injection h with h1 h2 h3
         subst h1
         first
          | exact hs
          | (rcases hs with hs | hs
             · right
               show _ < _
               simp only
               omega
             · right
               show _ < _
               simp only
               omega))

theorem scanFile_sentinel (c : MineCtx) (fi : PlotEntry) :
    ∀ (fuel : Nat) (st : MinerState) (v : FileVars), Sentinel st →
      (∀ st', scanFile c fi fuel st v = Scan.done st' → Sentinel st') ∧
      (∀ st' now hdr, scanFile c fi fuel st v = Scan.found st' now hdr → Sentinel st') := by
  intro fuel
  induction fuel with
  | zero =>
    intro st v _
    exact ⟨(fun st' h => by cases h), (fun st' now hdr h => by cases h)⟩
  | succ fuel ih =>
    intro st v hs
    have hf := fileStep_sentinel c fi st v hs
    unfold scanFile
    cases hfs : fileStep c fi st v with
    | next st1 v1 => exact ih st1 v1 (hf.1 st1 v1 hfs)
    | leave st1 =>
      refine ⟨fun st' h => ?_, (fun st' now hdr h => by cases h)⟩
      injection h with h
      subst h
      exact hf.2.1 _ hfs
    | found st1 now1 hdr1 =>
      refine ⟨(fun st' h => by cases h), fun st' now hdr h => ?_⟩
      injection h with h1 h2 h3
      subst h1
      exact hf.2.2 _ _ _ hfs
    | panic => exact ⟨(fun st' h => by cases h), (fun st' now hdr h => by cases h)⟩

theorem scanFiles_sentinel (c : MineCtx) (fuel : Nat) :
    ∀ (fis : List PlotEntry) (st : MinerState), Sentinel st →
      (∀ st', scanFiles c fuel fis st = Scan.done st' → Sentinel st') ∧
      (∀ st' now hdr, scanFiles c fuel fis st = Scan.found st' now hdr → Sentinel st') := by
  intro fis
  induction fis with
  | nil =>
    intro st hs
    refine ⟨fun st' h => ?_, (fun st' now hdr h => by cases h)⟩
    injection h with h
    subst h
    exact hs
  | cons fi rest ih =>
    intro st hs
    have hf := scanFile_sentinel c fi fuel st
      { total := 0, index := 0, pubID := 0, nonce := 0, data := [] } hs
    unfold scanFiles
    cases hsf : scanFile c fi fuel st
        { total := 0, index := 0, pubID := 0, nonce := 0, data := [] } with
    | done st1 => exact ih st1 (hf.1 st1 hsf)
    | found st1 now1 hdr1 =>
      refine ⟨(fun st' h => by cases h), fun st' now hdr h => ?_⟩
      injection h with h1 h2 h3
      subst h1
      exact hf.2 _ _ _ hsf
    | panic => exact ⟨(fun st' h => by cases h), (fun st' now hdr h => by cases h)⟩
    | stopped => exact ⟨(fun st' h => by cases h), (fun st' now hdr h => by cases h)⟩
    | running => exact ⟨(fun st' h => by cases h), (fun st' now hdr h => by cases h)⟩

theorem scanDirs_sentinel (c : MineCtx) (fuel : Nat) :
    ∀ (ds : List (List Char)) (st : MinerState), Sentinel st →
      (∀ st', scanDirs c fuel ds st = Scan.done st' → Sentinel st') ∧
      (∀ st' now hdr, scanDirs c fuel ds st = Scan.found st' now hdr → Sentinel st') := by
  intro ds
  induction ds with
  | nil =>
    intro st hs
    refine ⟨fun st' h => ?_, (fun st' now hdr h => by cases h)⟩
    injection h with h
    subst h
    exact hs
  | cons d rest ih =>
    intro st hs
    unfold scanDirs
    cases hrd : c.env.readDir d with
    | none => exact ⟨(fun st' h => by cases h), (fun st' now hdr h => by cases h)⟩
    | some rd =>
      simp only
      have hf := scanFiles_sentinel c fuel rd st hs
      cases hsf : scanFiles c fuel rd st with
      | done st1 => exact ih st1 (hf.1 st1 hsf)
      | found st1 now1 hdr1 =>
        refine ⟨(fun st' h => by cases h), fun st' now hdr h => ?_⟩
        injection h with h1 h2 h3
        subst h1
        exact hf.2 _ _ _ hsf
      | panic => exact ⟨(fun st' h => by cases h), (fun st' now hdr h => by cases h)⟩
      | stopped => exact ⟨(fun st' h => by cases h), (fun st' now hdr h => by cases h)⟩
      | running => exact ⟨(fun st' h => by cases h), (fun st' now hdr h => by cases h)⟩

theorem waitLoop_first (c : MineCtx) :
    ∀ (k fuel : Nat) (st : MinerState), k < fuel →
      (∀ j, j < k → deadlinePassed c st (c.env.clock (st.tick + j)) = false) →
      deadlinePassed c st (c.env.clock (st.tick + k)) = true →
      waitLoop c fuel st =
        Scan.found { st with tick := st.tick + k } (c.env.clock (st.tick + k))
          (sealedHeader c st (c.env.clock (st.tick + k))) := by
  intro k
  induction k with
  | zero =>
    intro fuel st hk _ hp
    obtain ⟨f, rfl⟩ : ∃ f, fuel = f + 1 := ⟨fuel - 1, by omega⟩
    unfold waitLoop
    simp only
    rw [Nat.add_zero] at hp
    rw [if_pos hp]
    rfl
  | succ k ih =>
    intro fuel st hk hw hp
    obtain ⟨f, rfl⟩ : ∃ f, fuel = f + 1 := ⟨fuel - 1, by omega⟩
    unfold waitLoop
    simp only
    have h0 := hw 0 (by omega)
    rw [Nat.add_zero] at h0
    rw [if_neg (by rw [h0]; exact Bool.false_ne_true)]
    have e : st.tick + (k + 1) = st.tick + 1 + k := by omega
    rw [e]
    exact ih f { st with tick := st.tick + 1 } (by omega)
      (fun j hj => by
        have := hw (j + 1) (by omega)
        have e2 : st.tick + (j + 1) = st.tick + 1 + j := by omega
        rw [e2] at this
        exact this)
      (by
        rw [e] at hp
        exact hp)

theorem waitLoop_state (c : MineCtx) :
    ∀ (fuel : Nat) (st st' : MinerState) (now : Int) (hdr : Header),
      waitLoop c fuel st = Scan.found st' now hdr →
      st'.minDeadLine = st.minDeadLine ∧ st'.minPubID = st.minPubID ∧
      st'.minNonce = st.minNonce := by
  intro fuel
  induction fuel with
  | zero =>
    intro st st' now hdr h
    cases h
  | succ fuel ih =>
    intro st st' now hdr h
    unfold waitLoop at h
    simp only at h
    split at h
    · injection h with h1 h2 h3
      subst h1
      exact ⟨rfl, rfl, rfl⟩
    · exact ih { st with tick := st.tick + 1 } _ _ _ h

theorem fileStep_zero_count (c : MineCtx) (content : Option (List Byte)) (st : MinerState)
    (v : FileVars) (hid : c.addrPlotID = 9) (hv : v.total = 0) :
    ∃ v', fileStep c { name := ['9', '_', '5', '_', '0'], content := content } st v
        = FileStep.next st v' ∧ v'.total = 0 := by
  have hs : splitOn '_' ['9', '_', '5', '_', '0'] = [['9'], ['5'], ['0']] := by decide
  have h1 : ParseUint ['9'] = some 9 := by decide
  have h2 : ParseUint ['5'] = some 5 := by decide
  have h3 : Atoi ['0'] = some 0 := by decide
  unfold fileStep
  rw [if_pos hv]
  simp only [hs, List.length_cons, List.length_nil, List.getD_cons_zero, List.getD_cons_succ,
    h1, h2, h3, hid]
  cases content with
  | none => exact ⟨_, rfl, rfl⟩
  | some bytes => exact ⟨_, rfl, rfl⟩

theorem scanFile_zero_count (c : MineCtx) (content : Option (List Byte))
    (hid : c.addrPlotID = 9) :
    ∀ (fuel : Nat) (st : MinerState) (v : FileVars), v.total = 0 →
      scanFile c { name := ['9', '_', '5', '_', '0'], content := content } fuel st v
        = Scan.running := by
  intro fuel
  induction fuel with
  | zero =>
    intro st v _
    rfl
  | succ fuel ih =>
    intro st v hv
    obtain ⟨v', hstep, hv'⟩ := fileStep_zero_count c content st v hid hv
    unfold scanFile
    rw [hstep]
    exact ih st v' hv'

theorem fileStep_negative_count (c : MineCtx) (bytes : List Byte) (st : MinerState)
    (v : FileVars) (hid : c.addrPlotID = 9) (hv : v.total = 0) :
    fileStep c { name := ['9', '_', '5', '_', '-', '1'], content := some bytes } st v
      = FileStep.panic := by
  have hs : splitOn '_' ['9', '_', '5', '_', '-', '1'] = [['9'], ['5'], ['-', '1']] := by
    decide
  have h1 : ParseUint ['9'] = some 9 := by decide
  have h2 : ParseUint ['5'] = some 5 := by decide
  have h3 : Atoi ['-', '1'] = some (-1) := by decide
  unfold fileStep
  rw [if_pos hv]
  simp only [hs, List.length_cons, List.length_nil, List.getD_cons_zero, List.getD_cons_succ,
    h1, h2, h3, hid]
  rfl

theorem CalcPlotID_blockA : CalcPlotID blockA.header.Coinbase = some 9 := by decide

theorem mine_envFile (S : Shabal) (name : List Char) (content : Option (List Byte))
    (bt : Int) (fuel : Nat) :
    mine S (envFile name content) blockA bt fuel =
      match scanFile
          (mineCtx S (envFile name content) blockA bt 9 { MinNonce := 0, MaxNonce := 100 })
          { name := name, content := content } fuel mineStart
          { total := 0, index := 0, pubID := 0, nonce := 0, data := [] } with
      | Scan.done st =>
        waitLoop (mineCtx S (envFile name content) blockA bt 9 { MinNonce := 0, MaxNonce := 100 })
          fuel st
      | other => other := by
  rw [mine_eq S (envFile name content) blockA bt fuel 9 { MinNonce := 0, MaxNonce := 100 }
    ['d', ','] CalcPlotID_blockA rfl rfl]
  have hd : plotDirs ['d', ','] = [['d']] := by decide
  rw [hd]
  unfold scanDirs
  have hr : (mineCtx S (envFile name content) blockA bt 9
      { MinNonce := 0, MaxNonce := 100 }).env.readDir ['d']
      = some [{ name := name, content := content }] := rfl
  rw [hr]
  simp only
  unfold scanFiles
  cases scanFile
      (mineCtx S (envFile name content) blockA bt 9 { MinNonce := 0, MaxNonce := 100 })
      { name := name, content := content } fuel mineStart
      { total := 0, index := 0, pubID := 0, nonce := 0, data := [] } <;> rfl

/-! ### The writes of a file, the pages of blocks and the release of results -/

theorem position_decompose (c p : Nat) (hp : p < c * 262144) :
    ∃ k m t, k < 4096 ∧ m < c ∧ t < 64 ∧ p = 64 * (c * k) + 64 * m + t := by
  have hc : 0 < c := by
    rcases Nat.eq_zero_or_pos c with h | h
    · rw [h] at hp
      omega
    · exact h
  have h64 : 0 < 64 * c := by omega
  have hk : p / (64 * c) < 4096 := by
    apply Nat.div_lt_of_lt_mul
    have e : 64 * c * 4096 = c * 262144 := by ring
    rw [e]
    exact hp
  have hr := Nat.mod_lt p h64
  have hd := Nat.div_add_mod p (64 * c)
  have e2 : 64 * c * (p / (64 * c)) = 64 * (c * (p / (64 * c))) := Nat.mul_assoc _ _ _
  rw [e2] at hd
  refine ⟨p / (64 * c), p % (64 * c) / 64, p % (64 * c) % 64, hk, by omega, by omega, ?_⟩
  omega

theorem validBatch_unique {c j o₁ o₂ : Nat} (h₁ : validBatch c j o₁) (h₂ : validBatch c j o₂) :
    o₁ = o₂ := by
  unfold validBatch at h₁ h₂
  omega

theorem GetPocBlocks_loop_spec (chain : Nat → Option ChainBlock) (H pc A cnt : Nat)
    (hH : H + cnt < 2 ^ 64) (hA : A + cnt ≤ 2 ^ 64) (hpc : pc = (A + cnt) % 2 ^ 64)
    (hhead : ∀ i, H < i → chain i = none) :
    ∀ (k t : Nat) (rs : List BlockSummary) (n fuel i : Nat), t + k = cnt → k < fuel →
      i < 2 ^ 64 → (i + A + t) % 2 ^ 64 = H →
      GetPocBlocks.loop chain H pc fuel i (rs, n) =
        some (rs ++ (List.range' t k).filterMap (fun t =>
          if A + t ≤ H then (chain (H - (A + t))).map summaryOf else none), n + k) := by
  intro k
  induction k with
  | zero =>
    intro t rs n fuel i ht hk hi hinv
    obtain ⟨f, rfl⟩ : ∃ f, fuel = f + 1 := ⟨fuel - 1, by omega⟩
    unfold GetPocBlocks.loop
    rw [if_neg (by omega)]
    simp
  | succ k ih =>
    intro t rs n fuel i ht hk hi hinv
    obtain ⟨f, rfl⟩ : ∃ f, fuel = f + 1 := ⟨fuel - 1, by omega⟩
    unfold GetPocBlocks.loop
    rw [if_pos (by omega)]
    simp only
    have hblock : (match chain i with
        | some bl => rs ++ [summaryOf bl]
        | none => rs) =
        rs ++ (if A + t ≤ H then (chain (H - (A + t))).map summaryOf else none).toList := by
      by_cases hle : A + t ≤ H
      · have ei : i = H - (A + t) := by omega
        rw [if_pos hle, ← ei]
        cases chain i <;> simp
      · have hgt : H < i := by omega
        rw [if_neg hle, hhead i hgt]
        simp
    rw [hblock, ih (t + 1) _ (n + 1) f ((i + (2 ^ 64 - 1)) % 2 ^ 64) (by omega) (by omega)
      (Nat.mod_lt _ (by decide)) (by omega)]
    have e1 : n + 1 + k = n + (k + 1) := by omega
    rw [e1, List.range'_succ, List.filterMap_cons, List.append_assoc]
    congr 2
    cases (if A + t ≤ H then (chain (H - (A + t))).map summaryOf else none) <;> rfl

theorem uint64OfInt64_natCast (p : Nat) (hp : p < 2 ^ 63) : uint64OfInt64 (p : Int) = p := by
  unfold uint64OfInt64
  omega

theorem GetPocBlocks_eq (chain : Nat → Option ChainBlock) (ch : Header) (page cnt fuel : Nat)
    (hp1 : 1 ≤ page) (hp2 : page < 2 ^ 63)
    (hpc : page * cnt ≤ 2 ^ 64) (hH : bigUint64 ch.Number + cnt < 2 ^ 64)
    (hfuel : cnt < fuel) (hhead : ∀ i, bigUint64 ch.Number < i → chain i = none) :
    GetPocBlocks chain ch (page : Int) cnt fuel =
      some (windowSummaries chain (bigUint64 ch.Number) ((page - 1) * cnt) cnt, cnt) := by
  have hA : (page - 1) * cnt + cnt = page * cnt := by
    obtain ⟨q, rfl⟩ : ∃ q, page = q + 1 := ⟨page - 1, by omega⟩
    rw [Nat.add_sub_cancel]
    ring
  have e1 : uint64OfInt64 ((page : Int) - 1) = page - 1 := by
    have := uint64OfInt64_natCast (page - 1) (by omega)
    rw [← this]
    congr 1
    omega
  have e2 := uint64OfInt64_natCast page hp2
  unfold GetPocBlocks windowSummaries
  simp only
  rw [e1, e2, ← hA]
  generalize (page - 1) * cnt = A at hA ⊢
  have hA2 : A + cnt ≤ 2 ^ 64 := by omega
  have h := GetPocBlocks_loop_spec chain (bigUint64 ch.Number) ((A + cnt) % 2 ^ 64) A cnt hH
    hA2 rfl hhead cnt 0 [] 0 fuel
    ((bigUint64 ch.Number + (2 ^ 64 - A % 2 ^ 64)) % 2 ^ 64) (by omega) hfuel
    (Nat.mod_lt _ (by decide)) (by omega)
  rw [h, List.range_eq_range']
  simp

theorem windowSummaries_numbers (chain : Nat → Option ChainBlock) (H A cnt : Nat)
    (hnum : ∀ i bl, chain i = some bl → bl.Number = (i : Int)) :
    ((windowSummaries chain H A cnt).map (fun s => s.Number)).Pairwise (fun a b => a > b) := by
  unfold windowSummaries
  rw [List.map_filterMap, List.pairwise_filterMap]
  refine List.Pairwise.imp ?_ (List.pairwise_lt_range cnt)
  intro a b hab x hx y hy
  by_cases ha : A + a ≤ H
  · by_cases hb : A + b ≤ H
    · rw [if_pos ha] at hx
      rw [if_pos hb] at hy
      cases hca : chain (H - (A + a)) with
      | none =>
        rw [hca] at hx
        cases hx
      | some bla =>
        cases hcb : chain (H - (A + b)) with
        | none =>
          rw [hcb] at hy
          cases hy
        | some blb =>
          rw [hca] at hx
          rw [hcb] at hy
          simp only [Option.map_some', Option.bind_some, Option.mem_def, Option.some.injEq,
            summaryOf] at hx hy
          rw [← hx, ← hy, hnum _ _ hca, hnum _ _ hcb]
          omega
    · rw [if_neg hb] at hy
      cases hy
  · rw [if_neg ha] at hx
    cases hx

theorem mem_windowSummaries (chain : Nat → Option ChainBlock) (H A cnt : Nat)
    (s : BlockSummary) :
    s ∈ windowSummaries chain H A cnt ↔
      ∃ (i : Nat) (bl : ChainBlock), chain i = some bl ∧ s = summaryOf bl ∧
        i + A ≤ H ∧ H < i + A + cnt := by
  unfold windowSummaries
  rw [List.mem_filterMap]
  constructor
  · rintro ⟨t, ht, h⟩
    rw [List.mem_range] at ht
    by_cases hle : A + t ≤ H
    · rw [if_pos hle] at h
      cases hc : chain (H - (A + t)) with
      | none =>
        rw [hc] at h
        cases h
      | some bl =>
        rw [hc] at h
        exact ⟨H - (A + t), bl, hc, (Option.some.inj h).symm, by omega, by omega⟩
    · rw [if_neg hle] at h
      cases h
  · rintro ⟨i, bl, hc, hs, h1, h2⟩
    refine ⟨H - A - i, List.mem_range.mpr (by omega), ?_⟩
    have e : H - (A + (H - A - i)) = i := by omega
    rw [if_pos (by omega), e, hc, hs]
    rfl

theorem leadingTrue_le_length : ∀ c : List Bool, leadingTrue c ≤ c.length
  | [] => Nat.le_refl 0
  | true :: rest => by
    have := leadingTrue_le_length rest
    simp only [leadingTrue, List.length_cons]
    omega
  | false :: rest => by simp [leadingTrue]

theorem getD_of_lt_leadingTrue : ∀ (c : List Bool) (j : Nat), j < leadingTrue c →
    c.getD j false = true
  | [], j, h => by simp [leadingTrue] at h
  | false :: rest, j, h => by simp [leadingTrue] at h
  | true :: rest, 0, _ => rfl
  | true :: rest, j + 1, h => by
    have := getD_of_lt_leadingTrue rest j (by simp only [leadingTrue] at h; omega)
    simpa using this

theorem getD_leadingTrue : ∀ c : List Bool, c.getD (leadingTrue c) false = false
  | [] => rfl
  | false :: rest => rfl
  | true :: rest => by
    have := getD_leadingTrue rest
    simpa [leadingTrue] using this

theorem le_leadingTrue (c : List Bool) (m : Nat) (h : ∀ j, j < m → c.getD j false = true) :
    m ≤ leadingTrue c := by
  by_contra hlt
  have h1 := h (leadingTrue c) (by omega)
  rw [getD_leadingTrue] at h1
  cases h1

theorem getD_set_true (c : List Bool) (i j : Nat) (h : c.getD j false = true) :
    (c.set i true).getD j false = true := by
  simp only [List.getD_eq_getElem?_getD, List.getElem?_set] at h ⊢
  by_cases e : i = j
  · subst e
    by_cases hl : i < c.length
    · simp [hl]
    · simp [hl] at h ⊢
      rw [List.getElem?_eq_none (by omega)] at h
      simp at h
  · simp [e, h]

theorem getD_set_self (c : List Bool) (i : Nat) (h : i < c.length) :
    (c.set i true).getD i false = true := by
  simp [List.getD_eq_getElem?_getD, List.getElem?_set, h]

theorem take_succ_getD (errors : List Outcome) (o : Nat) (h : o < errors.length) :
    errors.take o ++ [errors.getD o Outcome.ok] = errors.take (o + 1) := by
  rw [List.take_succ, List.getD_eq_getElem?_getD, List.getElem?_eq_getElem h]
  rfl

theorem release_spec (errors : List Outcome) :
    ∀ (d fuel : Nat) (r : Releaser), r.returned = false →
      r.checked.length = errors.length → r.out + d = leadingTrue r.checked →
      r.out < errors.length → r.results = errors.take r.out → d < fuel →
      ∃ r', VerifyHeaders.release errors fuel r = some r' ∧ r'.checked = r.checked ∧
        (r'.returned = true → r'.results = errors) ∧
        (r'.returned = false → r'.out = leadingTrue r.checked ∧ r'.out < errors.length ∧
          r'.results = errors.take r'.out) := by
  intro d
  induction d with
  | zero =>
    intro fuel r hret hlen ho hon hres hf
    obtain ⟨f, rfl⟩ : ∃ f, fuel = f + 1 := ⟨fuel - 1, by omega⟩
    unfold VerifyHeaders.release
    have hg : r.checked.getD r.out false = false := by
      have := getD_leadingTrue r.checked
      rw [← ho, Nat.add_zero] at this
      exact this
    rw [hg]
    refine ⟨r, rfl, rfl, fun h => ?_, fun _ => ⟨by omega, hon, hres⟩⟩
    rw [hret] at h
    cases h
  | succ d ih =>
    intro fuel r hret hlen ho hon hres hf
    obtain ⟨f, rfl⟩ : ∃ f, fuel = f + 1 := ⟨fuel - 1, by omega⟩
    unfold VerifyHeaders.release
    have hg : r.checked.getD r.out false = true :=
      getD_of_lt_leadingTrue r.checked r.out (by omega)
    rw [hg]
    simp only [if_true]
    have hres' : r.results ++ [errors.getD r.out Outcome.ok] = errors.take (r.out + 1) := by
      rw [hres]
      exact take_succ_getD errors r.out hon
    have hle := leadingTrue_le_length r.checked
    by_cases hlast : r.out = errors.length - 1
    · rw [if_pos hlast]
      refine ⟨_, rfl, rfl, fun _ => ?_, fun h => by cases h⟩
      show r.results ++ [errors.getD r.out Outcome.ok] = errors
      rw [hres', List.take_of_length_le (by omega)]
    · rw [if_neg hlast]
      obtain ⟨r', h1, h2, h3, h4⟩ := ih f
        { r with results := r.results ++ [errors.getD r.out Outcome.ok], out := r.out + 1 }
        hret hlen (by show r.out + 1 + d = leadingTrue r.checked; omega)
        (by show r.out + 1 < errors.length; omega) hres'
        (by omega)
      exact ⟨r', h1, h2, h3, h4⟩

theorem step_inv (errors : List Outcome) (seen : List Nat) (r : Releaser) (e : VerifyEvent)
    (hinv : ReleaserInv errors seen r)
    (he : ∀ i, e = VerifyEvent.done i → i < errors.length) :
    ∃ r', VerifyHeaders.step errors r e = some r' ∧
      ReleaserInv errors (seen ++ doneIndices [e]) r' := by
  unfold VerifyHeaders.step
  cases hret : r.returned with
  | true =>
    simp only [if_true]
    refine ⟨r, rfl, hinv.1, hinv.2.1, fun h => ?_⟩
    rw [hret] at h
    cases h
  | false =>
    simp only [Bool.false_eq_true, if_false]
    obtain ⟨hlen, _, hrest⟩ := hinv
    obtain ⟨hout, hon, hres, hseen⟩ := hrest hret
    cases e with
    | send =>
      simp only
      have hd : doneIndices [VerifyEvent.send] = [] := rfl
      rw [hd, List.append_nil]
      by_cases hs : r.sent < errors.length
      · rw [if_pos hs]
        exact ⟨_, rfl, hlen, fun h => absurd h Bool.false_ne_true,
          fun _ => ⟨hout, hon, hres, hseen⟩⟩
      · rw [if_neg hs]
        refine ⟨_, rfl, hlen, fun h => ?_, fun _ => ⟨hout, hon, hres, hseen⟩⟩
        rw [hret] at h
        cases h
    | done index =>
      simp only
      have hi := he index rfl
      have hd : doneIndices [VerifyEvent.done index] = [index] := rfl
      rw [hd]
      have hlen' : (r.checked.set index true).length = errors.length := by
        rw [List.length_set]
        exact hlen
      have hmono : r.out ≤ leadingTrue (r.checked.set index true) :=
        le_leadingTrue _ _ (fun j hj =>
          getD_set_true _ _ _ (getD_of_lt_leadingTrue _ _ (by omega)))
      obtain ⟨r', h1, h2, h3, h4⟩ := release_spec errors
        (leadingTrue (r.checked.set index true) - r.out) (errors.length + 1)
        { r with checked := r.checked.set index true } hret hlen'
        (by
          show r.out + (leadingTrue (r.checked.set index true) - r.out)
            = leadingTrue (r.checked.set index true)
          omega) hon hres
        (by
          have := leadingTrue_le_length (r.checked.set index true)
          omega)
      rw [hret] at h1
      refine ⟨r', h1, by rw [h2]; exact hlen', h3, fun h => ?_⟩
      obtain ⟨a, b, c⟩ := h4 h
      refine ⟨by rw [h2]; exact a, b, c, fun j hj hjn => ?_⟩
      rw [h2]
      rw [List.mem_append, List.mem_singleton] at hj
      rcases hj with hj | hj
      · exact getD_set_true _ _ _ (hseen j hj hjn)
      · rw [hj]
        exact getD_set_self _ _ (by rw [hlen]; exact hi)

theorem doneIndices_cons (e : VerifyEvent) (es : List VerifyEvent) :
    doneIndices (e :: es) = doneIndices [e] ++ doneIndices es := by
  unfold doneIndices
  cases e <;> simp

theorem foldlM_inv (errors : List Outcome) :
    ∀ (events : List VerifyEvent) (seen : List Nat) (r : Releaser),
      ReleaserInv errors seen r →
      (∀ i, i ∈ doneIndices events → i < errors.length) →
      ∃ r', events.foldlM (VerifyHeaders.step errors) r = some r' ∧
        ReleaserInv errors (seen ++ doneIndices events) r' := by
  intro events
  induction events with
  | nil =>
    intro seen r hinv _
    refine ⟨r, rfl, ?_⟩
    rw [show doneIndices [] = [] from rfl, List.append_nil]
    exact hinv
  | cons e es ih =>
    intro seen r hinv hidx
    rw [doneIndices_cons] at hidx
    obtain ⟨r1, h1, hinv1⟩ := step_inv errors seen r e hinv (fun i hi => by
      apply hidx
      rw [hi]
      exact List.mem_append_left _ (List.mem_singleton.mpr rfl))
    obtain ⟨r2, h2, hinv2⟩ := ih (seen ++ doneIndices [e]) r1 hinv1 (fun i hi =>
      hidx i (List.mem_append_right _ hi))
    refine ⟨r2, ?_, ?_⟩
    · rw [List.foldlM_cons, h1]
      exact h2
    · rw [doneIndices_cons, ← List.append_assoc]
      exact hinv2

theorem initial_inv (errors : List Outcome) (hn : errors ≠ []) :
    ReleaserInv errors []
      { sent := 0, out := 0, checked := List.replicate errors.length false, results := [],
        returned := false } := by
  have hpos : 0 < errors.length := List.length_pos.mpr hn
  refine ⟨List.length_replicate _ _, (fun h => by cases h), fun _ => ⟨?_, hpos, rfl, ?_⟩⟩
  · show 0 = leadingTrue (List.replicate errors.length false)
    obtain ⟨m, hm⟩ : ∃ m, errors.length = m + 1 := ⟨errors.length - 1, by omega⟩
    rw [hm]
    rfl
  · intro j hj
    cases hj

theorem mem_doneIndices_take (events : List VerifyEvent) (m i : Nat)
    (h : i ∈ doneIndices (events.take m)) : i ∈ doneIndices events := by
  unfold doneIndices at h ⊢
  rw [List.mem_filterMap] at h ⊢
  obtain ⟨e, he, h2⟩ := h
  exact ⟨e, List.mem_of_mem_take he, h2⟩

/-! ### The scan of a plot file -/

theorem length_ReadAt (file : List Byte) (len : Nat) (offset : Int) :
    (ReadAt file len offset).length = len := by
  unfold ReadAt
  split
  · exact List.length_replicate _ _
  · simp only [List.length_append, List.length_take, List.length_drop, List.length_replicate]
    omega

theorem getD_ReadAt (file : List Byte) (len : Nat) (offset : Nat) (p : Nat) (hp : p < len) :
    (ReadAt file len (offset : Int)).getD p 0 = file.getD (offset + p) 0 := by
  unfold ReadAt
  rw [if_neg (by omega)]
  simp only [Int.toNat_ofNat]
  rw [getD_append_ite]
  by_cases h : p < ((file.drop offset).take len).length
  · rw [if_pos h, getD_take, if_pos hp, getD_drop]
  · rw [if_neg h, getD_replicate_zero]
    simp only [List.length_take, List.length_drop] at h
    rw [getD_of_le _ _ (by omega)]

theorem forUp_scoops (data : List Byte) (b : Nat) :
    ∀ n, n ≤ 32 →
      (forUp (fun k (sc : List Byte × List Byte) =>
          (sc.1.set k (data.getD (b + k) 0), sc.2.set k (data.getD (b + 32 + k) 0)))
        n (List.replicate 32 0, List.replicate 32 0)).1.length = 32 ∧
      (forUp (fun k (sc : List Byte × List Byte) =>
          (sc.1.set k (data.getD (b + k) 0), sc.2.set k (data.getD (b + 32 + k) 0)))
        n (List.replicate 32 0, List.replicate 32 0)).2.length = 32 ∧
      ∀ p,
        (forUp (fun k (sc : List Byte × List Byte) =>
            (sc.1.set k (data.getD (b + k) 0), sc.2.set k (data.getD (b + 32 + k) 0)))
          n (List.replicate 32 0, List.replicate 32 0)).1.getD p 0
          = (if p < n then data.getD (b + p) 0 else 0) ∧
        (forUp (fun k (sc : List Byte × List Byte) =>
            (sc.1.set k (data.getD (b + k) 0), sc.2.set k (data.getD (b + 32 + k) 0)))
          n (List.replicate 32 0, List.replicate 32 0)).2.getD p 0
          = (if p < n then data.getD (b + 32 + p) 0 else 0) := by
  intro n
  induction n with
  | zero =>
    intro _
    refine ⟨List.length_replicate _ _, List.length_replicate _ _, fun p => ?_⟩
    simp only [forUp]
    rw [if_neg (by omega), getD_replicate_zero]
    exact ⟨rfl, rfl⟩
  | succ n ih =>
    intro hn
    obtain ⟨l1, l2, hp⟩ := ih (by omega)
    rw [forUp_succ]
    refine ⟨by rw [List.length_set]; exact l1, by rw [List.length_set]; exact l2, fun p => ?_⟩
    simp only
    constructor
    · rw [getD_set, l1, (hp p).1]
      by_cases e : n = p
      · subst e
        rw [if_pos ⟨rfl, by omega⟩, if_pos (by omega)]
      · rw [if_neg (fun h => e h.1)]
        by_cases h : p < n
        · rw [if_pos h, if_pos (by omega)]
        · rw [if_neg h, if_neg (by omega)]
    · rw [getD_set, l2, (hp p).2]
      by_cases e : n = p
      · subst e
        rw [if_pos ⟨rfl, by omega⟩, if_pos (by omega)]
      · rw [if_neg (fun h => e h.1)]
        by_cases h : p < n
        · rw [if_pos h, if_pos (by omega)]
        · rw [if_neg h, if_neg (by omega)]

theorem scoops_eq_slices (data : List Byte) (b : Nat) (h : b + 64 ≤ data.length) :
    forUp (fun k (sc : List Byte × List Byte) =>
        (sc.1.set k (data.getD (b + k) 0), sc.2.set k (data.getD (b + 32 + k) 0)))
      32 (List.replicate 32 0, List.replicate 32 0)
      = (slice data b (b + 32), slice data (b + 32) (b + 64)) := by
  obtain ⟨l1, l2, hp⟩ := forUp_scoops data b 32 (le_refl _)
  refine Prod.ext (ext_getD ?_ (fun p _ => ?_)) (ext_getD ?_ (fun p _ => ?_))
  · rw [l1, length_slice _ _ _ (by omega)]
    omega
  · rw [(hp p).1, getD_slice]
    have e : b + 32 - b = 32 := by omega
    rw [e]
  · rw [l2, length_slice _ _ _ (by omega)]
    omega
  · rw [(hp p).2, getD_slice]
    have e : b + 64 - (b + 32) = 32 := by omega
    rw [e]

theorem fileStep_first (c : MineCtx) (fi : PlotEntry) (st : MinerState) (pid s T : Nat)
    (bytes d0 : List Byte) (hpar : fi.parses pid s (T : Int)) (hpid : pid = c.addrPlotID)
    (hcont : fi.content = some bytes) (hT : T < 2 ^ 45) (hs : c.scoopID < 256) :
    fileStep c fi st { total := 0, index := 0, pubID := 0, nonce := 0, data := d0 } =
      FileStep.next st
        { total := (T : Int), index := 0, pubID := pid, nonce := s, data := slabOf c bytes T } := by
  obtain ⟨h1, h2, h3, h4⟩ := hpar
  unfold fileStep
  rw [if_pos rfl]
  simp only
  rw [if_neg (by rw [h1]; exact fun h => h rfl), h2]
  simp only
  rw [if_neg (by rw [hpid]; exact fun h => h rfl), h3]
  simp only
  rw [h4]
  simp only
  rw [hcont]
  simp only
  have w : wrapInt64 (64 * (T : Int)) = ((64 * T : Nat) : Int) := by
    rw [wrapInt64_id _ (by omega) (by omega)]
    norm_cast
  rw [w, if_neg (by omega)]
  have w2 : wrapInt64 ((c.scoopID : Int) * 64 * (T : Int)) = (c.scoopID : Int) * 64 * (T : Int) := by
    have hx : c.scoopID * T ≤ 255 * T := Nat.mul_le_mul_right T (by omega)
    have e : (c.scoopID : Int) * 64 * (T : Int) = ((64 * (c.scoopID * T) : Nat) : Int) := by
      push_cast
      ring
    rw [e]
    exact wrapInt64_id _ (by omega) (by omega)
  rw [w2]
  rfl

theorem fileAdvance_index (st : MinerState) (T j pid s : Nat) (data : List Byte)
    (hT : T < 2 ^ 45) (hj : j < T) :
    fileAdvance st (FileVars.mk (T : Int) (j : Int) pid s data) =
      if j + 1 = T then FileStep.leave st
      else FileStep.next st
        (FileVars.mk (T : Int) ((j + 1 : Nat) : Int) pid s data) := by
  unfold fileAdvance
  simp only
  have w : wrapInt64 ((j : Int) + 1) = ((j + 1 : Nat) : Int) := by
    have h0 : (0 : Int) ≤ (j : Int) + 1 := by omega
    have h1 : (j : Int) + 1 < 2 ^ 63 := by omega
    rw [wrapInt64_id _ h0 h1]
    omega
  rw [w]
  by_cases h : j + 1 = T
  · rw [if_pos (by rw [h]), if_pos h]
  · rw [if_neg (by omega), if_neg h]

theorem fileStep_index (c : MineCtx) (fi : PlotEntry) (st : MinerState) (pid s T j : Nat)
    (data : List Byte) (hT : T < 2 ^ 45) (hj : j < T) (hlen : data.length = 64 * T)
    (hbt : c.baseTarget ≠ 0) :
    fileStep c fi st
        (FileVars.mk (T : Int) (j : Int) pid s data) =
      if (c.node.MinNonce ≤ (s + j) % 2 ^ 64 ∧ (s + j) % 2 ^ 64 ≤ c.node.MaxNonce) ∧
          deadlinePassed c (trackStep c pid s data st j) (c.env.clock st.tick) = true then
        FileStep.found (trackStep c pid s data st j) (c.env.clock st.tick)
          (sealedHeader c (trackStep c pid s data st j) (c.env.clock st.tick))
      else if j + 1 = T then FileStep.leave (trackStep c pid s data st j)
      else FileStep.next (trackStep c pid s data st j)
        (FileVars.mk (T : Int) ((j + 1 : Nat) : Int) pid s data) := by
  have hT0 : ¬ ((T : Int) = 0) := by omega
  have hu : uint64OfInt64 (j : Int) = j := by
    unfold uint64OfInt64
    omega
  unfold fileStep
  rw [if_neg hT0]
  simp only
  rw [hu]
  by_cases hauth : c.node.MinNonce ≤ (s + j) % 2 ^ 64 ∧ (s + j) % 2 ^ 64 ≤ c.node.MaxNonce
  · rw [if_pos (show (s + j) % 2 ^ 64 ≥ c.node.MinNonce ∧ (s + j) % 2 ^ 64 ≤ c.node.MaxNonce
      from hauth)]
    have w : wrapInt64 (64 * (j : Int)) = ((64 * j : Nat) : Int) := by
      rw [wrapInt64_id _ (by omega) (by omega)]
      norm_cast
    rw [w, if_neg (by rw [hlen]; omega)]
    simp only [Int.toNat_ofNat]
    have e32 : 64 * j + 32 + 32 = 64 * j + 64 := by omega
    rw [scoops_eq_slices data (64 * j) (by omega)]
    simp only
    have htd : targetDeadLine (CalcTarget c.S (slice data (64 * j) (64 * j + 32))
        (slice data (64 * j + 32) (64 * j + 64)) c.gensig) c.baseTarget
        = some (slabDeadLine c data j) := by
      unfold targetDeadLine CalcDeadLine slabDeadLine
      simp only
      rw [if_neg hbt]
    rw [htd]
    simp only
    unfold trackStep
    rw [if_pos hauth]
    by_cases hd : slabDeadLine c data j < st.minDeadLine
    · rw [if_pos hd, if_pos hd]
      simp only
      by_cases hp : deadlinePassed c
          { minDeadLine := slabDeadLine c data j, minPubID := pid, minNonce := (s + j) % 2 ^ 64,
            tick := st.tick + 1 } (c.env.clock st.tick) = true
      · rw [if_pos hp, if_pos ⟨hauth, hp⟩]
      · rw [if_neg hp, if_neg (fun h => hp h.2)]
        exact fileAdvance_index _ T j pid s data hT hj
    · rw [if_neg hd, if_neg hd]
      by_cases hp : deadlinePassed c { st with tick := st.tick + 1 } (c.env.clock st.tick) = true
      · rw [if_pos hp, if_pos ⟨hauth, hp⟩]
      · rw [if_neg hp, if_neg (fun h => hp h.2)]
        exact fileAdvance_index _ T j pid s data hT hj
  · rw [if_neg (show ¬ ((s + j) % 2 ^ 64 ≥ c.node.MinNonce ∧ (s + j) % 2 ^ 64 ≤ c.node.MaxNonce)
      from hauth)]
    unfold trackStep
    rw [if_neg hauth, if_neg (fun h => hauth h.1)]
    exact fileAdvance_index _ T j pid s data hT hj

theorem trackRange_succ (c : MineCtx) (pid s : Nat) (data : List Byte) (st : MinerState)
    (lo k : Nat) :
    trackRange c pid s data st lo (k + 1)
      = trackStep c pid s data (trackRange c pid s data st lo k) (lo + k) := by
  unfold trackRange
  rw [List.range'_1_concat, List.foldl_append]
  rfl

theorem trackRange_cons (c : MineCtx) (pid s : Nat) (data : List Byte) (st : MinerState)
    (lo k : Nat) :
    trackRange c pid s data st lo (k + 1)
      = trackRange c pid s data (trackStep c pid s data st lo) (lo + 1) k := by
  unfold trackRange
  rw [List.range'_succ, List.foldl_cons]

theorem trackedMin_step (c : MineCtx) (pid s : Nat) (data : List Byte) (lo hi : Nat)
    (st st1 : MinerState) (h : TrackedMin c pid s data lo hi st st1) (hle : lo ≤ hi) :
    TrackedMin c pid s data lo (hi + 1) st (trackStep c pid s data st1 hi) := by
  obtain ⟨h1, h2, h3, h4⟩ := h
  unfold trackStep
  by_cases hauth : c.node.MinNonce ≤ (s + hi) % 2 ^ 64 ∧ (s + hi) % 2 ^ 64 ≤ c.node.MaxNonce
  · rw [if_pos hauth]
    by_cases hd : slabDeadLine c data hi < st1.minDeadLine
    · rw [if_pos hd]
      refine ⟨?_, fun i hi1 hi2 ha => ?_, fun e => ?_, fun _ => ?_⟩
      · show slabDeadLine c data hi ≤ st.minDeadLine
        omega
      · show slabDeadLine c data hi ≤ slabDeadLine c data i
        by_cases e : i = hi
        · rw [e]
        · have := h2 i hi1 (by omega) ha
          omega
      · have e' : slabDeadLine c data hi = st.minDeadLine := e
        omega
      · refine ⟨hi, hle, by omega, hauth, rfl, rfl, rfl, fun i' h1' h2' ha' => ?_⟩
        show slabDeadLine c data hi < slabDeadLine c data i'
        have := h2 i' h1' h2' ha'
        omega
    · rw [if_neg hd]
      refine ⟨h1, fun i hi1 hi2 ha => ?_, h3, fun hlt => ?_⟩
      · show st1.minDeadLine ≤ slabDeadLine c data i
        by_cases e : i = hi
        · rw [e]
          omega
        · exact h2 i hi1 (by omega) ha
      · obtain ⟨i, a1, a2, a3, a4, a5, a6, a7⟩ := h4 hlt
        exact ⟨i, a1, by omega, a3, a4, a5, a6, a7⟩
  · rw [if_neg hauth]
    refine ⟨h1, fun i hi1 hi2 ha => ?_, h3, fun hlt => ?_⟩
    · by_cases e : i = hi
      · rw [e] at ha
        exact absurd ha hauth
      · exact h2 i hi1 (by omega) ha
    · obtain ⟨i, a1, a2, a3, a4, a5, a6, a7⟩ := h4 hlt
      exact ⟨i, a1, by omega, a3, a4, a5, a6, a7⟩

theorem trackedMin_range (c : MineCtx) (pid s : Nat) (data : List Byte) (st : MinerState)
    (lo : Nat) :
    ∀ k, TrackedMin c pid s data lo (lo + k) st (trackRange c pid s data st lo k) := by
  intro k
  induction k with
  | zero =>
    refine ⟨le_refl _, fun i h1 h2 _ => ?_, fun _ => ⟨rfl, rfl⟩, fun h => ?_⟩
    · omega
    · exact absurd h (lt_irrefl _)
  | succ k ih =>
    rw [trackRange_succ]
    exact trackedMin_step c pid s data lo (lo + k) st _ ih (by omega)

theorem scanFile_index (c : MineCtx) (fi : PlotEntry) (pid s T : Nat) (data : List Byte)
    (hT : T < 2 ^ 45) (hlen : data.length = 64 * T) (hbt : c.baseTarget ≠ 0) :
    ∀ (fuel j : Nat) (st : MinerState), j < T →
      (∀ st', scanFile c fi fuel st (FileVars.mk (T : Int) (j : Int) pid s data) = Scan.done st' →
        st' = trackRange c pid s data st j (T - j)) ∧
      (∀ st' now hdr,
        scanFile c fi fuel st (FileVars.mk (T : Int) (j : Int) pid s data)
          = Scan.found st' now hdr →
        ∃ k, j + k < T ∧ st' = trackRange c pid s data st j (k + 1) ∧
          deadlinePassed c st' now = true ∧ hdr = sealedHeader c st' now) ∧
      (T - j ≤ fuel →
        (∃ st', scanFile c fi fuel st (FileVars.mk (T : Int) (j : Int) pid s data)
          = Scan.done st') ∨
        (∃ st' now hdr, scanFile c fi fuel st (FileVars.mk (T : Int) (j : Int) pid s data)
          = Scan.found st' now hdr)) := by
  intro fuel
  induction fuel with
  | zero =>
    intro j st hj
    refine ⟨(fun st' h => by cases h), (fun st' now hdr h => by cases h), fun h => ?_⟩
    omega
  | succ fuel ih =>
    intro j st hj
    unfold scanFile
    rw [fileStep_index c fi st pid s T j data hT hj hlen hbt]
    have h1 : trackRange c pid s data st j 1 = trackStep c pid s data st j := rfl
    by_cases hem : (c.node.MinNonce ≤ (s + j) % 2 ^ 64 ∧ (s + j) % 2 ^ 64 ≤ c.node.MaxNonce) ∧
        deadlinePassed c (trackStep c pid s data st j) (c.env.clock st.tick) = true
    · rw [if_pos hem]
      refine ⟨(fun st' h => by cases h), fun st' now hdr h => ?_, fun _ => Or.inr ⟨_, _, _, rfl⟩⟩
      injection h with e1 e2 e3
      subst e1 e2 e3
      exact ⟨0, by omega, h1.symm, hem.2, rfl⟩
    · rw [if_neg hem]
      by_cases hl : j + 1 = T
      · rw [if_pos hl]
        refine ⟨fun st' h => ?_, (fun st' now hdr h => by cases h), fun _ => Or.inl ⟨_, rfl⟩⟩
        injection h with e1
        subst e1
        have e : T - j = 1 := by omega
        rw [e]
        rfl
      · rw [if_neg hl]
        simp only
        obtain ⟨i1, i2, i3⟩ := ih (j + 1) (trackStep c pid s data st j) (by omega)
        refine ⟨fun st' h => ?_, fun st' now hdr h => ?_, fun hf => ?_⟩
        · have := i1 st' h
          have e : T - j = (T - (j + 1)) + 1 := by omega
          rw [e, trackRange_cons]
          exact this
        · obtain ⟨k, a1, a2, a3, a4⟩ := i2 st' now hdr h
          refine ⟨k + 1, by omega, ?_, a3, a4⟩
          rw [trackRange_cons]
          exact a2
        · exact i3 (by omega)

theorem scanFile_start (c : MineCtx) (fi : PlotEntry) (st : MinerState) (pid s T fuel : Nat)
    (bytes : List Byte) (hpar : fi.parses pid s (T : Int)) (hpid : pid = c.addrPlotID)
    (hcont : fi.content = some bytes) (hT : T < 2 ^ 45) (hs : c.scoopID < 256) :
    scanFile c fi (fuel + 1) st { total := 0, index := 0, pubID := 0, nonce := 0, data := [] } =
      scanFile c fi fuel st (FileVars.mk (T : Int) ((0 : Nat) : Int) pid s (slabOf c bytes T)) := by
  rw [scanFile, fileStep_first c fi st pid s T bytes [] hpar hpid hcont hT hs]
  rfl

theorem length_slabOf (c : MineCtx) (bytes : List Byte) (T : Nat) :
    (slabOf c bytes T).length = 64 * T := length_ReadAt _ _ _

theorem scanFile_tracked (c : MineCtx) (fi : PlotEntry) (st st' : MinerState)
    (pid s T fuel : Nat) (bytes : List Byte) (hpar : fi.parses pid s (T : Int))
    (hpid : pid = c.addrPlotID) (hcont : fi.content = some bytes) (hT1 : 1 ≤ T)
    (hT : T < 2 ^ 45) (hs : c.scoopID < 256) (hbt : c.baseTarget ≠ 0)
    (hscan : scanFile c fi fuel st { total := 0, index := 0, pubID := 0, nonce := 0, data := [] }
        = Scan.done st' ∨
      ∃ now hdr, scanFile c fi fuel st
        { total := 0, index := 0, pubID := 0, nonce := 0, data := [] }
        = Scan.found st' now hdr) :
    ∃ k, k ≤ T ∧ st' = trackRange c pid s (slabOf c bytes T) st 0 k ∧
      (scanFile c fi fuel st { total := 0, index := 0, pubID := 0, nonce := 0, data := [] }
        = Scan.done st' → k = T) := by
  obtain ⟨f, rfl⟩ : ∃ f, fuel = f + 1 := by
    cases fuel with
    | zero =>
      rcases hscan with h | ⟨now, hdr, h⟩
      · cases h
      · cases h
    | succ f => exact ⟨f, rfl⟩
  rw [scanFile_start c fi st pid s T f bytes hpar hpid hcont hT hs] at hscan ⊢
  obtain ⟨i1, i2, _⟩ := scanFile_index c fi pid s T (slabOf c bytes T) hT
    (length_slabOf c bytes T) hbt f 0 st (by omega)
  rcases hscan with h | ⟨now, hdr, h⟩
  · exact ⟨T, le_refl _, i1 st' h, fun _ => rfl⟩
  · obtain ⟨k, a1, a2, _, _⟩ := i2 st' now hdr h
    refine ⟨k + 1, by omega, a2, fun hd => ?_⟩
    rw [h] at hd
    cases hd

set_option maxRecDepth 100000 in
theorem scanFile_fileZeros :
    scanFile
        (mineCtx lengthShabal (envFile fileZeros.name fileZeros.content) blockLate
          1000000000000000000 9 { MinNonce := 0, MaxNonce := 100 })
        fileZeros 3 mineStart { total := 0, index := 0, pubID := 0, nonce := 0, data := [] }
      = Scan.done { minDeadLine := 6, minPubID := 9, minNonce := 5, tick := 2 } := by
  decide

theorem slab_slice_plotFile (S : Shabal) (c : MineCtx) (pid s T start i a : Nat)
    (hT : T < 2 ^ 45) (hi : i < T) (hs : c.scoopID < 256) (ha : a = 0 ∨ a = 32) :
    slice (slabOf c (plotFile S (paramOf T start pid) s) T) (64 * i + a) (64 * i + a + 32) =
      slice (GenCell S (s + i) pid) (64 * c.scoopID + a) (64 * c.scoopID + a + 32) := by
  have hl1 := length_slabOf c (plotFile S (paramOf T start pid) s) T
  have hl2 := length_GenCell S (s + i) pid
  have eoff : (c.scoopID : Int) * 64 * (T : Int) = ((64 * (T * c.scoopID) : Nat) : Int) := by
    push_cast
    ring
  apply ext_getD
  · rw [length_slice _ _ _ (by rw [hl1]; omega), length_slice _ _ _ (by rw [hl2]; omega)]
    omega
  · intro p hp
    rw [length_slice _ _ _ (by rw [hl1]; omega)] at hp
    rw [getD_slice, getD_slice, if_pos (by omega), if_pos (by omega)]
    unfold slabOf
    rw [eoff, getD_ReadAt _ _ _ _ (by omega)]
    have hk : c.scoopID < 4096 := by omega
    have h := getD_plotFile S pid s T start c.scoopID i (a + p) hT hk hi (by omega)
    have e1 : 64 * (T * c.scoopID) + (64 * i + a + p) = 64 * (T * c.scoopID) + 64 * i + (a + p) := by
      omega
    have e2 : 64 * c.scoopID + a + p = 64 * c.scoopID + (a + p) := by omega
    rw [e1, e2]
    exact h

theorem slabDeadLine_plotFile (S : Shabal) (env : MineEnv) (block : Block) (bt : Int)
    (addrPlotID : Nat) (node : Node) (s T start i : Nat) (hT : T < 2 ^ 45) (hi : i < T)
    (hbt : bt ≠ 0) (hdr : Header)
    (hg : hdr.GenSig = block.header.GenSig) (hnum : hdr.Number = block.header.Number)
    (hnonce : hdr.Nonce = (s + i) % 2 ^ 64) (hpid : hdr.PlotID = addrPlotID)
    (hb : hdr.BaseTarget = bt) :
    sealDeadLine S hdr = some (slabDeadLine (mineCtx S env block bt addrPlotID node)
      (slabOf (mineCtx S env block bt addrPlotID node)
        (plotFile S (paramOf T start addrPlotID) s) T) i) := by
  have hs : (mineCtx S env block bt addrPlotID node).scoopID < 256 := by
    show GetScoopID _ < 256
    rw [GetScoopID_eq]
    exact Fin.isLt _
  rw [sealDeadLine_eq S hdr (by rw [hb]; exact hbt)]
  unfold slabDeadLine sealTarget
  simp only
  have h0 := slab_slice_plotFile S (mineCtx S env block bt addrPlotID node) addrPlotID s T
    start i 0 hT hi hs (Or.inl rfl)
  have h32 := slab_slice_plotFile S (mineCtx S env block bt addrPlotID node) addrPlotID s T
    start i 32 hT hi hs (Or.inr rfl)
  rw [Nat.add_zero, Nat.add_zero] at h0
  have e64 : ∀ x : Nat, x + 32 + 32 = x + 64 := fun x => by omega
  rw [e64, e64] at h32
  rw [h0, h32, hg, hnum, hnonce, hpid, hb,
    GenCell_congr S ((s + i) % 2 ^ 64) (s + i) addrPlotID (Nat.mod_mod _ _)]
  rfl

theorem sealed_verifies (S : Shabal) (env : MineEnv) (block : Block) (bt : Int)
    (addrPlotID : Nat) (node : Node) (st' : MinerState) (s T start i : Nat) (now nowV : Int)
    (hc : CalcPlotID block.header.Coinbase = some addrPlotID)
    (hT : T < 2 ^ 45) (hi : i < T) (hbt : bt ≠ 0)
    (hd : slabDeadLine (mineCtx S env block bt addrPlotID node)
      (slabOf (mineCtx S env block bt addrPlotID node)
        (plotFile S (paramOf T start addrPlotID) s) T) i = st'.minDeadLine)
    (hp : st'.minPubID = addrPlotID) (hn : st'.minNonce = (s + i) % 2 ^ 64)
    (hpass : deadlinePassed (mineCtx S env block bt addrPlotID node) st' now = true) :
    VerifySeal S nowV (sealedHeader (mineCtx S env block bt addrPlotID node) st' now)
        = Outcome.ok ∨
    VerifySeal S nowV (sealedHeader (mineCtx S env block bt addrPlotID node) st' now)
        = Outcome.err "time mismatch" := by
  have hsd := slabDeadLine_plotFile S env block bt addrPlotID node s T start i hT hi hbt
    (sealedHeader (mineCtx S env block bt addrPlotID node) st' now) rfl rfl hn hp rfl
  have hcp : CalcPlotID (sealedHeader (mineCtx S env block bt addrPlotID node) st' now).Coinbase
      = some addrPlotID := hc
  have f1 : (sealedHeader (mineCtx S env block bt addrPlotID node) st' now).PlotID
      = addrPlotID := hp
  have f2 : st'.minDeadLine
      = (sealedHeader (mineCtx S env block bt addrPlotID node) st' now).DeadLine := rfl
  have f3 : st'.minDeadLine
      + (sealedHeader (mineCtx S env block bt addrPlotID node) st' now).LastTime
      < (sealedHeader (mineCtx S env block bt addrPlotID node) st' now).Time :=
    of_decide_eq_true hpass
  rw [VerifySeal_unfold, hcp, hsd, hd]
  simp only
  rw [if_neg (not_not.mpr f1), if_neg (not_not.mpr f2), if_neg (not_not.mpr f3)]
  by_cases ht : (sealedHeader (mineCtx S env block bt addrPlotID node) st' now).Time - 15
      > (uint64OfInt64 nowV : Int)
  · rw [if_pos ht]
    exact Or.inr rfl
  · rw [if_neg ht]
    exact Or.inl rfl

theorem slabDeadLine_lengthShabal (c : MineCtx) (data : List Byte) (j : Nat)
    (hS : c.S = lengthShabal) (hg : c.gensig.length = 32) (hlen : 64 * j + 64 ≤ data.length) :
    slabDeadLine c data j = 6944656592455360608 / c.baseTarget := by
  unfold slabDeadLine CalcTarget
  simp only
  rw [hS]
  have l1 := length_slice data (64 * j) (64 * j + 32) (by omega)
  have l2 := length_slice data (64 * j + 32) (64 * j + 64) (by omega)
  have e : Hasher.Sum lengthShabal
      (NewSha_bal256.Write (slice data (64 * j) (64 * j + 32)
        ++ slice data (64 * j + 32) (64 * j + 64) ++ c.gensig)) = List.replicate 32 96 := by
    show List.replicate 32 (Fin.ofNat (_ ++ _ ++ c.gensig).length) = _
    rw [List.length_append, List.length_append, l1, l2, hg]
    have e1 : 64 * j + 32 - 64 * j = 32 := by omega
    have e2 : 64 * j + 64 - (64 * j + 32) = 32 := by omega
    rw [e1, e2]
    rfl
  rw [e]
  rfl

theorem ctxPlotted_scoopID : ctxPlotted.scoopID < 256 := by
  show GetScoopID _ < 256
  rw [GetScoopID_eq]
  exact Fin.isLt _

theorem filePlotted_parses : filePlotted.parses 9 5 ((2 : Nat) : Int) :=
  ⟨by decide, by decide, by decide, by decide⟩

theorem scanFile_filePlotted_start : scanFile ctxPlotted filePlotted 2 mineStart
        { total := 0, index := 0, pubID := 0, nonce := 0, data := [] }
      = scanFile ctxPlotted filePlotted 1 mineStart
          (FileVars.mk ((2 : Nat) : Int) ((0 : Nat) : Int) 9 5
            (slabOf ctxPlotted (plotFile lengthShabal (paramOf 2 0 9) 5) 2)) :=
  scanFile_start ctxPlotted filePlotted mineStart 9 5 2 1
    (plotFile lengthShabal (paramOf 2 0 9) 5) filePlotted_parses rfl rfl (by decide) ctxPlotted_scoopID

theorem slabDeadLine_filePlotted : slabDeadLine ctxPlotted
      (slabOf ctxPlotted (plotFile lengthShabal (paramOf 2 0 9) 5) 2) 0 = 6 := by
  have hlen := length_slabOf ctxPlotted (plotFile lengthShabal (paramOf 2 0 9) 5) 2
  rw [slabDeadLine_lengthShabal ctxPlotted _ 0 rfl rfl (by omega)]
  rfl

theorem trackStep_filePlotted : trackStep ctxPlotted 9 5
      (slabOf ctxPlotted (plotFile lengthShabal (paramOf 2 0 9) 5) 2) mineStart 0
      = { minDeadLine := 6, minPubID := 9, minNonce := 5, tick := 1 } := by
  unfold trackStep
  rw [if_pos (by decide), slabDeadLine_filePlotted, if_pos (by decide)]
  rfl

theorem ctxPlotted_clock : ctxPlotted.env.clock mineStart.tick = 1000 := rfl

theorem deadlinePassed_filePlotted : deadlinePassed ctxPlotted
    { minDeadLine := 6, minPubID := 9, minNonce := 5, tick := 1 } 1000 = true := by decide

theorem sealedHeader_filePlotted : sealedHeader ctxPlotted
    { minDeadLine := 6, minPubID := 9, minNonce := 5, tick := 1 } 1000 = sealedPlot := by
  decide

theorem fileStep_filePlotted : fileStep ctxPlotted filePlotted mineStart
      (FileVars.mk ((2 : Nat) : Int) ((0 : Nat) : Int) 9 5
        (slabOf ctxPlotted (plotFile lengthShabal (paramOf 2 0 9) 5) 2))
    = FileStep.found { minDeadLine := 6, minPubID := 9, minNonce := 5, tick := 1 } 1000
        sealedPlot := by
  rw [fileStep_index ctxPlotted filePlotted mineStart 9 5 2 0 _ (by decide) (by decide)
    (length_slabOf ctxPlotted (plotFile lengthShabal (paramOf 2 0 9) 5) 2) (by decide),
    trackStep_filePlotted, ctxPlotted_clock, if_pos ⟨by decide, deadlinePassed_filePlotted⟩, sealedHeader_filePlotted]

theorem scanFile_filePlotted :
    scanFile ctxPlotted filePlotted 2 mineStart
        { total := 0, index := 0, pubID := 0, nonce := 0, data := [] }
      = Scan.found { minDeadLine := 6, minPubID := 9, minNonce := 5, tick := 1 } 1000
          sealedPlot := by
  rw [scanFile_filePlotted_start, scanFile, fileStep_filePlotted]

/-! ## The claims -/

/-- Claim C1, evaluated on the code: the address of scenario S1 has 20 bytes, and on it
`CalcPlotID` panics, because `addr.Bytes()[15:]` keeps five bytes and
`binary.BigEndian.Uint64` reads eight; the big-endian value of the bytes 12 to 19, which
the claim expects, is 72623859790382856. -/
theorem CalcPlotID_S1 : addrS1.length = 20 ∧ CalcPlotID addrS1 = none ∧
    beDecode (slice addrS1 12 20) = 72623859790382856 := by
  decide

/-- Claim C2, evaluated on the code: on a header whose `Coinbase` is the 20-byte address
of scenario S1, with `BaseTarget > 0` and `Time = LastTime + DeadLine + 1`, `VerifySeal`
neither accepts nor returns one of its errors: it panics inside `CalcPlotID`, whatever
`PlotID` the header carries. -/
theorem VerifySeal_headerS6 :
    headerS6.Coinbase.length = 20 ∧ 0 < headerS6.BaseTarget ∧
    headerS6.Time = headerS6.LastTime + headerS6.DeadLine + 1 ∧
    VerifySeal lengthShabal 1000 headerS6 = Outcome.panic ∧
    VerifySeal lengthShabal 1000 { headerS6 with PlotID := 0 } = Outcome.panic :=
  ⟨by decide, by decide, by decide,
   VerifySeal_short_coinbase _ _ _ (by decide), VerifySeal_short_coinbase _ _ _ (by decide)⟩

/-- Claim C3, the plotter round trip: for a file of `singCount` nonces starting at nonce
`s` (its size `singCount * 262144` being an `int64`, that is `singCount < 2 ^ 45`), every
scoop `k < 4096` and every nonce `n` with `s ≤ n < s + singCount`, the 64 bytes of the
plot file at offset `64 * singCount * k + 64 * (n - s)` are the bytes `64 * k` to
`64 * k + 64` of `GenCell n plotID`. Write by write: each of these 64 offsets is covered
by a write the plotter submits for the file, and every submitted write that covers it
carries there the byte of `GenCell n plotID`. -/
theorem plotFile_roundtrip (S : Shabal) (plotID s singCount start k n : Nat)
    (hc : singCount < 2 ^ 45) (hk : k < 4096)
    (hn1 : s ≤ n) (hn2 : n < s + singCount) :
    slice (plotFile S (paramOf singCount start plotID) s)
        (64 * singCount * k + 64 * (n - s)) (64 * singCount * k + 64 * (n - s) + 64) =
      slice (GenCell S n plotID) (64 * k) (64 * k + 64) ∧
    ∀ t, t < 64 →
      (∃ w ∈ (plotFileBatches S (paramOf singCount start plotID) s).flatMap (fun b => b.W),
        w.covers (64 * singCount * k + 64 * (n - s) + t)) ∧
      (∀ w ∈ (plotFileBatches S (paramOf singCount start plotID) s).flatMap (fun b => b.W),
        w.covers (64 * singCount * k + 64 * (n - s) + t) →
        w.Data.getD (64 * singCount * k + 64 * (n - s) + t - w.Index.toNat) 0 =
          (GenCell S n plotID).getD (64 * k + t) 0) := by
  have hlen := length_plotFile S plotID s singCount start hc
  have hlenG := length_GenCell S n plotID
  have hck : singCount * k ≤ singCount * 4095 := Nat.mul_le_mul_left _ (by omega)
  have ea : 64 * singCount * k = 64 * (singCount * k) := Nat.mul_assoc _ _ _
  have en : s + (n - s) = n := by omega
  rw [ea]
  refine ⟨ext_getD ?_ ?_, fun t ht => ⟨?_, ?_⟩⟩
  · rw [length_slice _ _ _ (by rw [hlen]; omega), length_slice _ _ _ (by rw [hlenG]; omega)]
    omega
  · intro p hp
    rw [length_slice _ _ _ (by rw [hlen]; omega)] at hp
    rw [getD_slice, getD_slice, if_pos (by omega), if_pos (by omega)]
    have := getD_plotFile S plotID s singCount start k (n - s) p hc hk (by omega) (by omega)
    rw [Nat.add_assoc] at this ⊢
    rw [this, en]
  · exact plotFile_writes_cover S plotID s singCount start k (n - s) t hc hk (by omega) ht
  · intro w hw hcov
    have := plotFile_writes_value S plotID s singCount start k (n - s) t hc hk (by omega) ht
      w hw hcov
    rw [en] at this
    exact this

/-- Claim C3 at a file of 3 nonces starting at nonce 7, scoop 5 and nonce 8. -/
theorem plotFile_roundtrip_witness :
    3 < 2 ^ 45 ∧ 5 < 4096 ∧ 7 ≤ 8 ∧ 8 < 7 + 3 ∧
    slice (plotFile lengthShabal (paramOf 3 0 9) 7)
        (64 * 3 * 5 + 64 * (8 - 7)) (64 * 3 * 5 + 64 * (8 - 7) + 64) =
      slice (GenCell lengthShabal 8 9) (64 * 5) (64 * 5 + 64) :=
  ⟨by decide, by decide, by decide, by decide,
   (plotFile_roundtrip lengthShabal 9 7 3 0 5 8 (by decide) (by decide) (by decide)
     (by decide)).1⟩

/-- Claim C4: `GenCellForP` returns the cell of the reference construction `refCell`, of
262144 bytes. In index form: the array `H'` of raw slots has 8192 slots; slot `i` is the
digest of the slots `i + 1` to `min (i + 129) 8192` (excluded) in ascending order,
followed by the seed exactly when `i ≥ 8064` (slot 8191 is the digest of the seed alone);
`final` is the digest of all raw slots followed by the seed; and the cell is the
concatenation over `i` of `H'[i]` combined by exclusive or with `final`. -/
theorem GenCellForP_reference (S : Shabal) (nonce plotID : Nat) :
    GenCellForP S nonce plotID = refCell S nonce plotID ∧
    (GenCellForP S nonce plotID).length = 262144 ∧
    (refRawSlots S (refSeed nonce plotID)).length = 8192 ∧
    (∀ i, i < 8192 →
      (refRawSlots S (refSeed nonce plotID)).getD i [] =
        S.digest ((((refRawSlots S (refSeed nonce plotID)).drop (i + 1)).take 128).flatten ++
          (if 8064 ≤ i then refSeed nonce plotID else []))) ∧
    refCell S nonce plotID =
      ((List.range 8192).map (fun i =>
        xorBytes ((refRawSlots S (refSeed nonce plotID)).getD i [])
          (S.digest ((refRawSlots S (refSeed nonce plotID)).flatten ++
            refSeed nonce plotID)))).flatten :=
  ⟨GenCellForP_eq_refCell S nonce plotID, length_GenCellForP S nonce plotID,
   (refRawSlots_uniform S (refSeed nonce plotID)).2,
   fun i hi => refRawSlots_getD S (refSeed nonce plotID) i hi,
   refCell_eq_range S nonce plotID⟩

/-- Claim C4 at slot 8191 of the cell of nonce 3 and plot identifier 4. -/
theorem GenCellForP_reference_witness :
    8191 < 8192 ∧
    (refRawSlots lengthShabal (refSeed 3 4)).getD 8191 [] =
      lengthShabal.digest
        ((((refRawSlots lengthShabal (refSeed 3 4)).drop (8191 + 1)).take 128).flatten ++
          (if 8064 ≤ 8191 then refSeed 3 4 else [])) :=
  ⟨by decide, (GenCellForP_reference lengthShabal 3 4).2.2.2.1 8191 (by decide)⟩

/-- Claim C5: the verification cell `GenCell` is `rearrange` applied to the plot cell
`GenCellForP`; both have 8192 slots of 32 bytes, and slot `i` of `GenCell` is slot `i` of
`GenCellForP` when `i` is even and slot `8192 - i` when `i` is odd. -/
theorem GenCell_slots (S : Shabal) (nonce plotID : Nat) :
    (GenCell S nonce plotID).length = 8192 * 32 ∧
    (GenCellForP S nonce plotID).length = 8192 * 32 ∧
    GenCell S nonce plotID = rearrange (GenCellForP S nonce plotID) ∧
    ∀ i, i < 8192 →
      slotOf (GenCell S nonce plotID) i =
        slotOf (GenCellForP S nonce plotID) (if i % 2 = 0 then i else 8192 - i) := by
  have hP := length_GenCellForP S nonce plotID
  refine ⟨?_, hP, GenCell_eq_rearrange S nonce plotID, ?_⟩
  · rw [GenCell_eq_rearrange]
    exact (slotOf_rearrange _ hP 0 (by omega)).1
  · intro i hi
    rw [GenCell_eq_rearrange]
    exact (slotOf_rearrange _ hP i hi).2

/-- Claim C5 at slot 1 of the cell of nonce 3 and plot identifier 4. -/
theorem GenCell_slots_witness :
    1 < 8192 ∧
    slotOf (GenCell lengthShabal 3 4) 1 =
      slotOf (GenCellForP lengthShabal 3 4) (if 1 % 2 = 0 then 1 else 8192 - 1) :=
  ⟨by decide, (GenCell_slots lengthShabal 3 4).2.2.2 1 (by decide)⟩

/-- Claim C6, evaluated on the code: on a 32-byte hash ending in `0x0F, 0xFF`
`GetScoopID` returns 255, the last byte alone, whereas
`(genHash[30] * 256 + genHash[31]) mod 4096` is 4095. -/
theorem GetScoopID_S2 :
    (List.replicate 30 (0 : Byte) ++ [0x0F, 0xFF]).length = 32 ∧
    GetScoopID (List.replicate 30 0 ++ [0x0F, 0xFF]) = 255 ∧
    (0x0F * 256 + 0xFF) % 4096 = 4095 := by
  decide

/-- Claim C7: for a 32-byte target and `baseTarget > 0`, the deadline of the verifier and
the miner is `⌊t / baseTarget⌋` for `t` the big-endian value of the bytes 24 to 31, with
`t < 2 ^ 64` and `deadline * baseTarget ≤ t < (deadline + 1) * baseTarget`; the target of
scenario S3 with base target 5 gives 20. -/
theorem targetDeadLine_spec :
    (∀ (target : List Byte) (baseTarget : Int), target.length = 32 → 0 < baseTarget →
      ∃ d : Int, targetDeadLine target baseTarget = some d ∧
        d = ⌊((beDecode (slice target 24 32) : ℚ)) / (baseTarget : ℚ)⌋ ∧
        beDecode (slice target 24 32) < 2 ^ 64 ∧
        d * baseTarget ≤ (beDecode (slice target 24 32) : Int) ∧
        (beDecode (slice target 24 32) : Int) < (d + 1) * baseTarget) ∧
    slice targetS3 24 32 = [0, 0, 0, 0, 0, 0, 0, 0x64] ∧
    targetDeadLine targetS3 5 = some 20 :=
  ⟨fun target baseTarget hlen hb => targetDeadLine_floor target baseTarget hlen hb,
   targetDeadLine_S3.2.1, targetDeadLine_S3.2.2⟩

/-- Claim C7 at the target of scenario S3 and base target 5. -/
theorem targetDeadLine_spec_witness :
    targetS3.length = 32 ∧ (0 : Int) < 5 ∧
    ∃ d : Int, targetDeadLine targetS3 5 = some d ∧
      d = ⌊((beDecode (slice targetS3 24 32) : ℚ)) / ((5 : Int) : ℚ)⌋ ∧
      beDecode (slice targetS3 24 32) < 2 ^ 64 ∧
      d * 5 ≤ (beDecode (slice targetS3 24 32) : Int) ∧
      (beDecode (slice targetS3 24 32) : Int) < (d + 1) * 5 :=
  ⟨by decide, by decide, targetDeadLine_spec.1 targetS3 5 (by decide) (by decide)⟩

/-- Claim C8: `calcBaseTarget` returns `5 * 10 ^ 15` when `number ≤ 5`; otherwise, with `B`
and `D` the floored means of `BaseTarget` and `DeadLine` over the blocks `number - 4` to
`number - 1` and `raw = ⌊B * D / 60⌋ ≥ 0`, it returns `raw` clamped into
`[⌊9 * B / 10⌋, ⌊11 * B / 10⌋]`. With `B = 1000`: `D = 60` gives 1000, `D = 120` gives
1100, `D = 6` gives 900. -/
theorem calcBaseTarget_clamp (chain : ChainReader) (number : Nat) :
    (number ≤ 5 → calcBaseTarget chain number = some 5000000000000000) ∧
    (5 < number → ∀ h1 h2 h3 h4 : Header,
      chain (number - 1) = some h1 → chain (number - 2) = some h2 →
      chain (number - 3) = some h3 → chain (number - 4) = some h4 →
      ∀ B D raw : Int,
      B = (h1.BaseTarget + h2.BaseTarget + h3.BaseTarget + h4.BaseTarget) / 4 →
      D = (h1.DeadLine + h2.DeadLine + h3.DeadLine + h4.DeadLine) / 4 →
      raw = B * D / 60 → 0 ≤ raw →
      calcBaseTarget chain number = some (clampInto (9 * B / 10) (11 * B / 10) raw)) ∧
    calcBaseTarget (constChain 1000 60) 6 = some 1000 ∧
    calcBaseTarget (constChain 1000 120) 6 = some 1100 ∧
    calcBaseTarget (constChain 1000 6) 6 = some 900 := by
  refine ⟨?_, ?_, by decide, by decide, by decide⟩
  · intro h
    unfold calcBaseTarget
    rw [if_pos h]; rfl
  · intro hn h1 h2 h3 h4 e1 e2 e3 e4 B D raw hB hD hraw hpos
    rw [calcBaseTarget_of_history chain number hn h1 h2 h3 h4 e1 e2 e3 e4]
    simp only
    rw [← hB, ← hD, ← hraw]
    have hc : (if raw < 0 then initBaseTarget else raw) = raw := if_neg (by omega)
    have e9 : B * 9 = 9 * B := by ring
    have e11 : B * 11 = 11 * B := by ring
    rw [hc, e9, e11]
    unfold clampInto
    have hlo : 0 ≤ raw → 9 * B / 10 > raw → 9 * B / 10 ≤ 11 * B / 10 := by
      intro _ _; omega
    by_cases c1 : raw < 9 * B / 10
    · rw [if_pos c1, max_eq_right (le_of_lt c1), min_eq_left (hlo hpos c1)]
    · rw [if_neg c1, max_eq_left (by omega)]
      by_cases c2 : raw > 11 * B / 10
      · rw [if_pos c2, min_eq_right (by omega)]
      · rw [if_neg c2, min_eq_left (by omega)]

/-- Claim C8 at block 3, and at block 6 of a chain with `B = 1000` and `D = 120`. -/
theorem calcBaseTarget_clamp_witness :
    3 ≤ 5 ∧ calcBaseTarget (constChain 1000 120) 3 = some 5000000000000000 ∧
    5 < 6 ∧ (0 : Int) ≤ 2000 ∧
    calcBaseTarget (constChain 1000 120) 6 =
      some (clampInto (9 * 1000 / 10) (11 * 1000 / 10) 2000) :=
  ⟨by decide, (calcBaseTarget_clamp (constChain 1000 120) 3).1 (by decide),
   by decide, by decide,
   (calcBaseTarget_clamp (constChain 1000 120) 6).2.1 (by decide)
     (headerOf 1000 120) (headerOf 1000 120) (headerOf 1000 120) (headerOf 1000 120)
     rfl rfl rfl rfl 1000 120 2000 (by decide) (by decide) (by decide) (by decide)⟩

/-- Claim C9: for `number > 5` and a four-block history whose truncated mean base target
`B` is positive, whatever the deadlines, the result `r` of `calcBaseTarget` satisfies
`9 * B / 10 ≤ r ≤ 11 * B / 10`, both bounds with truncating division. -/
theorem calcBaseTarget_bounds (chain : ChainReader) (number : Nat) (hn : 5 < number)
    (h1 h2 h3 h4 : Header)
    (e1 : chain (number - 1) = some h1) (e2 : chain (number - 2) = some h2)
    (e3 : chain (number - 3) = some h3) (e4 : chain (number - 4) = some h4)
    (B : Int)
    (hB : B = Int.tdiv (h1.BaseTarget + h2.BaseTarget + h3.BaseTarget + h4.BaseTarget) 4)
    (hpos : 0 < B) :
    ∃ r : Int, calcBaseTarget chain number = some r ∧
      Int.tdiv (9 * B) 10 ≤ r ∧ r ≤ Int.tdiv (11 * B) 10 := by
  have hsum : 0 ≤ h1.BaseTarget + h2.BaseTarget + h3.BaseTarget + h4.BaseTarget := by
    by_contra hneg
    have hq := @Int.tdiv_nonneg
      (-(h1.BaseTarget + h2.BaseTarget + h3.BaseTarget + h4.BaseTarget)) 4
      (by omega) (by decide)
    rw [Int.neg_tdiv] at hq
    omega
  rw [Int.tdiv_eq_ediv hsum (by decide)] at hB
  rw [Int.tdiv_eq_ediv (by omega) (by decide), Int.tdiv_eq_ediv (by omega) (by decide)]
  rw [calcBaseTarget_of_history chain number hn h1 h2 h3 h4 e1 e2 e3 e4]
  simp only
  rw [← hB]
  have e9 : B * 9 = 9 * B := by ring
  have e11 : B * 11 = 11 * B := by ring
  rw [e9, e11]
  generalize (if B * ((h1.DeadLine + h2.DeadLine + h3.DeadLine + h4.DeadLine) / 4) / 60 < 0
    then initBaseTarget
    else B * ((h1.DeadLine + h2.DeadLine + h3.DeadLine + h4.DeadLine) / 4) / 60) = c
  by_cases c1 : c < 9 * B / 10
  · rw [if_pos c1]; exact ⟨_, rfl, le_refl _, by omega⟩
  · rw [if_neg c1]
    by_cases c2 : c > 11 * B / 10
    · rw [if_pos c2]; exact ⟨_, rfl, by omega, le_refl _⟩
    · rw [if_neg c2]; exact ⟨_, rfl, by omega, by omega⟩

/-- Claim C9 at block 6 of a chain with base target 1000 and the negative deadline -60. -/
theorem calcBaseTarget_bounds_witness :
    5 < 6 ∧ (0 : Int) < 1000 ∧
    ∃ r : Int, calcBaseTarget (constChain 1000 (-60)) 6 = some r ∧
      Int.tdiv (9 * 1000) 10 ≤ r ∧ r ≤ Int.tdiv (11 * 1000) 10 :=
  ⟨by decide, by decide,
   calcBaseTarget_bounds (constChain 1000 (-60)) 6 (by decide)
     (headerOf 1000 (-60)) (headerOf 1000 (-60)) (headerOf 1000 (-60)) (headerOf 1000 (-60))
     rfl rfl rfl rfl 1000 (by decide) (by decide)⟩

/-- Claim C10 fails as stated: at block 6 of a chain whose four last blocks have base
target 1000 and deadline -60, the raw candidate `1000 * (-60) / 60` is negative and
`calcBaseTarget` returns 1100, not `initBaseTarget`. -/
theorem calcBaseTarget_negative_raw_counterexample :
    (1000 : Int) * (-60) / 60 < 0 ∧
    calcBaseTarget (constChain 1000 (-60)) 6 = some 1100 ∧
    calcBaseTarget (constChain 1000 (-60)) 6 ≠ some initBaseTarget := by
  decide

/-- Claim C10 as amended: for `number > 5`, when the raw candidate `⌊B * D / 60⌋` is
negative, `calcBaseTarget` returns `initBaseTarget` clamped into
`[⌊9 * B / 10⌋, ⌊11 * B / 10⌋]`, the lower bound being tested first; it returns
`initBaseTarget` itself exactly when `⌊9 * B / 10⌋ ≤ initBaseTarget ≤ ⌊11 * B / 10⌋`. -/
theorem calcBaseTarget_negative_raw (chain : ChainReader) (number : Nat) (hn : 5 < number)
    (h1 h2 h3 h4 : Header)
    (e1 : chain (number - 1) = some h1) (e2 : chain (number - 2) = some h2)
    (e3 : chain (number - 3) = some h3) (e4 : chain (number - 4) = some h4)
    (B D : Int)
    (hB : B = (h1.BaseTarget + h2.BaseTarget + h3.BaseTarget + h4.BaseTarget) / 4)
    (hD : D = (h1.DeadLine + h2.DeadLine + h3.DeadLine + h4.DeadLine) / 4)
    (hraw : B * D / 60 < 0) :
    calcBaseTarget chain number =
      some (if initBaseTarget < 9 * B / 10 then 9 * B / 10
            else if initBaseTarget > 11 * B / 10 then 11 * B / 10
            else initBaseTarget) ∧
    (calcBaseTarget chain number = some initBaseTarget ↔
      (9 * B / 10 ≤ initBaseTarget ∧ initBaseTarget ≤ 11 * B / 10)) := by
  have key : calcBaseTarget chain number =
      some (if initBaseTarget < 9 * B / 10 then 9 * B / 10
            else if initBaseTarget > 11 * B / 10 then 11 * B / 10
            else initBaseTarget) := by
    rw [calcBaseTarget_of_history chain number hn h1 h2 h3 h4 e1 e2 e3 e4]
    simp only
    rw [← hB, ← hD, if_pos hraw]
    have e9 : B * 9 = 9 * B := by ring
    have e11 : B * 11 = 11 * B := by ring
    rw [e9, e11]
    split_ifs <;> rfl
  refine ⟨key, ?_⟩
  rw [key]
  constructor
  · intro h
    have h' := Option.some.inj h
    split_ifs at h' with c1 c2
    · omega
    · omega
    · omega
  · rintro ⟨hlo, hhi⟩
    rw [if_neg (by omega), if_neg (by omega)]

/-- Claim C10 as amended, at block 6 of a chain with base target `5 * 10 ^ 15` and
deadline -60: the raw candidate is negative and the result is `initBaseTarget`. -/
theorem calcBaseTarget_negative_raw_witness :
    5 < 6 ∧ (5000000000000000 : Int) * (-60) / 60 < 0 ∧
    (calcBaseTarget (constChain 5000000000000000 (-60)) 6 =
      some (if initBaseTarget < 9 * 5000000000000000 / 10 then 9 * 5000000000000000 / 10
            else if initBaseTarget > 11 * 5000000000000000 / 10
              then 11 * 5000000000000000 / 10
            else initBaseTarget) ∧
    (calcBaseTarget (constChain 5000000000000000 (-60)) 6 = some initBaseTarget ↔
      (9 * 5000000000000000 / 10 ≤ initBaseTarget ∧
        initBaseTarget ≤ 11 * 5000000000000000 / 10))) :=
  ⟨by decide, by decide,
   calcBaseTarget_negative_raw (constChain 5000000000000000 (-60)) 6 (by decide)
     (headerOf 5000000000000000 (-60)) (headerOf 5000000000000000 (-60))
     (headerOf 5000000000000000 (-60)) (headerOf 5000000000000000 (-60))
     rfl rfl rfl rfl 5000000000000000 (-60) (by decide) (by decide) (by decide)⟩

/-- Claim C11: for `number > 5` and a four-block history with non-negative `BaseTarget`
and `DeadLine` values, with truncated means `B` and `D`: `calcBaseTarget` returns a value
`r` with `r ≥ B` when `D > 60` and `r ≤ B` when `D < 60`. -/
theorem calcBaseTarget_direction (chain : ChainReader) (number : Nat) (hn : 5 < number)
    (h1 h2 h3 h4 : Header)
    (e1 : chain (number - 1) = some h1) (e2 : chain (number - 2) = some h2)
    (e3 : chain (number - 3) = some h3) (e4 : chain (number - 4) = some h4)
    (hb1 : 0 ≤ h1.BaseTarget) (hb2 : 0 ≤ h2.BaseTarget)
    (hb3 : 0 ≤ h3.BaseTarget) (hb4 : 0 ≤ h4.BaseTarget)
    (hd1 : 0 ≤ h1.DeadLine) (hd2 : 0 ≤ h2.DeadLine)
    (hd3 : 0 ≤ h3.DeadLine) (hd4 : 0 ≤ h4.DeadLine)
    (B D : Int)
    (hB : B = Int.tdiv (h1.BaseTarget + h2.BaseTarget + h3.BaseTarget + h4.BaseTarget) 4)
    (hD : D = Int.tdiv (h1.DeadLine + h2.DeadLine + h3.DeadLine + h4.DeadLine) 4) :
    ∃ r : Int, calcBaseTarget chain number = some r ∧
      (60 < D → B ≤ r) ∧ (D < 60 → r ≤ B) := by
  rw [Int.tdiv_eq_ediv (by omega) (by decide)] at hB hD
  have hB0 : 0 ≤ B := by omega
  have hD0 : 0 ≤ D := by omega
  have hP0 : 0 ≤ B * D := Int.mul_nonneg hB0 hD0
  have hslow : 60 < D → B * 61 ≤ B * D := fun h =>
    Int.mul_le_mul_of_nonneg_left (by omega) hB0
  have hfast : D < 60 → B * D ≤ B * 59 := fun h =>
    Int.mul_le_mul_of_nonneg_left (by omega) hB0
  rw [calcBaseTarget_of_history chain number hn h1 h2 h3 h4 e1 e2 e3 e4]
  simp only
  rw [← hB, ← hD]
  have hc : (if B * D / 60 < 0 then initBaseTarget else B * D / 60) = B * D / 60 :=
    if_neg (by omega)
  rw [hc]
  by_cases c1 : B * D / 60 < B * 9 / 10
  · rw [if_pos c1]
    refine ⟨_, rfl, fun h => ?_, fun _ => by omega⟩
    have := hslow h
    omega
  · rw [if_neg c1]
    by_cases c2 : B * D / 60 > B * 11 / 10
    · rw [if_pos c2]
      refine ⟨_, rfl, fun _ => by omega, fun h => ?_⟩
      have := hfast h
      omega
    · rw [if_neg c2]
      refine ⟨_, rfl, fun h => ?_, fun h => ?_⟩
      · have := hslow h
        omega
      · have := hfast h
        omega

/-- Claim C11 on a chain with base target 1000 and deadline 120: the result is 1100. -/
theorem calcBaseTarget_direction_witness :
    5 < 6 ∧
    ∃ r : Int, calcBaseTarget (constChain 1000 120) 6 = some r ∧
      (60 < (120 : Int) → (1000 : Int) ≤ r) ∧ ((120 : Int) < 60 → r ≤ 1000) :=
  ⟨by decide,
   calcBaseTarget_direction (constChain 1000 120) 6 (by decide)
     (headerOf 1000 120) (headerOf 1000 120) (headerOf 1000 120) (headerOf 1000 120)
     rfl rfl rfl rfl (by decide) (by decide) (by decide) (by decide)
     (by decide) (by decide) (by decide) (by decide) 1000 120 (by decide) (by decide)⟩

/-- Claim C12 on two headers with `BaseTarget = 0`: with a 20-byte `Coinbase`,
`VerifySeal` panics in `CalcPlotID` (index out of range); with a 23-byte `Coinbase`, on
which `CalcPlotID` returns, it panics in `CalcDeadLine` (division by zero). -/
theorem VerifySeal_panics :
    headerZeroTarget.Coinbase.length = 20 ∧
    (∀ (S : Shabal) (now : Int), VerifySeal S now headerZeroTarget = Outcome.panic) ∧
    (∀ target : List Byte, targetDeadLine target 0 = none) ∧
    (∀ (S : Shabal) (now : Int),
      VerifySeal S now { headerZeroTarget with Coinbase := coinbase23, PlotID := 9 }
        = Outcome.panic) :=
  ⟨rfl, fun S now => VerifySeal_short_coinbase S now headerZeroTarget (by decide),
   fun _ => rfl,
   fun S now => VerifySeal_zero_target S now _ CalcPlotID_coinbase23 rfl⟩

/-- Claim C17, as worded, at `singSize = 262144` and `size = -1`: the quotient of the
code is truncated toward zero, so `Count = 0`, which is not `floor(size / singSize) = -1`,
and `Count * singSize <= size` fails. -/
theorem parseParam_negative_size_counterexample :
    ∃ p : ParamSizes, parseParam 262144 (-1) = some p ∧
      p.Count ≠ (-1 : Int) / 262144 ∧ ¬ p.Count * 262144 ≤ -1 :=
  ⟨{ SingSize := 262144, SingCount := 1, Count := 0 }, by decide, by decide, by decide⟩

/-- Claim C17, amended with `size >= 0`: for `int64` byte sizes `singSize > 0` and
`size >= 0`, `parseParam` sets `SingCount = floor(singSize / 262144)`,
`Count = floor(size / singSize)` and `SingSize = SingCount * 262144`, so
`SingSize <= singSize` and `Count * singSize <= size`. -/
theorem parseParam_geometry (sing total : Int) (hs : 0 < sing) (hs2 : sing < 2 ^ 63)
    (ht : 0 ≤ total) (ht2 : total < 2 ^ 63) :
    parseParam sing total =
        some { SingSize := sing / 262144 * 262144, SingCount := sing / 262144,
               Count := total / sing } ∧
      sing / 262144 * 262144 ≤ sing ∧ total / sing * sing ≤ total := by
  refine ⟨?_, by omega, Int.ediv_mul_le _ (by omega)⟩
  rw [parseParam_of_pos sing total hs hs2 (by omega) ht2, Int.tdiv_eq_ediv ht (by omega)]

/-- Claim C17 at `singSize` = 1GB and `size` = 4GB: `SingCount = 4096`, `Count = 4` and a
file of 1073741824 bytes. -/
theorem parseParam_geometry_witness :
    (0 : Int) < 1073741824 ∧
    parseParam 1073741824 4294967296 =
        some { SingSize := 1073741824, SingCount := 4096, Count := 4 } ∧
      (1073741824 : Int) / 262144 * 262144 ≤ 1073741824 ∧
      (4294967296 : Int) / 1073741824 * 1073741824 ≤ 4294967296 :=
  ⟨by decide, parseParam_geometry 1073741824 4294967296 (by decide) (by decide) (by decide)
    (by decide)⟩

/-- Claim C18: for a header with the uncles `uncles`, `PocRewards` adds to the balance of
every address `a` the sum of `floor((uncle.Number + 8 - header.Number) * 10^18 / 8)` over
the uncles whose `Coinbase` is `a`, and, when `a` is `header.Coinbase`, also
`10^18 * 15 / 2 + n * floor(10^18 / 32)` for the `n` uncles; nothing else changes, and
without uncles `header.Coinbase` receives `7.5 * 10^18`. -/
theorem PocRewards_credits (state : Balances) (header : Header) (uncles : List Header) :
    (∀ a : List Byte, PocRewards state header uncles a =
      state a
        + ((uncles.filter (fun u => decide (u.Coinbase = a))).map
            (fun u => (u.Number + 8 - header.Number) * 1000000000000000000 / 8)).sum
        + (if a = header.Coinbase then
            1000000000000000000 * 15 / 2 + (uncles.length : Int) * (1000000000000000000 / 32)
           else 0)) ∧
    PocRewards state header [] header.Coinbase
      = state header.Coinbase + 7500000000000000000 := by
  have key : ∀ (us : List Header) (a : List Byte), PocRewards state header us a =
      state a
        + ((us.filter (fun u => decide (u.Coinbase = a))).map
            (fun u => (u.Number + 8 - header.Number) * 1000000000000000000 / 8)).sum
        + (if a = header.Coinbase then
            1000000000000000000 * 15 / 2 + (us.length : Int) * (1000000000000000000 / 32)
           else 0) := by
    intro us a
    unfold PocRewards
    rw [foldl_PocRewards_step]
    simp only [AddBalance, blockReward]
    by_cases h : a = header.Coinbase
    · simp only [h, if_true]
    · simp only [h, if_false]
      omega
  refine ⟨key uncles, ?_⟩
  rw [key [] header.Coinbase]
  simp

/-- Claim C19: every header `hdr` that `mine` emits, at the emission inside the scan or
at the one of the wait loop, with the miner's variables `st` and the clock value `now` of
the emission, has `Nonce = minNonce`, `PlotID = minPubID`, the `GenSig` of the candidate
header, `Time = uint64(now)` (which is `now` for a clock value from 0 to `2 ^ 63 - 1`),
`BaseTarget` the supplied base target, `DeadLine = minDeadLine` and the `LastTime` of the
candidate block, and satisfies `Time > LastTime + DeadLine`. -/
theorem mine_emitted_header (S : Shabal) (env : MineEnv) (block : Block) (bt : Int)
    (fuel : Nat) (st : MinerState) (now : Int) (hdr : Header)
    (h : mine S env block bt fuel = Scan.found st now hdr) :
    hdr.Nonce = st.minNonce ∧ hdr.PlotID = st.minPubID ∧ hdr.GenSig = block.header.GenSig ∧
    hdr.Time = (uint64OfInt64 now : Int) ∧ (0 ≤ now → now < 2 ^ 63 → hdr.Time = now) ∧
    hdr.BaseTarget = bt ∧ hdr.DeadLine = st.minDeadLine ∧ hdr.LastTime = block.LastTime ∧
    hdr.Time > hdr.LastTime + hdr.DeadLine := by
  obtain ⟨hlt, he⟩ := mine_found S env block bt fuel st now hdr h
  subst he
  refine ⟨rfl, rfl, rfl, rfl, fun h0 h1 => uint64OfInt64_nonneg now h0 h1, rfl, rfl, rfl, ?_⟩
  show (uint64OfInt64 now : Int) > block.header.LastTime + st.minDeadLine
  have e : block.LastTime = block.header.LastTime := rfl
  omega

/-- Claim C19 on two runs of the miner: one that emits inside the scan, on the plot file
`9_5_2` (deadline 6, nonce 5), and one that emits from the wait loop, with no plot
directory (the initial `minDeadLine`). -/
theorem mine_emitted_header_witness :
    (mine lengthShabal envPlot blockA 1000000000000000000 5 =
      Scan.found { minDeadLine := 6, minPubID := 9, minNonce := 5, tick := 1 } 1000 sealedPlot ∧
     (sealedPlot.Nonce = 5 ∧ sealedPlot.PlotID = 9 ∧ sealedPlot.GenSig = blockA.header.GenSig ∧
      sealedPlot.Time = (uint64OfInt64 1000 : Int) ∧
      ((0 : Int) ≤ 1000 → (1000 : Int) < 2 ^ 63 → sealedPlot.Time = 1000) ∧
      sealedPlot.BaseTarget = 1000000000000000000 ∧ sealedPlot.DeadLine = 6 ∧
      sealedPlot.LastTime = blockA.LastTime ∧
      sealedPlot.Time > sealedPlot.LastTime + sealedPlot.DeadLine)) ∧
    (mine lengthShabal envIdle blockA 1000000000000000000 1 =
      Scan.found { minDeadLine := 9999999999, minPubID := 0, minNonce := 0, tick := 0 }
        20000000000 sealedIdle ∧
     (sealedIdle.Nonce = 0 ∧ sealedIdle.PlotID = 0 ∧ sealedIdle.GenSig = blockA.header.GenSig ∧
      sealedIdle.Time = (uint64OfInt64 20000000000 : Int) ∧
      ((0 : Int) ≤ 20000000000 → (20000000000 : Int) < 2 ^ 63 → sealedIdle.Time = 20000000000) ∧
      sealedIdle.BaseTarget = 1000000000000000000 ∧ sealedIdle.DeadLine = 9999999999 ∧
      sealedIdle.LastTime = blockA.LastTime ∧
      sealedIdle.Time > sealedIdle.LastTime + sealedIdle.DeadLine)) :=
  ⟨⟨mine_envPlot, mine_emitted_header lengthShabal envPlot blockA 1000000000000000000 5
      { minDeadLine := 6, minPubID := 9, minNonce := 5, tick := 1 } 1000 sealedPlot mine_envPlot⟩,
   ⟨mine_envIdle, mine_emitted_header lengthShabal envIdle blockA 1000000000000000000 1
      { minDeadLine := 9999999999, minPubID := 0, minNonce := 0, tick := 0 } 20000000000
      sealedIdle mine_envIdle⟩⟩

/-- Claim C20, as worded, on the content `a,b`: without a trailing comma the miner goes
through the directory `a` only. -/
theorem plotDirs_no_trailing_comma_counterexample :
    dirsBetweenCommas [['a'], ['b']] = ['a', ',', 'b'] ∧
    plotDirs ['a', ',', 'b'] = [['a']] ∧ plotDirs ['a', ',', 'b'] ≠ [['a'], ['b']] :=
  ⟨rfl, by decide, by decide⟩

/-- Claim C20, amended: for directories `d1, ..., dn` without a comma in their names, the
miner goes through exactly `d1, ..., dn`, in that order, when each of them is followed by a
comma in the `PLOT` file; when they are only separated by commas (`n >= 1`, no trailing
comma), it goes through `d1, ..., d(n-1)` and leaves the last one out. -/
theorem plotDirs_trailing_comma (ds : List (List Char)) (h : ∀ d ∈ ds, ',' ∉ d) :
    plotDirs (dirsWithCommas ds) = ds ∧
    (ds ≠ [] → plotDirs (dirsBetweenCommas ds) = ds.dropLast) := by
  constructor
  · unfold plotDirs
    simp only
    rw [splitOn_dirsWithCommas ds h]
    simp
  · intro hne
    unfold plotDirs
    simp only
    rw [splitOn_dirsBetweenCommas ds h hne, List.dropLast_eq_take]

/-- Claim C20, amended, on the directories `a` and `b`. -/
theorem plotDirs_trailing_comma_witness :
    (∀ d ∈ [['a'], ['b']], ',' ∉ d) ∧
    plotDirs (dirsWithCommas [['a'], ['b']]) = [['a'], ['b']] ∧
    ([['a'], ['b']] ≠ [] → plotDirs (dirsBetweenCommas [['a'], ['b']])
      = [['a'], ['b']].dropLast) :=
  ⟨by decide, plotDirs_trailing_comma [['a'], ['b']] (by decide)⟩

/-- Claim C21, as worded, on a chain of the blocks 0 to 5 with head 5. For `page = 1` and
`count = 2 ^ 64 - 1` the sum `i + page * count` wraps below the head at once: the loop does
no iteration and the result is empty, although the blocks 0 to 5 lie in the window. For
`page = 2 ^ 62 + 1` and `count = 4` the product `(page - 1) * count` wraps to 0: the
blocks 5, 4, 3, 2 are returned, although the window lies below block 0. -/
theorem GetPocBlocks_wrap_counterexample :
    (∀ fuel : Nat,
      GetPocBlocks chainSix headFive 1 18446744073709551615 (fuel + 1) = some ([], 0)) ∧
    (chainSix 5).isSome = true ∧
    (GetPocBlocks chainSix headFive 4611686018427387905 4 5).map
        (fun r => (r.1.map (fun s => s.Number), r.2)) = some ([5, 4, 3, 2], 4) ∧
    (5 : Int) - (4611686018427387905 - 1) * 4 < 0 :=
  ⟨fun _ => rfl, rfl, by decide, by decide⟩

/-- Claim C21, amended with the two bounds `H + count < 2 ^ 64` and
`page * count <= 2 ^ 64`: for `page >= 1`, every `count` and head `H`, on a chain without
blocks above `H`, `GetPocBlocks(page, count)` returns, after exactly `count` iterations,
the summaries of exactly the existing blocks numbered from `H - (page - 1) * count` down
to `H - page * count + 1`, newest first: at most `count` entries, of strictly decreasing
`Number` when every block carries its own number. -/
theorem GetPocBlocks_window (chain : Nat → Option ChainBlock) (ch : Header)
    (page cnt fuel : Nat) (hp1 : 1 ≤ page) (hp2 : page < 2 ^ 63)
    (hpc : page * cnt ≤ 2 ^ 64) (hH : bigUint64 ch.Number + cnt < 2 ^ 64)
    (hfuel : cnt < fuel) (hhead : ∀ i, bigUint64 ch.Number < i → chain i = none) :
    ∃ rs : List BlockSummary, GetPocBlocks chain ch (page : Int) cnt fuel = some (rs, cnt) ∧
      rs = windowSummaries chain (bigUint64 ch.Number) ((page - 1) * cnt) cnt ∧
      rs.length ≤ cnt ∧
      (∀ s, s ∈ rs ↔ ∃ (i : Nat) (bl : ChainBlock), chain i = some bl ∧ s = summaryOf bl ∧
        ((bigUint64 ch.Number : Int) - page * cnt + 1 ≤ i ∧
         (i : Int) ≤ (bigUint64 ch.Number : Int) - (page - 1) * cnt)) ∧
      ((∀ i bl, chain i = some bl → bl.Number = (i : Int)) →
        (rs.map (fun s => s.Number)).Pairwise (fun a b => a > b)) := by
  have hA : (page - 1) * cnt + cnt = page * cnt := by
    obtain ⟨q, rfl⟩ : ∃ q, page = q + 1 := ⟨page - 1, by omega⟩
    rw [Nat.add_sub_cancel]
    ring
  have hAi : (((page - 1) * cnt : Nat) : Int) = ((page : Int) - 1) * cnt := by
    rw [Nat.cast_mul, Nat.cast_sub hp1]
    rfl
  have hPi : ((page * cnt : Nat) : Int) = (page : Int) * cnt := Nat.cast_mul _ _
  refine ⟨_, GetPocBlocks_eq chain ch page cnt fuel hp1 hp2 hpc hH hfuel hhead, rfl, ?_,
    fun s => ?_, windowSummaries_numbers chain _ _ cnt⟩
  · unfold windowSummaries
    exact (List.length_filterMap_le _ _).trans (by rw [List.length_range])
  · rw [mem_windowSummaries]
    constructor
    · rintro ⟨i, bl, hc, hs, h1, h2⟩
      refine ⟨i, bl, hc, hs, ?_, ?_⟩
      · rw [← hPi, ← hA]
        omega
      · rw [← hAi]
        omega
    · rintro ⟨i, bl, hc, hs, h1, h2⟩
      rw [← hPi, ← hA] at h1
      rw [← hAi] at h2
      exact ⟨i, bl, hc, hs, by omega, by omega⟩

/-- Claim C21, amended, on the second page of two blocks of a chain of the blocks 0 to 5:
the summaries of the blocks 3 and 2, after two iterations. -/
theorem GetPocBlocks_window_witness :
    bigUint64 headFive.Number + 2 < 2 ^ 64 ∧
    (∀ i, bigUint64 headFive.Number < i → chainSix i = none) ∧
    GetPocBlocks chainSix headFive 2 2 3 =
      some ([summaryOf { Coinbase := [], Hash := [], Number := 3, Time := 103,
                         Transactions := [] },
             summaryOf { Coinbase := [], Hash := [], Number := 2, Time := 102,
                         Transactions := [] }], 2) ∧
    ∃ rs : List BlockSummary, GetPocBlocks chainSix headFive ((2 : Nat) : Int) 2 3
        = some (rs, 2) ∧
      rs = windowSummaries chainSix (bigUint64 headFive.Number) ((2 - 1) * 2) 2 ∧
      rs.length ≤ 2 ∧
      (∀ s, s ∈ rs ↔ ∃ (i : Nat) (bl : ChainBlock), chainSix i = some bl ∧ s = summaryOf bl ∧
        ((bigUint64 headFive.Number : Int) - (2 : Nat) * (2 : Nat) + 1 ≤ i ∧
         (i : Int) ≤ (bigUint64 headFive.Number : Int) - ((2 : Nat) - 1) * (2 : Nat))) ∧
      ((∀ i bl, chainSix i = some bl → bl.Number = (i : Int)) →
        (rs.map (fun s => s.Number)).Pairwise (fun a b => a > b)) :=
  ⟨by decide,
   fun i hi => if_neg (by
     have : bigUint64 headFive.Number = 5 := rfl
     omega),
   by decide,
   GetPocBlocks_window chainSix headFive 2 2 3 (by decide) (by decide) (by decide)
     (by decide) (by decide) (fun i hi => if_neg (by
       have : bigUint64 headFive.Number = 5 := rfl
       omega))⟩

/-- Claim C22: for a non-empty batch whose results are `errors` (`errors[i]` for
`headers[i]`) and every sequence of `select` cases in which the indices received from
`done` are the indices of the batch, each once, in any order, the releasing goroutine
returns having sent exactly the results `errors[0], ..., errors[n-1]`, in this order; and
at every moment the results sent so far are an initial segment of `errors`. -/
theorem VerifyHeaders_order (errors : List Outcome) (events : List VerifyEvent)
    (hn : errors ≠ []) (hperm : (doneIndices events).Perm (List.range errors.length)) :
    (∃ r, VerifyHeaders.run errors events = some r ∧ r.returned = true ∧
      r.results = errors ∧ r.results.length = errors.length) ∧
    (∀ m, ∃ r, VerifyHeaders.run errors (events.take m) = some r ∧ r.results <+: errors) := by
  have hidx : ∀ i, i ∈ doneIndices events → i < errors.length := fun i hi =>
    List.mem_range.mp (hperm.mem_iff.mp hi)
  constructor
  · obtain ⟨r, hr, hinv⟩ := foldlM_inv errors events [] _ (initial_inv errors hn) hidx
    have hret : r.returned = true := by
      cases h : r.returned with
      | true => rfl
      | false =>
        obtain ⟨hout, hon, _, hseen⟩ := hinv.2.2 h
        have hge : errors.length ≤ leadingTrue r.checked :=
          le_leadingTrue _ _ (fun j hj => hseen j
            (by
              rw [List.nil_append]
              exact hperm.mem_iff.mpr (List.mem_range.mpr hj)) hj)
        omega
    have hres := hinv.2.1 hret
    exact ⟨r, hr, hret, hres, by rw [hres]⟩
  · intro m
    obtain ⟨r, hr, hinv⟩ := foldlM_inv errors (events.take m) [] _ (initial_inv errors hn)
      (fun i hi => hidx i (mem_doneIndices_take events m i hi))
    refine ⟨r, hr, ?_⟩
    cases h : r.returned with
    | true =>
      rw [hinv.2.1 h]
    | false =>
      rw [(hinv.2.2 h).2.2.1]
      exact List.take_prefix _ _

/-- Claim C22 on a batch of three headers whose workers finish in the order 1, 2, 0. -/
theorem VerifyHeaders_order_witness :
    [Outcome.ok, Outcome.err "invalid block number", Outcome.ok] ≠ [] ∧
    (doneIndices [VerifyEvent.send, VerifyEvent.send, VerifyEvent.done 1, VerifyEvent.send,
      VerifyEvent.done 2, VerifyEvent.done 0]).Perm (List.range 3) ∧
    ((∃ r, VerifyHeaders.run [Outcome.ok, Outcome.err "invalid block number", Outcome.ok]
        [VerifyEvent.send, VerifyEvent.send, VerifyEvent.done 1, VerifyEvent.send,
          VerifyEvent.done 2, VerifyEvent.done 0] = some r ∧ r.returned = true ∧
      r.results = [Outcome.ok, Outcome.err "invalid block number", Outcome.ok] ∧
      r.results.length
        = [Outcome.ok, Outcome.err "invalid block number", Outcome.ok].length) ∧
    (∀ m, ∃ r, VerifyHeaders.run [Outcome.ok, Outcome.err "invalid block number", Outcome.ok]
        ([VerifyEvent.send, VerifyEvent.send, VerifyEvent.done 1, VerifyEvent.send,
          VerifyEvent.done 2, VerifyEvent.done 0].take m) = some r ∧
      r.results <+: [Outcome.ok, Outcome.err "invalid block number", Outcome.ok])) :=
  ⟨by decide, by decide,
   VerifyHeaders_order [Outcome.ok, Outcome.err "invalid block number", Outcome.ok]
     [VerifyEvent.send, VerifyEvent.send, VerifyEvent.done 1, VerifyEvent.send,
       VerifyEvent.done 2, VerifyEvent.done 0] (by decide) (by decide)⟩

/-- Claim C23, as worded, on a run that scans no plot file: the miner emits with its
variables still `(9999999999, 0, 0)`, and 9999999999 is not `2 ^ 32 - 1`. -/
theorem mine_initial_state_counterexample :
    mine lengthShabal envIdle blockA 1000000000000000000 1 =
      Scan.found { minDeadLine := 9999999999, minPubID := 0, minNonce := 0, tick := 0 }
        20000000000 sealedIdle ∧
    sealedIdle.DeadLine = 9999999999 ∧
    (9999999999 : Int) ≠ 2 ^ 32 - 1 :=
  ⟨mine_envIdle, rfl, by decide⟩

/-- Claim C23, amended: the miner's variables `(minDeadLine, minPubID, minNonce)` are
initialized to `(9999999999, 0, 0)`: the scan of the plot directories starts from that
state, and a run that goes through no plot directory emits with that state. -/
theorem mine_initial_state (S : Shabal) (env : MineEnv) (block : Block) (bt : Int)
    (fuel : Nat) (addrPlotID : Nat) (node : Node) (dirBytes : List Char)
    (hc : CalcPlotID block.header.Coinbase = some addrPlotID)
    (hn : env.nodes addrPlotID = some node) (hp : env.plot = some dirBytes) :
    mine S env block bt fuel =
      (match scanDirs (mineCtx S env block bt addrPlotID node) fuel (plotDirs dirBytes)
          { minDeadLine := 9999999999, minPubID := 0, minNonce := 0, tick := 0 } with
        | Scan.done st => waitLoop (mineCtx S env block bt addrPlotID node) fuel st
        | other => other) ∧
    (plotDirs dirBytes = [] → ∀ (st : MinerState) (now : Int) (hdr : Header),
      mine S env block bt fuel = Scan.found st now hdr →
      st.minDeadLine = 9999999999 ∧ st.minPubID = 0 ∧ st.minNonce = 0) := by
  have h := mine_eq S env block bt fuel addrPlotID node dirBytes hc hn hp
  refine ⟨h, fun hd st now hdr hf => ?_⟩
  rw [h, hd] at hf
  exact waitLoop_state _ fuel mineStart st now hdr hf

/-- Claim C23, amended, on a run with an empty `PLOT` file. -/
theorem mine_initial_state_witness :
    CalcPlotID blockA.header.Coinbase = some 9 ∧
    envIdle.nodes 9 = some { MinNonce := 0, MaxNonce := 100 } ∧
    envIdle.plot = some [] ∧
    (mine lengthShabal envIdle blockA 1000000000000000000 1 =
      (match scanDirs
          (mineCtx lengthShabal envIdle blockA 1000000000000000000 9
            { MinNonce := 0, MaxNonce := 100 }) 1 (plotDirs [])
          { minDeadLine := 9999999999, minPubID := 0, minNonce := 0, tick := 0 } with
        | Scan.done st =>
          waitLoop (mineCtx lengthShabal envIdle blockA 1000000000000000000 9
            { MinNonce := 0, MaxNonce := 100 }) 1 st
        | other => other) ∧
    (plotDirs [] = [] → ∀ (st : MinerState) (now : Int) (hdr : Header),
      mine lengthShabal envIdle blockA 1000000000000000000 1 = Scan.found st now hdr →
      st.minDeadLine = 9999999999 ∧ st.minPubID = 0 ∧ st.minNonce = 0)) :=
  ⟨CalcPlotID_blockA, rfl, rfl,
   mine_initial_state lengthShabal envIdle blockA 1000000000000000000 1 9
     { MinNonce := 0, MaxNonce := 100 } [] CalcPlotID_blockA rfl rfl⟩

/-- Claim C24: when the scan of the plot directories ends with `minDeadLine` still
9999999999 (no scanned nonce of the authorized window has a deadline below it), the miner
emits at the first reading `now` of the clock with `now > LastTime + 9999999999`, and the
header has `DeadLine = 9999999999`, `Nonce = 0` and `PlotID = 0`; and every header emitted
while `minDeadLine` is 9999999999, inside the scan too, has these three values. -/
theorem mine_sentinel_emission (S : Shabal) (env : MineEnv) (block : Block) (bt : Int)
    (fuel : Nat) (addrPlotID : Nat) (node : Node) (dirBytes : List Char) (st : MinerState)
    (k : Nat)
    (hc : CalcPlotID block.header.Coinbase = some addrPlotID)
    (hn : env.nodes addrPlotID = some node) (hp : env.plot = some dirBytes)
    (hscan : scanDirs (mineCtx S env block bt addrPlotID node) fuel (plotDirs dirBytes)
      { minDeadLine := 9999999999, minPubID := 0, minNonce := 0, tick := 0 } = Scan.done st)
    (hmin : st.minDeadLine = 9999999999) (hk : k < fuel)
    (hwait : ∀ j, j < k →
      ¬ 9999999999 + block.LastTime < (uint64OfInt64 (env.clock (st.tick + j)) : Int))
    (hnow : 9999999999 + block.LastTime < (uint64OfInt64 (env.clock (st.tick + k)) : Int)) :
    (∃ (st' : MinerState) (hdr : Header),
      mine S env block bt fuel = Scan.found st' (env.clock (st.tick + k)) hdr ∧
      hdr.DeadLine = 9999999999 ∧ hdr.Nonce = 0 ∧ hdr.PlotID = 0 ∧
      hdr.Time = (uint64OfInt64 (env.clock (st.tick + k)) : Int)) ∧
    (∀ (st' : MinerState) (now : Int) (hdr : Header),
      mine S env block bt fuel = Scan.found st' now hdr → st'.minDeadLine = 9999999999 →
      hdr.DeadLine = 9999999999 ∧ hdr.Nonce = 0 ∧ hdr.PlotID = 0 ∧
      hdr.Time > hdr.LastTime + 9999999999) := by
  have hst : st.minPubID = 0 ∧ st.minNonce = 0 := by
    have hs := (scanDirs_sentinel (mineCtx S env block bt addrPlotID node) fuel
      (plotDirs dirBytes) mineStart (Or.inl ⟨rfl, rfl, rfl⟩)).1 st hscan
    rcases hs with hs | hs
    · exact hs.2
    · omega
  constructor
  · have h := mine_eq S env block bt fuel addrPlotID node dirBytes hc hn hp
    have hscan2 : scanDirs (mineCtx S env block bt addrPlotID node) fuel (plotDirs dirBytes)
        mineStart = Scan.done st := hscan
    rw [hscan2] at h
    have hw := waitLoop_first (mineCtx S env block bt addrPlotID node) k fuel st hk
      (fun j hj => decide_eq_false (by
        show ¬ st.minDeadLine + block.LastTime < (uint64OfInt64 (env.clock (st.tick + j)) : Int)
        rw [hmin]
        exact hwait j hj))
      (decide_eq_true (by
        show st.minDeadLine + block.LastTime < (uint64OfInt64 (env.clock (st.tick + k)) : Int)
        rw [hmin]
        exact hnow))
    refine ⟨_, _, h.trans hw, hmin, hst.2, hst.1, rfl⟩
  · intro st' now hdr hf hm
    obtain ⟨hlt, he⟩ := mine_found S env block bt fuel st' now hdr hf
    have hs' : Sentinel st' := by
      have h := mine_eq S env block bt fuel addrPlotID node dirBytes hc hn hp
      rw [h] at hf
      have hsd := scanDirs_sentinel (mineCtx S env block bt addrPlotID node) fuel
        (plotDirs dirBytes) mineStart (Or.inl ⟨rfl, rfl, rfl⟩)
      cases hsc : scanDirs (mineCtx S env block bt addrPlotID node) fuel (plotDirs dirBytes)
          mineStart with
      | done st1 =>
        rw [hsc] at hf
        have hw := waitLoop_state _ fuel st1 st' now hdr hf
        have h1 := hsd.1 st1 hsc
        rcases h1 with h1 | h1
        · exact Or.inl ⟨hw.1.trans h1.1, hw.2.1.trans h1.2.1, hw.2.2.trans h1.2.2⟩
        · exact Or.inr (by rw [hw.1]; exact h1)
      | found st1 now1 hdr1 =>
        rw [hsc] at hf
        injection hf with h1 h2 h3
        subst h1
        exact hsd.2 _ _ _ hsc
      | panic =>
        rw [hsc] at hf
        cases hf
      | stopped =>
        rw [hsc] at hf
        cases hf
      | running =>
        rw [hsc] at hf
        cases hf
    have hz : st'.minPubID = 0 ∧ st'.minNonce = 0 := by
      rcases hs' with hs' | hs'
      · exact hs'.2
      · omega
    subst he
    refine ⟨hm, hz.2, hz.1, ?_⟩
    show (uint64OfInt64 now : Int) > block.header.LastTime + 9999999999
    have e : block.LastTime = block.header.LastTime := rfl
    omega

/-- Claim C24 on a run with an empty `PLOT` file and a clock that reads 20000000000. -/
theorem mine_sentinel_emission_witness :
    (∃ (st' : MinerState) (hdr : Header),
      mine lengthShabal envIdle blockA 1000000000000000000 1
        = Scan.found st' (envIdle.clock (mineStart.tick + 0)) hdr ∧
      hdr.DeadLine = 9999999999 ∧ hdr.Nonce = 0 ∧ hdr.PlotID = 0 ∧
      hdr.Time = (uint64OfInt64 (envIdle.clock (mineStart.tick + 0)) : Int)) ∧
    (∀ (st' : MinerState) (now : Int) (hdr : Header),
      mine lengthShabal envIdle blockA 1000000000000000000 1 = Scan.found st' now hdr →
      st'.minDeadLine = 9999999999 →
      hdr.DeadLine = 9999999999 ∧ hdr.Nonce = 0 ∧ hdr.PlotID = 0 ∧
      hdr.Time > hdr.LastTime + 9999999999) :=
  mine_sentinel_emission lengthShabal envIdle blockA 1000000000000000000 1 9
    { MinNonce := 0, MaxNonce := 100 } [] mineStart 0 CalcPlotID_blockA rfl rfl rfl rfl
    (by decide) (fun j hj => absurd hj (Nat.not_lt_zero j)) (by decide)

/-- Claim C25: after the miner has gone through the slab of a plot file named
`pid_s_T` with `pid = addrPlotID` (`1 <= T < 2 ^ 45`, the file can be opened, base target
not 0) without emitting, its variables are those obtained from the ones before the file by
going through the entries `j = 0, ..., T - 1` in order, an entry outside the window
`[MinNonce, MaxNonce]` changing nothing. So `minDeadLine` is the minimum of its value
before and the deadlines of the authorized entries; when it is unchanged, `minPubID` and
`minNonce` are unchanged; when it is lower, it is the deadline of an authorized nonce
`s + j` of the file, the first one scanned with that deadline, and
`(minPubID, minNonce) = (addrPlotID, s + j)`. -/
theorem scanFile_min_tracking (c : MineCtx) (fi : PlotEntry) (st st' : MinerState)
    (pid s T fuel : Nat) (bytes : List Byte) (hpar : fi.parses pid s (T : Int))
    (hpid : pid = c.addrPlotID) (hcont : fi.content = some bytes) (hT1 : 1 ≤ T)
    (hT : T < 2 ^ 45) (hs : c.scoopID < 256) (hbt : c.baseTarget ≠ 0)
    (hdone : scanFile c fi fuel st { total := 0, index := 0, pubID := 0, nonce := 0, data := [] }
      = Scan.done st') :
    st' = (List.range T).foldl (trackStep c pid s (slabOf c bytes T)) st ∧
    (∀ (st₀ : MinerState) (j : Nat),
      ¬ (c.node.MinNonce ≤ (s + j) % 2 ^ 64 ∧ (s + j) % 2 ^ 64 ≤ c.node.MaxNonce) →
      trackStep c pid s (slabOf c bytes T) st₀ j = st₀) ∧
    st'.minDeadLine ≤ st.minDeadLine ∧
    (∀ j, j < T →
      c.node.MinNonce ≤ (s + j) % 2 ^ 64 ∧ (s + j) % 2 ^ 64 ≤ c.node.MaxNonce →
      st'.minDeadLine ≤ slabDeadLine c (slabOf c bytes T) j) ∧
    (st'.minDeadLine = st.minDeadLine →
      st'.minPubID = st.minPubID ∧ st'.minNonce = st.minNonce) ∧
    (st'.minDeadLine < st.minDeadLine →
      ∃ j, j < T ∧
        (c.node.MinNonce ≤ (s + j) % 2 ^ 64 ∧ (s + j) % 2 ^ 64 ≤ c.node.MaxNonce) ∧
        slabDeadLine c (slabOf c bytes T) j = st'.minDeadLine ∧
        st'.minPubID = c.addrPlotID ∧ st'.minNonce = (s + j) % 2 ^ 64 ∧
        ∀ j', j' < j →
          c.node.MinNonce ≤ (s + j') % 2 ^ 64 ∧ (s + j') % 2 ^ 64 ≤ c.node.MaxNonce →
          st'.minDeadLine < slabDeadLine c (slabOf c bytes T) j') := by
  obtain ⟨k, _, hk, hkT⟩ := scanFile_tracked c fi st st' pid s T fuel bytes hpar hpid hcont
    hT1 hT hs hbt (Or.inl hdone)
  have ek := hkT hdone
  subst ek
  have htr := trackedMin_range c pid s (slabOf c bytes k) st 0 k
  rw [← hk, Nat.zero_add] at htr
  obtain ⟨h1, h2, h3, h4⟩ := htr
  refine ⟨?_, fun st₀ j hj => ?_, h1, fun j hj ha => h2 j (Nat.zero_le _) hj ha, h3,
    fun hlt => ?_⟩
  · rw [hk, List.range_eq_range']
    rfl
  · unfold trackStep
    rw [if_neg hj]
  · obtain ⟨i, _, a2, a3, a4, a5, a6, a7⟩ := h4 hlt
    exact ⟨i, a2, a3, a4, by rw [a5, hpid], a6, fun j' hj' ha' => a7 j' (Nat.zero_le _) hj' ha'⟩

/-- Claim C25 on the plot file `9_5_2` whose two entries have the deadline 6: after the
file the minimum is 6, with the nonce 5 of the first entry. -/
theorem scanFile_min_tracking_witness :
    scanFile ctxLate fileZeros 3 mineStart
        { total := 0, index := 0, pubID := 0, nonce := 0, data := [] }
      = Scan.done { minDeadLine := 6, minPubID := 9, minNonce := 5, tick := 2 } ∧
    ((6 : Int) < mineStart.minDeadLine →
      ∃ j, j < 2 ∧
        (ctxLate.node.MinNonce ≤ (5 + j) % 2 ^ 64 ∧ (5 + j) % 2 ^ 64 ≤ ctxLate.node.MaxNonce) ∧
        slabDeadLine ctxLate (slabOf ctxLate (List.replicate 128 0) 2) j = 6 ∧
        9 = ctxLate.addrPlotID ∧ 5 = (5 + j) % 2 ^ 64 ∧
        ∀ j', j' < j →
          ctxLate.node.MinNonce ≤ (5 + j') % 2 ^ 64 ∧
            (5 + j') % 2 ^ 64 ≤ ctxLate.node.MaxNonce →
          (6 : Int) < slabDeadLine ctxLate (slabOf ctxLate (List.replicate 128 0) 2) j') :=
  ⟨scanFile_fileZeros,
   (scanFile_min_tracking ctxLate fileZeros mineStart
      { minDeadLine := 6, minPubID := 9, minNonce := 5, tick := 2 } 9 5 2 3
      (List.replicate 128 0) ⟨by decide, by decide, by decide, by decide⟩ rfl rfl (by decide)
      (by decide) (by decide) (by decide) scanFile_fileZeros).2.2.2.2.2⟩

/-- Claim C26: for a file of `singCount < 2 ^ 45` nonces whose first nonce is `s`, every
write the plotter issues is the one of a scoop `k < 4096` and a batch `j` of `once`
nonces (`once = 400` for `j < singCount / 400`, `once = singCount mod 400` for the last
batch when that is not 0): its offset is `64 * singCount * k + 64 * 400 * j`, its length
`64 * once`, it lies inside the `singCount * 262144` bytes of the file, and its data are
built from the cells of the nonces `s + 400 * j + q`, `q < once`; and every byte position
of the file is covered by exactly one of these writes, so the ranges are pairwise disjoint
and their union is the whole file. -/
theorem plotFile_writes_partition (S : Shabal) (plotID s c start : Nat) (hc : c < 2 ^ 45) :
    (∀ w ∈ (plotFileBatches S (paramOf c start plotID) s).flatMap (fun b => b.W),
      ∃ j once k, validBatch c j once ∧ k < 4096 ∧
        w.Index = ((64 * c * k + 64 * 400 * j : Nat) : Int) ∧
        w.Data.length = 64 * once ∧
        w.inside (c * 262144) ∧
        w.Data = plotData (cellsAt S plotID (s + 400 * j) once) once k ∧
        ∀ q, q < once →
          (cellsAt S plotID (s + 400 * j) once).getD q [] = GenCellForP S (s + 400 * j + q) plotID) ∧
    (∀ p, p < c * 262144 →
      ∃ w ∈ (plotFileBatches S (paramOf c start plotID) s).flatMap (fun b => b.W),
        w.covers p ∧
        ∀ w' ∈ (plotFileBatches S (paramOf c start plotID) s).flatMap (fun b => b.W),
          w'.covers p → w' = w) := by
  constructor
  · intro w hw
    obtain ⟨j, once, k, hv, hk, rfl⟩ := (mem_plotFile_writes S _ s w).1 hw
    rw [paramOf_SingCount] at hv
    have hb := validBatch_bounds hv
    have hlen := (plotData_spec (cellsAt S plotID (s + 400 * j) once) once k).1
    refine ⟨j, once, k, hv, hk, ?_, hlen, ?_, rfl, fun q hq => ?_⟩
    · show plotIndex c k j 400 = _
      rw [plotIndex_eq c k j hc hk (by omega)]
      congr 1
      rw [Nat.mul_assoc 64 c k]
    · exact write_inside c k j once hc hk hv _ hlen
    · rw [getD_cellsAt S plotID (s + 400 * j) once q hq]
  · intro p hp
    obtain ⟨k, m, t, hk, hm, ht, rfl⟩ := position_decompose c p hp
    obtain ⟨w, hw, hcov⟩ := plotFile_writes_cover S plotID s c start k m t hc hk hm ht
    refine ⟨w, hw, hcov, fun w' hw' hcov' => ?_⟩
    obtain ⟨j, once, k₁, hv, hk₁, e⟩ := (mem_plotFile_writes S _ s w).1 hw
    obtain ⟨j', once', k₂, hv', hk₂, e'⟩ := (mem_plotFile_writes S _ s w').1 hw'
    rw [paramOf_SingCount] at hv hv'
    have hb := validBatch_bounds hv
    have hb' := validBatch_bounds hv'
    have h1 := (write_covers_iff c k m t k₁ j once hc hk hm ht hk₁ hv _ w e
      (plotData_spec _ once k₁).1).1 hcov
    have h2 := (write_covers_iff c k m t k₂ j' once' hc hk hm ht hk₂ hv' _ w' e'
      (plotData_spec _ once' k₂).1).1 hcov'
    have ej : j' = j := by omega
    subst ej
    have eo : once' = once := validBatch_unique hv' hv
    subst eo
    rw [e, e', h1.1, h2.1]

/-- Claim C26 on a file of 3 nonces. -/
theorem plotFile_writes_partition_witness :
    3 < 2 ^ 45 ∧
    (∀ p, p < 3 * 262144 →
      ∃ w ∈ (plotFileBatches lengthShabal (paramOf 3 0 9) 7).flatMap (fun b => b.W),
        w.covers p ∧
        ∀ w' ∈ (plotFileBatches lengthShabal (paramOf 3 0 9) 7).flatMap (fun b => b.W),
          w'.covers p → w' = w) :=
  ⟨by decide, (plotFile_writes_partition lengthShabal 9 7 3 0 (by decide)).2⟩

/-- Claim C27 at `singCount = 400`, and at every multiple of 400: the plotter submits
`singCount / 400` batches for the file and none of them carries `Close = true`; when
`singCount` is not a multiple of 400, the last batch, and only it, carries
`Close = true`. -/
theorem plotFileBatches_close (S : Shabal) (start plotID base : Nat) :
    (plotFileBatches S (paramOf 400 start plotID) base).map (fun b => b.Close) = [false] ∧
    (∀ c : Nat, c % 400 = 0 →
      ∀ b ∈ plotFileBatches S (paramOf c start plotID) base, b.Close = false) ∧
    (∀ c : Nat, c % 400 ≠ 0 →
      (plotFileBatches S (paramOf c start plotID) base).map (fun b => b.Close)
        = List.replicate (c / 400) false ++ [true]) := by
  refine ⟨?_, fun c hc b hb => ?_, fun c hc => ?_⟩
  · rw [map_Close_plotFileBatches]
    rfl
  · have h := map_Close_plotFileBatches S c start plotID base
    rw [if_pos hc, List.append_nil] at h
    have hm : b.Close ∈ (plotFileBatches S (paramOf c start plotID) base).map
        (fun b => b.Close) := List.mem_map_of_mem _ hb
    rw [h] at hm
    exact (List.mem_replicate.mp hm).2
  · rw [map_Close_plotFileBatches, if_neg hc]

/-- Claim C28: for every 32-byte `genHash`, `GetScoopID genHash` is the value of
`genHash[31]`: it is below 256, and it does not change when `genHash[30]` is replaced by
any byte. -/
theorem GetScoopID_last_byte (genHash : List Byte) (hlen : genHash.length = 32) :
    GetScoopID genHash = (genHash.get ⟨31, by omega⟩).val ∧
    GetScoopID genHash < 256 ∧
    ∀ b : Byte, GetScoopID (genHash.set 30 b) = GetScoopID genHash := by
  have e : genHash.getD 31 0 = genHash.get ⟨31, by omega⟩ := by
    rw [List.getD_eq_getElem _ _ (by omega)]
    rfl
  refine ⟨by rw [GetScoopID_eq, e], ?_, fun b => ?_⟩
  · rw [GetScoopID_eq]
    exact Fin.isLt _
  · rw [GetScoopID_eq, GetScoopID_eq, getD_set, if_neg (by omega)]

/-- Claim C28 on the hash whose bytes 30 and 31 are `0x0F` and `0xFF`: the scoop is 255. -/
theorem GetScoopID_last_byte_witness :
    (List.replicate 30 (0 : Byte) ++ [0x0F, 0xFF]).length = 32 ∧
    GetScoopID (List.replicate 30 (0 : Byte) ++ [0x0F, 0xFF]) = 255 ∧
    GetScoopID (List.replicate 30 (0 : Byte) ++ [0x0F, 0xFF]) < 256 ∧
    ∀ b : Byte, GetScoopID ((List.replicate 30 (0 : Byte) ++ [0x0F, 0xFF]).set 30 b)
      = GetScoopID (List.replicate 30 (0 : Byte) ++ [0x0F, 0xFF]) :=
  ⟨by decide,
   (GetScoopID_last_byte (List.replicate 30 (0 : Byte) ++ [0x0F, 0xFF]) (by decide)).1,
   (GetScoopID_last_byte (List.replicate 30 (0 : Byte) ++ [0x0F, 0xFF]) (by decide)).2⟩

/-- Claim C29: for a candidate block whose `Coinbase` maps to `addrPlotID`, a base target
above 0 and a plot file named `addrPlotID_s_T` (`T < 2 ^ 45`) that holds exactly the bytes
the plotter writes for it: when the scan of that file lowers `minDeadLine`, so that
`(minPubID, minNonce)` are taken from the file, every header sealed from these variables,
the one emitted inside the scan of the file as well as one emitted later, is answered by
`VerifySeal` with acceptance or with "time mismatch": never with "plotID mismatch",
"deadline compute error" or "deadline not satisfy", and never with a panic. -/
theorem scanFile_seal_verifies (S : Shabal) (env : MineEnv) (block : Block) (bt : Int)
    (addrPlotID : Nat) (node : Node) (fi : PlotEntry) (st st' : MinerState)
    (s T start fuel : Nat)
    (hc : CalcPlotID block.header.Coinbase = some addrPlotID)
    (hpar : fi.parses addrPlotID s (T : Int))
    (hcont : fi.content = some (plotFile S (paramOf T start addrPlotID) s))
    (hT1 : 1 ≤ T) (hT : T < 2 ^ 45) (hbt : 0 < bt)
    (hscan : scanFile (mineCtx S env block bt addrPlotID node) fi fuel st
        { total := 0, index := 0, pubID := 0, nonce := 0, data := [] } = Scan.done st' ∨
      ∃ now hdr, scanFile (mineCtx S env block bt addrPlotID node) fi fuel st
        { total := 0, index := 0, pubID := 0, nonce := 0, data := [] }
        = Scan.found st' now hdr)
    (htaken : st'.minDeadLine < st.minDeadLine) :
    (∀ (now : Int) (hdr : Header),
      scanFile (mineCtx S env block bt addrPlotID node) fi fuel st
        { total := 0, index := 0, pubID := 0, nonce := 0, data := [] }
        = Scan.found st' now hdr →
      ∀ nowV : Int, VerifySeal S nowV hdr = Outcome.ok ∨
        VerifySeal S nowV hdr = Outcome.err "time mismatch") ∧
    (∀ now nowV : Int,
      deadlinePassed (mineCtx S env block bt addrPlotID node) st' now = true →
      VerifySeal S nowV (sealedHeader (mineCtx S env block bt addrPlotID node) st' now)
          = Outcome.ok ∨
      VerifySeal S nowV (sealedHeader (mineCtx S env block bt addrPlotID node) st' now)
          = Outcome.err "time mismatch") := by
  have hs : (mineCtx S env block bt addrPlotID node).scoopID < 256 := by
    show GetScoopID _ < 256
    rw [GetScoopID_eq]
    exact Fin.isLt _
  have hbt' : (mineCtx S env block bt addrPlotID node).baseTarget ≠ 0 := by
    show bt ≠ 0
    omega
  obtain ⟨k, hk, hst, _⟩ := scanFile_tracked (mineCtx S env block bt addrPlotID node) fi st st'
    addrPlotID s T fuel _ hpar rfl hcont hT1 hT hs hbt' hscan
  have htr := trackedMin_range (mineCtx S env block bt addrPlotID node) addrPlotID s
    (slabOf (mineCtx S env block bt addrPlotID node)
      (plotFile S (paramOf T start addrPlotID) s) T) st 0 k
  rw [← hst, Nat.zero_add] at htr
  obtain ⟨i, _, a2, _, a4, a5, a6, _⟩ := htr.2.2.2 htaken
  have key : ∀ now nowV : Int,
      deadlinePassed (mineCtx S env block bt addrPlotID node) st' now = true →
      VerifySeal S nowV (sealedHeader (mineCtx S env block bt addrPlotID node) st' now)
          = Outcome.ok ∨
      VerifySeal S nowV (sealedHeader (mineCtx S env block bt addrPlotID node) st' now)
          = Outcome.err "time mismatch" := fun now nowV hpass =>
    sealed_verifies S env block bt addrPlotID node st' s T start i now nowV hc hT (by omega)
      (by omega) a4 a5 a6 hpass
  refine ⟨fun now hdr hf nowV => ?_, key⟩
  obtain ⟨hp, he⟩ := scanFile_found _ fi fuel st _ st' now hdr hf
  rw [he]
  exact key now nowV hp

/-- Claim C29 on the plot file `9_5_2` of the plotter: the miner emits from its first
entry, and the verifier answers the header with acceptance or "time mismatch". -/
theorem scanFile_seal_verifies_witness :
    scanFile (mineCtx lengthShabal (envFile filePlotted.name filePlotted.content) blockA
        1000000000000000000 9 { MinNonce := 0, MaxNonce := 100 }) filePlotted 2 mineStart
        { total := 0, index := 0, pubID := 0, nonce := 0, data := [] }
      = Scan.found { minDeadLine := 6, minPubID := 9, minNonce := 5, tick := 1 } 1000
          sealedPlot ∧
    ∀ nowV : Int, VerifySeal lengthShabal nowV sealedPlot = Outcome.ok ∨
      VerifySeal lengthShabal nowV sealedPlot = Outcome.err "time mismatch" :=
  ⟨scanFile_filePlotted,
   (scanFile_seal_verifies lengthShabal (envFile filePlotted.name filePlotted.content) blockA
      1000000000000000000 9 { MinNonce := 0, MaxNonce := 100 } filePlotted mineStart
      { minDeadLine := 6, minPubID := 9, minNonce := 5, tick := 1 } 5 2 0 2
      CalcPlotID_blockA filePlotted_parses rfl (by decide)
      (by decide) (by decide) (Or.inr ⟨1000, sealedPlot, scanFile_filePlotted⟩)
      (by decide)).1 1000 sealedPlot scanFile_filePlotted⟩

/-- Claim C30 on two plot files of the plot identifier of the candidate: on the file
`9_5_0` (count 0) the loop over the file never ends, for any content and any number of
iterations allowed; on the file `9_5_-1` (negative count) the first iteration panics,
allocating a buffer of negative length. -/
theorem mine_count_zero_loops :
    (∀ (S : Shabal) (content : Option (List Byte)) (bt : Int) (fuel : Nat),
      mine S (envFile ['9', '_', '5', '_', '0'] content) blockA bt fuel = Scan.running) ∧
    (∀ (S : Shabal) (bytes : List Byte) (bt : Int) (fuel : Nat),
      mine S (envFile ['9', '_', '5', '_', '-', '1'] (some bytes)) blockA bt (fuel + 1)
        = Scan.panic) := by
  constructor
  · intro S content bt fuel
    rw [mine_envFile, scanFile_zero_count _ content rfl fuel mineStart _ rfl]
  · intro S bytes bt fuel
    rw [mine_envFile]
    unfold scanFile
    rw [fileStep_negative_count _ bytes mineStart _ rfl rfl]

end GoXdn
